import Mathlib

/-!
# emp-wasm: the Bristol circuit container (`circuit_file.h`)

A shallow embedding of `emp::BristolFormat` / `emp::BristolFashion`:
the binary decoder `from_buffer`, the textual parsers `from_stream` and
`BristolFashion::from_file`, the exporter `to_file`, the evaluators `compute`
and `execute_circuit`, the host entry point `get_circuit` and the receive
buffer `RawIOJS::recv` of `jslib.cpp`, and the helper `binary_to_hex` of
`test_m2pc.cpp`.

Conventions of the embedding.

* `uint8_t` is `Fin 256`; `uint32_t` and `size_t` values are `Nat`; `int` is `Int`
  restricted to `[-2^31, 2^31)`.
* `static_cast<int>` of a `uint32_t` is the two's complement reading (`to_int`).
* Signed `int` arithmetic whose mathematical result leaves `[-2^31, 2^31)`
  has no defined result in C++; so has an access outside a vector or buffer.
  Both are the outcome `undefined` (`none` in the evaluator).
* `std::vector::resize` with a count that came from a negative `int`
  (hence a `size_t` above `max_size()` on every platform) throws
  `std::length_error`. A non-negative count is taken to be granted: neither
  the platform's `max_size()` nor the exhaustion of memory is modelled.
* The `size` argument of `from_buffer` is a non-negative `int`; it is a `Nat`
  here, and the theorems that need it assume the length of the buffer below `2^31`.
* The execution backend is a record of three gate functions that thread the
  state of the backend; the wire value type `block` is a type parameter whose
  value-initialised element is `default`.
* A text input is the list of its whitespace-delimited tokens. A token is a
  decimal integer literal or a word that does not start as an integer; a token
  of which an integer conversion would consume only a part is not modelled.
  The formatted extractions `>>` follow C++11 (a failed stream reads nothing, a
  failed conversion stores 0 or the nearest bound); the directives of `fscanf`
  follow C (a conversion that does not fit the object is undefined).
* A local that the code can read before writing it (`tmp`, `str`) is `none`
  while its value is indeterminate, and reading it then is undefined. The
  indeterminate `int` members of a default-constructed `BristolFormat` are
  arbitrary integers.
* The text `to_file` writes is a `String`; the file is taken to open.
* In `circuit_file.h`, which also builds for 64-bit hosts, no `size_t`
  expression wraps on the inputs considered and `size_t` values are plain
  `Nat`. In `RawIOJS::recv`, which exists only in the Emscripten build for
  wasm32, every `size_t` expression is reduced modulo `2^32` (`size_t`); the
  host function `recv_js` is a function from the request `(bytes_needed, room)`
  to the bytes it returns, and a loop that may not end takes a fuel argument.
-/

namespace emp

/-- One `uint8_t`. -/
abbrev Byte := Fin 256

def AND_GATE : Int := 0
def XOR_GATE : Int := 1
def NOT_GATE : Int := 2

/-- The exceptions `from_buffer` can raise: the three `std::runtime_error`s it
throws itself, and the `std::length_error` of `std::vector::resize`. -/
inductive Exn where
  | buffer_too_small
  | unknown_opcode
  | extra_bytes
  | length_error
  deriving DecidableEq, Repr

/-- How a call ends: normally, by an exception, or in undefined behaviour. -/
inductive Outcome where
  | ok
  | threw (e : Exn)
  | undefined
  deriving DecidableEq, Repr

/-- The value of `static_cast<int>(x)` for a `uint32_t` x. -/
def to_int (x : Nat) : Int :=
  if x % 2 ^ 32 < 2 ^ 31 then ((x % 2 ^ 32 : Nat) : Int) else ((x % 2 ^ 32 : Nat) : Int) - 2 ^ 32

/-- Whether a mathematical integer is representable in `int`, that is, whether
it lies in `[-2^31, 2^31)`: its positive part is below `2^31` and its negative
part is at most `2^31`. -/
def int_ok (x : Int) : Bool := decide (x.toNat < 2 ^ 31) && decide ((-x).toNat ≤ 2 ^ 31)

/-- The lambda `read_u32` of `from_buffer`, reading `p[0..3]` with `p = buf + off`.
`none` when one of the four bytes lies outside the buffer. -/
def read_u32 (buf : List Byte) (off : Nat) : Option Nat :=
  match buf[off]?, buf[off + 1]?, buf[off + 2]?, buf[off + 3]? with
  | some p0, some p1, some p2, some p3 =>
    some (p0.val ||| (p1.val <<< 8) ||| (p2.val <<< 16) ||| (p3.val <<< 24))
  | _, _, _, _ => none

/-- The call `v.resize(n)` of `std::vector` where the argument is the `int` n:
a negative n converts to a `size_t` above `max_size()` and the call throws
`std::length_error` (`none`); otherwise the vector is cut to n elements or
extended with value-initialised ones. -/
def vec_resize {α : Type} (v : List α) (n : Int) (zero : α) : Option (List α) :=
  if n < 0 then none
  else some (v.take n.toNat ++ List.replicate (n.toNat - v.length) zero)

/-- The assignment `v[i] = x` where i is an `int`; `none` when the slot does not exist. -/
def vec_set {α : Type} (v : List α) (i : Int) (x : α) : Option (List α) :=
  if 0 ≤ i ∧ i.toNat < v.length then some (v.set i.toNat x) else none

/-- The read `v[i]` where i is an `int`; `none` when the slot does not exist. -/
def vec_get {α : Type} (v : List α) (i : Int) : Option α :=
  if 0 ≤ i then v[i.toNat]? else none

/-- The data members of `class BristolFormat` (the stream `fout` apart). -/
structure BristolFormat (β : Type) where
  num_gate : Int
  num_wire : Int
  n1 : Int
  n2 : Int
  n3 : Int
  gates : List Int
  wires : List β

/-- The four assignments `gates[4*g] = a; gates[4*g+1] = b; gates[4*g+2] = c;
gates[4*g+3] = d` of one `case` of `from_buffer`. -/
def store_gate (gates : List Int) (g : Nat) (a b c d : Int) : Option (List Int) :=
  if int_ok (4 * (g : Int) + 3) then
    (vec_set gates (4 * (g : Int)) a).bind fun g0 =>
    (vec_set g0 (4 * (g : Int) + 1) b).bind fun g1 =>
    (vec_set g1 (4 * (g : Int) + 2) c).bind fun g2 =>
    vec_set g2 (4 * (g : Int) + 3) d
  else none

/-- State of the record loop of `from_buffer`: how the loop ended so far, the
`gates` vector and the read cursor `offset`. -/
structure LoopState where
  outcome : Outcome
  gates : List Int
  offset : Nat

/-- One pass through the body of `for (int g = 0; g < num_gate; ++g)` in
`from_buffer`: the record of gate g is read at `offset`. -/
def decode_record (buf : List Byte) (size : Nat) (g : Nat) (offset : Nat) (gates : List Int) :
    LoopState :=
  -- need(offset + 1)
  if offset + 1 > size then ⟨.threw .buffer_too_small, gates, offset⟩ else
  -- uint8_t opcode = buf[offset++]
  match buf[offset]? with
  | none => ⟨.undefined, gates, offset⟩
  | some opcode =>
    let offset := offset + 1
    if opcode.val = 0 then
      -- need(offset + 8)
      if offset + 8 > size then ⟨.threw .buffer_too_small, gates, offset⟩ else
      match read_u32 buf offset, read_u32 buf (offset + 4) with
      | some i, some o =>
        match store_gate gates g (to_int i) 0 (to_int o) NOT_GATE with
        | some gates => ⟨.ok, gates, offset + 8⟩
        | none => ⟨.undefined, gates, offset + 8⟩
      | _, _ => ⟨.undefined, gates, offset⟩
    else if opcode.val = 1 ∨ opcode.val = 2 then
      -- need(offset + 12)
      if offset + 12 > size then ⟨.threw .buffer_too_small, gates, offset⟩ else
      match read_u32 buf offset, read_u32 buf (offset + 4), read_u32 buf (offset + 8) with
      | some i1, some i2, some o =>
        match store_gate gates g (to_int i1) (to_int i2) (to_int o)
            (if opcode.val = 1 then XOR_GATE else AND_GATE) with
        | some gates => ⟨.ok, gates, offset + 12⟩
        | none => ⟨.undefined, gates, offset + 12⟩
      | _, _, _ => ⟨.undefined, gates, offset⟩
    else ⟨.threw .unknown_opcode, gates, offset⟩

/-- The loop `for (int g = 0; g < num_gate; ++g)` of `from_buffer`, run for the
`rem` remaining values of g; it stops at the first pass that does not end normally. -/
def decode_records (buf : List Byte) (size : Nat) :
    Nat → Nat → Nat → List Int → LoopState
  | 0, _, offset, gates => ⟨.ok, gates, offset⟩
  | rem + 1, g, offset, gates =>
    let st := decode_record buf size g offset gates
    match st.outcome with
    | .ok => decode_records buf size rem (g + 1) st.offset st.gates
    | _ => st

/-- The member function `BristolFormat::from_buffer(buf, size)`: the outcome of
the call and the object as the call leaves it. -/
def BristolFormat.from_buffer {β : Type} [Inhabited β] (self : BristolFormat β) (buf : List Byte)
    (size : Nat) : Outcome × BristolFormat β :=
  -- need(20)
  if 20 > size then (.threw .buffer_too_small, self) else
  match read_u32 buf 0, read_u32 buf 4, read_u32 buf 8, read_u32 buf 12, read_u32 buf 16 with
  | some h0, some h1, some h2, some h3, some h4 =>
    let self := { self with num_gate := to_int h0, num_wire := to_int h1,
                            n1 := to_int h2, n2 := to_int h3, n3 := to_int h4 }
    -- gates.resize(num_gate * 4)
    if int_ok (self.num_gate * 4) then
      match vec_resize self.gates (self.num_gate * 4) 0 with
      | none => (.threw .length_error, self)
      | some gates =>
        let self := { self with gates := gates }
        -- wires.resize(num_wire)
        match vec_resize self.wires self.num_wire default with
        | none => (.threw .length_error, self)
        | some wires =>
          let self := { self with wires := wires }
          let st := decode_records buf size self.num_gate.toNat 0 20 self.gates
          let self := { self with gates := st.gates }
          match st.outcome with
          | .ok =>
            if st.offset ≠ size then (.threw .extra_bytes, self) else (.ok, self)
          | out => (out, self)
    else (.undefined, self)
  | _, _, _, _, _ => (.undefined, self)

/-- The part of `from_buffer` that follows the five header reads h0, .., h4:
the assignments to the members, the two `resize` calls, the record loop (here
the parameter `loop`, applied to the number of passes and to the resized
`gates`) and the final comparison of the cursor with `size`. -/
def from_buffer_after_header {β : Type} [Inhabited β] (self : BristolFormat β)
    (h0 h1 h2 h3 h4 : Nat) (loop : Nat → List Int → LoopState) (size : Nat) :
    Outcome × BristolFormat β :=
  let self := { self with num_gate := to_int h0, num_wire := to_int h1,
                          n1 := to_int h2, n2 := to_int h3, n3 := to_int h4 }
  if int_ok (self.num_gate * 4) then
    match vec_resize self.gates (self.num_gate * 4) 0 with
    | none => (.threw .length_error, self)
    | some gates =>
      let self := { self with gates := gates }
      match vec_resize self.wires self.num_wire default with
      | none => (.threw .length_error, self)
      | some wires =>
        let self := { self with wires := wires }
        let st := loop self.num_gate.toNat self.gates
        let self := { self with gates := st.gates }
        match st.outcome with
        | .ok =>
          if st.offset ≠ size then (.threw .extra_bytes, self) else (.ok, self)
        | out => (out, self)
  else (.undefined, self)

/-- The function `get_circuit` of `jslib.cpp`: a default-constructed
`BristolFormat` (its five `int` members are indeterminate, here g, w, a, b, c;
its vectors are empty) is filled by `from_buffer` from the bytes handed over by
the host, and returned. An exception of `from_buffer` leaves `get_circuit`
without a return value. The length of the host array is taken to fit `int`. -/
def get_circuit {β : Type} [Inhabited β] (circuitBinary : List Byte) (g w a b c : Int) :
    Except Outcome (BristolFormat β) :=
  let circuit : BristolFormat β := ⟨g, w, a, b, c, [], []⟩
  match circuit.from_buffer circuitBinary circuitBinary.length with
  | (.ok, circuit) => .ok circuit
  | (out, _) => .error out

/-- The execution backend `CircuitExecution::circ_exec`: three gate operations
on wire values, each of which may read and update the state σ of the backend. -/
structure Backend (σ β : Type) where
  and_gate : σ → β → β → σ × β
  xor_gate : σ → β → β → σ × β
  not_gate : σ → β → σ × β

/-- The call `memcpy(dst + doff, src + soff, n * sizeof(block))` with `int`
offsets and count: `none` when a range is not inside its array. -/
def memcpy {α : Type} (dst : List α) (doff : Int) (src : List α) (soff : Int) (n : Int) :
    Option (List α) :=
  if 0 ≤ doff ∧ 0 ≤ soff ∧ 0 ≤ n ∧ soff.toNat + n.toNat ≤ src.length
      ∧ doff.toNat + n.toNat ≤ dst.length then
    some (dst.take doff.toNat ++ (src.drop soff.toNat).take n.toNat
      ++ dst.drop (doff.toNat + n.toNat))
  else none

/-- One pass through the body of the gate loop `for (int i = 0; i < num_gate; ++i)`
shared by `BristolFormat::compute` and `BristolFashion::compute`: any opcode
other than `AND_GATE` and `XOR_GATE` takes the `not_gate` branch. -/
def eval_gate {σ β : Type} (bk : Backend σ β) (gates : List Int) (i : Nat) (s : σ)
    (wires : List β) : Option (σ × List β) :=
  if int_ok (4 * (i : Int) + 3) then
    (vec_get gates (4 * (i : Int) + 3)).bind fun op =>
    if op = AND_GATE then
      (vec_get gates (4 * (i : Int))).bind fun ia =>
      (vec_get gates (4 * (i : Int) + 1)).bind fun ib =>
      (vec_get gates (4 * (i : Int) + 2)).bind fun io =>
      (vec_get wires ia).bind fun x =>
      (vec_get wires ib).bind fun y =>
      let r := bk.and_gate s x y
      (vec_set wires io r.2).map fun wires => (r.1, wires)
    else if op = XOR_GATE then
      (vec_get gates (4 * (i : Int))).bind fun ia =>
      (vec_get gates (4 * (i : Int) + 1)).bind fun ib =>
      (vec_get gates (4 * (i : Int) + 2)).bind fun io =>
      (vec_get wires ia).bind fun x =>
      (vec_get wires ib).bind fun y =>
      let r := bk.xor_gate s x y
      (vec_set wires io r.2).map fun wires => (r.1, wires)
    else
      (vec_get gates (4 * (i : Int))).bind fun ia =>
      (vec_get gates (4 * (i : Int) + 2)).bind fun io =>
      (vec_get wires ia).bind fun x =>
      let r := bk.not_gate s x
      (vec_set wires io r.2).map fun wires => (r.1, wires)
  else none

/-- The gate loop of `compute`, run for the `rem` remaining values of i. -/
def eval_gates {σ β : Type} (bk : Backend σ β) (gates : List Int) :
    Nat → Nat → σ → List β → Option (σ × List β)
  | 0, _, s, wires => some (s, wires)
  | rem + 1, i, s, wires =>
    (eval_gate bk gates i s wires).bind fun r => eval_gates bk gates rem (i + 1) r.1 r.2

/-- What a `compute` call leaves behind: the caller's output buffer, the wire
store of the circuit and the state of the backend. -/
structure Computed (σ β : Type) where
  out : List β
  wires : List β
  state : σ

/-- The member function `BristolFormat::compute(block* out, const block* in1,
const block* in2)`; `none` is undefined behaviour. -/
def BristolFormat.compute {σ β : Type} (bk : Backend σ β) (self : BristolFormat β) (s : σ)
    (out in1 in2 : List β) : Option (Computed σ β) :=
  (memcpy self.wires 0 in1 0 self.n1).bind fun w1 =>
  (memcpy w1 self.n1 in2 0 self.n2).bind fun w2 =>
  (eval_gates bk self.gates self.num_gate.toNat 0 s w2).bind fun r =>
  if int_ok (self.num_wire - self.n3) then
    (memcpy out 0 r.2 (self.num_wire - self.n3) self.n3).bind fun out =>
    some ⟨out, r.2, r.1⟩
  else none

/-- The data members of `class BristolFashion`. -/
structure BristolFashion (β : Type) where
  num_gate : Int
  num_wire : Int
  num_input : Int
  num_output : Int
  gates : List Int
  wires : List β

/-- The member function `BristolFashion::compute(block* out, const block* in)`;
`none` is undefined behaviour. -/
def BristolFashion.compute {σ β : Type} (bk : Backend σ β) (self : BristolFashion β) (s : σ)
    (out inp : List β) : Option (Computed σ β) :=
  (memcpy self.wires 0 inp 0 self.num_input).bind fun w1 =>
  (eval_gates bk self.gates self.num_gate.toNat 0 s w1).bind fun r =>
  if int_ok (self.num_wire - self.num_output) then
    (memcpy out 0 r.2 (self.num_wire - self.num_output) self.num_output).bind fun out =>
    some ⟨out, r.2, r.1⟩
  else none

/-- The cleartext backend: wire values are single bits, the gates are the
boolean operations, and the backend keeps no state. -/
def cleartext : Backend Unit Bool where
  and_gate := fun s x y => (s, x && y)
  xor_gate := fun s x y => (s, xor x y)
  not_gate := fun s x => (s, !x)

/-! ### The layout of the binary format, as the specification words it -/

/-- Four consecutive bytes of a buffer. -/
structure Word where
  b0 : Byte
  b1 : Byte
  b2 : Byte
  b3 : Byte

/-- The bytes of a word in buffer order. -/
def Word.bytes (w : Word) : List Byte := [w.b0, w.b1, w.b2, w.b3]

/-- The unsigned little-endian value of a word. -/
def Word.val (w : Word) : Nat :=
  w.b0.val + 256 * w.b1.val + 65536 * w.b2.val + 16777216 * w.b3.val

/-- The 20-byte header: five words. -/
structure Header where
  num_gate : Word
  num_wire : Word
  n1 : Word
  n2 : Word
  n3 : Word

/-- The bytes of a header in buffer order. -/
def Header.bytes (h : Header) : List Byte :=
  h.num_gate.bytes ++ h.num_wire.bytes ++ h.n1.bytes ++ h.n2.bytes ++ h.n3.bytes

/-- One record of the binary format: opcode 0 with two index words,
opcode 1 or opcode 2 with three. -/
inductive Record where
  | inv (i o : Word)
  | xor (i1 i2 o : Word)
  | and (i1 i2 o : Word)

/-- The bytes of a record in buffer order: 9 for opcode 0, 13 otherwise. -/
def Record.bytes : Record → List Byte
  | .inv i o => (0 : Byte) :: (i.bytes ++ o.bytes)
  | .xor i1 i2 o => (1 : Byte) :: (i1.bytes ++ i2.bytes ++ o.bytes)
  | .and i1 i2 o => (2 : Byte) :: (i1.bytes ++ i2.bytes ++ o.bytes)

/-- The 4-tuple the specification assigns to a record, with each index word
read as an `int`: `(in, 0, out, NOT)`, `(in1, in2, out, XOR)`, `(in1, in2, out, AND)`. -/
def Record.stored : Record → List Int
  | .inv i o => [to_int i.val, 0, to_int o.val, NOT_GATE]
  | .xor i1 i2 o => [to_int i1.val, to_int i2.val, to_int o.val, XOR_GATE]
  | .and i1 i2 o => [to_int i1.val, to_int i2.val, to_int o.val, AND_GATE]

/-- The four assignments by which `from_buffer` stores the tuple of record r as
gate g. -/
def Record.store (r : Record) (gates : List Int) (g : Nat) : Option (List Int) :=
  match r with
  | .inv i o => store_gate gates g (to_int i.val) 0 (to_int o.val) NOT_GATE
  | .xor i1 i2 o => store_gate gates g (to_int i1.val) (to_int i2.val) (to_int o.val) XOR_GATE
  | .and i1 i2 o => store_gate gates g (to_int i1.val) (to_int i2.val) (to_int o.val) AND_GATE

/-- The index words a record carries: `(in, out)` or `(in1, in2, out)`. -/
def Record.index_words : Record → List Word
  | .inv i o => [i, o]
  | .xor i1 i2 o => [i1, i2, o]
  | .and i1 i2 o => [i1, i2, o]

/-- The three index slots `in_a`, `in_b`, `out` of the gate stored at position i. -/
def gate_indices (gates : List Int) (i : Nat) : List Int := (gates.drop (4 * i)).take 3

/-- One pass through the body of the loop of the free function
`execute_circuit(wires, gates, num_gate)`: the opcodes `AND_GATE`, `XOR_GATE`
and `NOT_GATE` call the gate of that name; any other opcode takes the last
branch, which calls `xor_gate`, then `and_gate`, then `xor_gate` on the two
results. The index i is a `size_t`. -/
def execute_gate {σ β : Type} (bk : Backend σ β) (gates : List Int) (i : Nat) (s : σ)
    (wires : List β) : Option (σ × List β) :=
  (vec_get gates (4 * (i : Int) + 3)).bind fun op =>
  if op = AND_GATE then
    (vec_get gates (4 * (i : Int))).bind fun ia =>
    (vec_get gates (4 * (i : Int) + 1)).bind fun ib =>
    (vec_get gates (4 * (i : Int) + 2)).bind fun io =>
    (vec_get wires ia).bind fun x =>
    (vec_get wires ib).bind fun y =>
    let r := bk.and_gate s x y
    (vec_set wires io r.2).map fun wires => (r.1, wires)
  else if op = XOR_GATE then
    (vec_get gates (4 * (i : Int))).bind fun ia =>
    (vec_get gates (4 * (i : Int) + 1)).bind fun ib =>
    (vec_get gates (4 * (i : Int) + 2)).bind fun io =>
    (vec_get wires ia).bind fun x =>
    (vec_get wires ib).bind fun y =>
    let r := bk.xor_gate s x y
    (vec_set wires io r.2).map fun wires => (r.1, wires)
  else if op = NOT_GATE then
    (vec_get gates (4 * (i : Int))).bind fun ia =>
    (vec_get gates (4 * (i : Int) + 2)).bind fun io =>
    (vec_get wires ia).bind fun x =>
    let r := bk.not_gate s x
    (vec_set wires io r.2).map fun wires => (r.1, wires)
  else
    (vec_get gates (4 * (i : Int))).bind fun ia =>
    (vec_get gates (4 * (i : Int) + 1)).bind fun ib =>
    (vec_get gates (4 * (i : Int) + 2)).bind fun io =>
    (vec_get wires ia).bind fun x =>
    (vec_get wires ib).bind fun y =>
    let tmp := bk.xor_gate s x y
    let tmp2 := bk.and_gate tmp.1 x y
    let r := bk.xor_gate tmp2.1 tmp.2 tmp2.2
    (vec_set wires io r.2).map fun wires => (r.1, wires)

/-- The free function `execute_circuit(wires, gates, num_gate)`, its loop run for
the `rem` remaining values of i; `none` is undefined behaviour. -/
def execute_circuit {σ β : Type} (bk : Backend σ β) (gates : List Int) :
    Nat → Nat → σ → List β → Option (σ × List β)
  | 0, _, s, wires => some (s, wires)
  | rem + 1, i, s, wires =>
    (execute_gate bk gates i s wires).bind fun r => execute_circuit bk gates rem (i + 1) r.1 r.2

/-- The gate loop of `compute` taken from the last gate to the first: the passes
of `eval_gate` for `i = rem - 1, .., 0`. The source has no such loop; it is the
evaluation order the list order is compared with. -/
def eval_gates_reversed {σ β : Type} (bk : Backend σ β) (gates : List Int) :
    Nat → σ → List β → Option (σ × List β)
  | 0, s, wires => some (s, wires)
  | rem + 1, s, wires =>
    (eval_gate bk gates rem s wires).bind fun r => eval_gates_reversed bk gates rem r.1 r.2

/-- The evaluator `BristolFormat::compute` with its gate loop replaced by
`eval_gates_reversed`. -/
def compute_reversed {σ β : Type} (bk : Backend σ β) (self : BristolFormat β) (s : σ)
    (out in1 in2 : List β) : Option (Computed σ β) :=
  (memcpy self.wires 0 in1 0 self.n1).bind fun w1 =>
  (memcpy w1 self.n1 in2 0 self.n2).bind fun w2 =>
  (eval_gates_reversed bk self.gates self.num_gate.toNat s w2).bind fun r =>
  if int_ok (self.num_wire - self.n3) then
    (memcpy out 0 r.2 (self.num_wire - self.n3) self.n3).bind fun out =>
    some ⟨out, r.2, r.1⟩
  else none

/-- The backend operation of a binary opcode: `and_gate` for `AND_GATE`,
`xor_gate` otherwise. -/
def Backend.binary {σ β : Type} (bk : Backend σ β) (op : Int) (s : σ) (x y : β) : σ × β :=
  if op = AND_GATE then bk.and_gate s x y else bk.xor_gate s x y

/-- The indices of `buf` that one pass of the record loop of `from_buffer` reads
when the cursor is at `offset`: the opcode byte once `need(offset + 1)` has
passed, then the 8 or 12 bytes of the index words once `need(offset + 8)` or
`need(offset + 12)` has passed. An index is listed whether or not the buffer
has a byte there. -/
def record_reads (buf : List Byte) (size : Nat) (offset : Nat) : List Nat :=
  -- need(offset + 1)
  if offset + 1 > size then [] else
  -- uint8_t opcode = buf[offset++]
  offset :: (match buf[offset]? with
    | none => []
    | some opcode =>
      let offset := offset + 1
      if opcode.val = 0 then
        -- need(offset + 8), two calls of read_u32
        if offset + 8 > size then [] else List.range' offset 8
      else if opcode.val = 1 ∨ opcode.val = 2 then
        -- need(offset + 12), three calls of read_u32
        if offset + 12 > size then [] else List.range' offset 12
      else [])

/-- The indices of `buf` the record loop of `from_buffer` reads, pass after pass,
as long as the passes end normally. -/
def records_reads (buf : List Byte) (size : Nat) : Nat → Nat → Nat → List Int → List Nat
  | 0, _, _, _ => []
  | rem + 1, g, offset, gates =>
    record_reads buf size offset ++
      (match (decode_record buf size g offset gates).outcome with
       | .ok => records_reads buf size rem (g + 1) (decode_record buf size g offset gates).offset
           (decode_record buf size g offset gates).gates
       | _ => [])

/-- The indices of `buf` that `BristolFormat::from_buffer(buf, size)` reads: the 20
bytes of the header once `need(20)` has passed, then those of the record loop
when the call gets that far. -/
def BristolFormat.from_buffer_reads {β : Type} [Inhabited β] (self : BristolFormat β)
    (buf : List Byte) (size : Nat) : List Nat :=
  if 20 > size then [] else
  List.range' 0 20 ++
    (match read_u32 buf 0, read_u32 buf 4, read_u32 buf 8, read_u32 buf 12, read_u32 buf 16 with
     | some h0, some h1, some _, some _, some _ =>
       if int_ok (to_int h0 * 4) then
         match vec_resize self.gates (to_int h0 * 4) 0 with
         | none => []
         | some gates =>
           match vec_resize self.wires (to_int h1) default with
           | none => []
           | some _ => records_reads buf size (to_int h0).toNat 0 20 gates
       else []
     | _, _, _, _, _ => [])

/-- The wires that hold a value of the current `compute` call when gate i is
about to be evaluated: the `n_in` input wires and the out wires of the gates
before i. -/
def written_before (gates : List Int) (n_in : Nat) (i : Nat) : List Int :=
  (List.range n_in).map (fun (k : Nat) => (k : Int))
    ++ (List.range i).map (fun j => gates.getD (4 * j + 2) 0)

/-- Gate i reads only wires written in the current call: `in_a`, and `in_b` when
the opcode is binary, are inputs or out wires of earlier gates. -/
def reads_written (gates : List Int) (n_in : Nat) (i : Nat) : Prop :=
  gates.getD (4 * i) 0 ∈ written_before gates n_in i
    ∧ ((gates.getD (4 * i + 3) 0 = AND_GATE ∨ gates.getD (4 * i + 3) 0 = XOR_GATE) →
        gates.getD (4 * i + 1) 0 ∈ written_before gates n_in i)

/-- The gate list is in a valid topological order and leaves its results in the
output slots: every gate reads only inputs or outputs of earlier gates, and
each of the last n3 wires is an input or the output of a gate. -/
def BristolFormat.sourced {β : Type} (self : BristolFormat β) : Prop :=
  (∀ i, i < self.num_gate.toNat →
      reads_written self.gates (self.n1.toNat + self.n2.toNat) i)
    ∧ (∀ k, k < self.n3.toNat →
        self.num_wire - self.n3 + (k : Int)
          ∈ written_before self.gates (self.n1.toNat + self.n2.toNat) self.num_gate.toNat)

/-- Two stores of the same size that hold the same value at every wire of W. -/
def agree_on {β : Type} (W : List Int) (u v : List β) : Prop :=
  u.length = v.length ∧ ∀ x ∈ W, vec_get u x = vec_get v x

/-- The outcome of one step on two stores: undefined on both, or defined on
both with the same backend state and stores that agree on W. -/
def same_step {σ β : Type} (W : List Int) (a b : Option (σ × List β)) : Prop :=
  (a = none ∧ b = none)
    ∨ ∃ s u v, a = some (s, u) ∧ b = some (s, v) ∧ agree_on W u v

/-! ### The textual parser -/

/-- One whitespace-delimited token of a text stream: a decimal integer literal,
given by its value, or a token that does not start as an integer (its first
character is neither a sign nor a digit), given by that first character. -/
inductive Token where
  | int (n : Int)
  | word (c : Char)
  deriving DecidableEq

/-- A `std::istream` as the formatted extractions `>>` see it: the tokens not
yet consumed, and whether `failbit` is set. -/
structure IStream where
  toks : List Token
  fail : Bool
  deriving DecidableEq

/-- The extraction `stream >> x` for an `int` x: the stream afterwards and the
value written to x, if any. On a failed stream and at the end of the input
nothing is written (in the second case the stream fails); a literal that fits
`int` is consumed and written; a literal that does not fit is consumed, the
nearest bound is written and the stream fails; on a word, 0 is written and the
stream fails. -/
def IStream.read_int (st : IStream) : IStream × Option Int :=
  if st.fail then (st, none) else
  match st.toks with
  | [] => (⟨[], true⟩, none)
  | .int n :: rest =>
    if int_ok n then (⟨rest, false⟩, some n)
    else (⟨rest, true⟩, some (if 0 ≤ n then 2147483647 else -2147483648))
  | .word c :: rest => (⟨.word c :: rest, true⟩, some 0)

/-- The extraction `stream >> gate_type` into a fresh `std::string`, followed by
the read `gate_type[0]`: the stream afterwards and that character when it is
the first character of a word. The result is `none` when the string stays empty
(failed stream, end of input; `gate_type[0]` is then the terminating zero) and
when the token is an integer literal (a sign or a digit). -/
def IStream.read_str (st : IStream) : IStream × Option Char :=
  if st.fail then (st, none) else
  match st.toks with
  | [] => (⟨[], true⟩, none)
  | .int _ :: rest => (⟨rest, false⟩, none)
  | .word c :: rest => (⟨rest, false⟩, some c)

/-- The extraction `stream >> gates[idx]` where idx is an `int` expression;
`none` when idx overflows or the slot does not exist. -/
def read_into (st : IStream) (gates : List Int) (idx : Int) : Option (IStream × List Int) :=
  if int_ok idx then
    (vec_get gates idx).bind fun cur =>
    (vec_set gates idx ((st.read_int).2.getD cur)).map fun g => ((st.read_int).1, g)
  else none

/-- State of the gate loop of `from_stream`: the stream, the local `tmp`
(`none` while it is indeterminate) and the `gates` vector. -/
structure TextState where
  stream : IStream
  tmp : Option Int
  gates : List Int
  deriving DecidableEq

/-- The assignment `gates[4 * i + 3] = op` that ends a branch of `from_stream`. -/
def set_type (st : IStream) (tmp : Int) (gates : List Int) (i : Nat) (op : Int) :
    Option TextState :=
  if int_ok (4 * (i : Int) + 3) then
    (vec_set gates (4 * (i : Int) + 3) op).map fun g => ⟨st, some tmp, g⟩
  else none

/-- One pass through the body of `for (int i = 0; i < num_gate; ++i)` in
`from_stream`; `none` is undefined behaviour (the comparison of an
indeterminate `tmp`, an index outside `gates`). -/
def parse_gate (i : Nat) (ts : TextState) : Option TextState :=
  -- stream >> tmp
  match ((ts.stream.read_int).2.orElse fun _ => ts.tmp) with
  | none => none
  | some t =>
    let s0 := (ts.stream.read_int).1
    if t = 2 then
      -- stream >> tmp >> gates[4 * i] >> gates[4 * i + 1] >> gates[4 * i + 2]
      let tmp := (s0.read_int).2.getD t
      (read_into (s0.read_int).1 ts.gates (4 * (i : Int))).bind fun p0 =>
      (read_into p0.1 p0.2 (4 * (i : Int) + 1)).bind fun p1 =>
      (read_into p1.1 p1.2 (4 * (i : Int) + 2)).bind fun p2 =>
      -- stream >> gate_type
      if (p2.1.read_str).2 = some 'A' then set_type (p2.1.read_str).1 tmp p2.2 i AND_GATE
      else if (p2.1.read_str).2 = some 'X' then set_type (p2.1.read_str).1 tmp p2.2 i XOR_GATE
      else some ⟨(p2.1.read_str).1, some tmp, p2.2⟩
    else if t = 1 then
      -- stream >> tmp >> gates[4 * i] >> gates[4 * i + 2]
      let tmp := (s0.read_int).2.getD t
      (read_into (s0.read_int).1 ts.gates (4 * (i : Int))).bind fun p0 =>
      (read_into p0.1 p0.2 (4 * (i : Int) + 2)).bind fun p2 =>
      -- stream >> gate_type
      set_type (p2.1.read_str).1 tmp p2.2 i NOT_GATE
    else some ⟨s0, some t, ts.gates⟩

/-- The loop `for (int i = 0; i < num_gate; ++i)` of `from_stream`, run for the
`rem` remaining values of i. -/
def parse_gates : Nat → Nat → TextState → Option TextState
  | 0, _, ts => some ts
  | rem + 1, i, ts => (parse_gate i ts).bind fun ts => parse_gates rem (i + 1) ts

/-- The member function `BristolFormat::from_stream(stream)`, which `from_str`
and `from_file` call on the text they are given: the outcome of the call and
the object as the call leaves it. A member the header extractions do not write
keeps the value it had. -/
def BristolFormat.from_stream {β : Type} [Inhabited β] (self : BristolFormat β)
    (stream : IStream) : Outcome × BristolFormat β :=
  -- stream >> num_gate >> num_wire; stream >> n1 >> n2 >> n3
  let r0 := stream.read_int
  let r1 := r0.1.read_int
  let r2 := r1.1.read_int
  let r3 := r2.1.read_int
  let r4 := r3.1.read_int
  let self := { self with num_gate := r0.2.getD self.num_gate, num_wire := r1.2.getD self.num_wire,
                          n1 := r2.2.getD self.n1, n2 := r3.2.getD self.n2,
                          n3 := r4.2.getD self.n3 }
  -- gates.resize(num_gate * 4)
  if int_ok (self.num_gate * 4) then
    match vec_resize self.gates (self.num_gate * 4) 0 with
    | none => (.threw .length_error, self)
    | some gates =>
      let self := { self with gates := gates }
      -- wires.resize(num_wire)
      match vec_resize self.wires self.num_wire default with
      | none => (.threw .length_error, self)
      | some wires =>
        let self := { self with wires := wires }
        match parse_gates self.num_gate.toNat 0 ⟨r4.1, none, self.gates⟩ with
        | none => (.undefined, self)
        | some ts => (.ok, { self with gates := ts.gates })
  else (.undefined, self)

/-- One gate of a textual description, as `from_stream` reads it: the leading
`2` or `1`, an integer k that is read into `tmp` and not used, the wire
indices, and the type token (a word beginning with `A` or `X` for the
two-input gates, any token for the one-input gate). -/
inductive TextGate where
  | and (k a b o : Int)
  | xor (k a b o : Int)
  | not (k a o : Int) (ty : Token)

/-- The tokens of a gate of a textual description. -/
def TextGate.tokens : TextGate → List Token
  | .and k a b o => [.int 2, .int k, .int a, .int b, .int o, .word 'A']
  | .xor k a b o => [.int 2, .int k, .int a, .int b, .int o, .word 'X']
  | .not k a o ty => [.int 1, .int k, .int a, .int o, ty]

/-- The integer k of a gate of a textual description. -/
def TextGate.count : TextGate → Int
  | .and k _ _ _ => k
  | .xor k _ _ _ => k
  | .not k _ _ _ => k

/-- Whether every integer of a gate of a textual description fits `int`. -/
def TextGate.fits : TextGate → Prop
  | .and k a b o => int_ok k = true ∧ int_ok a = true ∧ int_ok b = true ∧ int_ok o = true
  | .xor k a b o => int_ok k = true ∧ int_ok a = true ∧ int_ok b = true ∧ int_ok o = true
  | .not k a o _ => int_ok k = true ∧ int_ok a = true ∧ int_ok o = true

/-- The 4-tuple a gate of a textual description stands for, where `old` is what
the slot `in_b` held before: the one-input gate leaves that slot alone. -/
def TextGate.stored (old : Int) : TextGate → List Int
  | .and _ a b o => [a, b, o, AND_GATE]
  | .xor _ a b o => [a, b, o, XOR_GATE]
  | .not _ a o _ => [a, old, o, NOT_GATE]

/-- The `gates` vector after the gates ts are stored over the slots `old`. -/
def stored_over : List TextGate → List Int → List Int
  | [], _ => []
  | t :: ts, old => t.stored (old.getD 1 0) ++ stored_over ts (old.drop 4)

/-- The tokens of a textual description: the five header integers, then the gates. -/
def text_tokens (num_gate num_wire n1 n2 n3 : Int) (gs : List TextGate) : List Token :=
  [.int num_gate, .int num_wire, .int n1, .int n2, .int n3] ++ gs.flatMap TextGate.tokens

/-- The word that holds the `int` n: its two's complement, low byte first. -/
def Word.of_int (n : Int) : Word :=
  ⟨⟨(n % 4294967296).toNat % 256, Nat.mod_lt _ (by decide)⟩,
   ⟨(n % 4294967296).toNat / 256 % 256, Nat.mod_lt _ (by decide)⟩,
   ⟨(n % 4294967296).toNat / 65536 % 256, Nat.mod_lt _ (by decide)⟩,
   ⟨(n % 4294967296).toNat / 16777216 % 256, Nat.mod_lt _ (by decide)⟩⟩

/-- The binary record of a gate of a textual description: opcode 2, 1 or 0 and
the words of its wire indices. -/
def TextGate.record : TextGate → Record
  | .and _ a b o => .and (Word.of_int a) (Word.of_int b) (Word.of_int o)
  | .xor _ a b o => .xor (Word.of_int a) (Word.of_int b) (Word.of_int o)
  | .not _ a o _ => .inv (Word.of_int a) (Word.of_int o)

/-- The binary encoding of a circuit: the header words, then the records. -/
def binary_bytes (num_gate num_wire n1 n2 n3 : Int) (gs : List TextGate) : List Byte :=
  (Header.mk (Word.of_int num_gate) (Word.of_int num_wire) (Word.of_int n1) (Word.of_int n2)
      (Word.of_int n3)).bytes
    ++ (gs.map TextGate.record).flatMap Record.bytes

/-! ### The parser of the generalized-I/O format -/

/-- One whitespace-delimited token of a `FILE`: a decimal integer literal in its
shortest form, given by its value, or a token that does not start as an
integer, given by its first character and its number of characters. -/
inductive FileToken where
  | int (n : Int)
  | word (c : Char) (len : Nat)
  deriving DecidableEq

/-- The first character of a token. -/
def FileToken.first : FileToken → Char
  | .int n => if n < 0 then '-' else (Nat.toDigits 10 n.toNat).headD '0'
  | .word c _ => c

/-- The number of characters of a token. -/
def FileToken.len : FileToken → Nat
  | .int n => (Nat.toDigits 10 n.natAbs).length + (if n < 0 then 1 else 0)
  | .word _ len => len

/-- The directive `%d` of `fscanf`: the file afterwards and the value assigned,
if any. At the end of the file and on a token that is no integer nothing is
consumed and nothing is assigned; a literal that does not fit `int` is
undefined behaviour (`none`). -/
def scan_int (f : List FileToken) : Option (List FileToken × Option Int) :=
  match f with
  | [] => some ([], none)
  | .int n :: rest => if int_ok n then some (rest, some n) else none
  | .word c len :: rest => some (.word c len :: rest, none)

/-- The first n directives `%d` of one `fscanf` call: the file afterwards and the
values assigned, in order; the call stops at the first directive that assigns
nothing. -/
def scan_ints : Nat → List FileToken → Option (List FileToken × List Int)
  | 0, f => some (f, [])
  | n + 1, f =>
    (scan_int f).bind fun r =>
    match r.2 with
    | none => some (r.1, [])
    | some v => (scan_ints n r.1).map fun p => (p.1, v :: p.2)

/-- The directive `%s` of `fscanf` into `char str[10]`, followed by the read
`str[0]`, where `old` is what `str[0]` held (`none` while indeterminate): a
token of more than nine characters overruns the array (`none`); at the end of
the file nothing is stored. -/
def scan_str (f : List FileToken) (old : Option Char) : Option (List FileToken × Option Char) :=
  match f with
  | [] => some ([], old)
  | t :: rest => if t.len < 10 then some (rest, some t.first) else none

/-- The assignment through the pointer `&gates[idx]` by a directive `%d` that
assigned v, or the absence of an assignment. -/
def put (gates : List Int) (idx : Int) (v : Option Int) : Option (List Int) :=
  match v with
  | none => some gates
  | some x => vec_set gates idx x

/-- State of the loops of `BristolFashion::from_file`: the file, the locals
`tmp` and `str[0]` (`none` while indeterminate) and the `gates` vector. -/
structure FileState where
  file : List FileToken
  tmp : Option Int
  str : Option Char
  gates : List Int
  deriving DecidableEq

/-- The assignment `gates[4*i+3] = op` that ends a branch of `from_file`. -/
def put_type (st : FileState) (i : Nat) (op : Int) : Option FileState :=
  if int_ok (4 * (i : Int) + 3) then
    (vec_set st.gates (4 * (i : Int) + 3) op).map fun g => { st with gates := g }
  else none

/-- One pass through the body of the gate loop of `BristolFashion::from_file`;
`none` is undefined behaviour. -/
def scan_gate (i : Nat) (st : FileState) : Option FileState :=
  -- fscanf(f, "%d", &tmp)
  (scan_int st.file).bind fun r0 =>
  match (r0.2.orElse fun _ => st.tmp) with
  | none => none
  | some t =>
    if t = 2 then
      -- fscanf(f, "%d%d%d%d%s", &tmp, &gates[4*i], &gates[4*i+1], &gates[4*i+2], str)
      if int_ok (4 * (i : Int) + 2) then
        (vec_get st.gates (4 * (i : Int) + 2)).bind fun _ =>
        (scan_ints 4 r0.1).bind fun r =>
        (put st.gates (4 * (i : Int)) r.2[1]?).bind fun g0 =>
        (put g0 (4 * (i : Int) + 1) r.2[2]?).bind fun g1 =>
        (put g1 (4 * (i : Int) + 2) r.2[3]?).bind fun g2 =>
        (if r.2.length = 4 then scan_str r.1 st.str else some (r.1, st.str)).bind fun s =>
        match s.2 with
        | none => none
        | some c =>
          if c = 'A' then put_type ⟨s.1, some (r.2[0]?.getD t), some c, g2⟩ i AND_GATE
          else if c = 'X' then put_type ⟨s.1, some (r.2[0]?.getD t), some c, g2⟩ i XOR_GATE
          else some ⟨s.1, some (r.2[0]?.getD t), some c, g2⟩
      else none
    else if t = 1 then
      -- fscanf(f, "%d%d%d%s", &tmp, &gates[4*i], &gates[4*i+2], str)
      if int_ok (4 * (i : Int) + 2) then
        (vec_get st.gates (4 * (i : Int) + 2)).bind fun _ =>
        (scan_ints 3 r0.1).bind fun r =>
        (put st.gates (4 * (i : Int)) r.2[1]?).bind fun g0 =>
        (put g0 (4 * (i : Int) + 2) r.2[2]?).bind fun g2 =>
        (if r.2.length = 3 then scan_str r.1 st.str else some (r.1, st.str)).bind fun s =>
        put_type ⟨s.1, some (r.2[0]?.getD t), s.2, g2⟩ i NOT_GATE
      else none
    else some ⟨r0.1, some t, st.str, st.gates⟩

/-- The gate loop `for(int i = 0; i < num_gate; ++i)` of
`BristolFashion::from_file`, run for the `rem` remaining values of i. -/
def scan_gates : Nat → Nat → FileState → Option FileState
  | 0, _, st => some st
  | rem + 1, i, st => (scan_gate i st).bind fun st => scan_gates rem (i + 1) st

/-- A loop `for(int i = 0; i < niov; ++i) { fscanf(f, "%d", &tmp); acc += tmp; }`
of `BristolFashion::from_file`, run for the `rem` remaining values of i: the
file, `tmp` and the accumulator afterwards. Adding an indeterminate `tmp` and
an addition that leaves `int` are undefined behaviour. -/
def sum_groups : Nat → List FileToken → Option Int → Int →
    Option (List FileToken × Option Int × Int)
  | 0, f, tmp, acc => some (f, tmp, acc)
  | rem + 1, f, tmp, acc =>
    (scan_int f).bind fun r =>
    match (r.2.orElse fun _ => tmp) with
    | none => none
    | some t => if int_ok (acc + t) then sum_groups rem r.1 (some t) (acc + t) else none

/-- The member function `BristolFashion::from_file(FILE * f)`: the outcome of
the call and the object as the call leaves it. -/
def BristolFashion.from_file {β : Type} [Inhabited β] (self : BristolFashion β)
    (f : List FileToken) : Outcome × BristolFashion β :=
  -- fscanf(f, "%d%d\n", &num_gate, &num_wire)
  match scan_ints 2 f with
  | none => (.undefined, self)
  | some r0 =>
    let self := { self with num_gate := r0.2[0]?.getD self.num_gate,
                            num_wire := r0.2[1]?.getD self.num_wire }
    -- int niov = 0; fscanf(f, "%d", &niov)
    match scan_int r0.1 with
    | none => (.undefined, self)
    | some r1 =>
      match sum_groups (r1.2.getD 0).toNat r1.1 none self.num_input with
      | none => (.undefined, self)
      | some (f1, tmp1, num_input) =>
        let self := { self with num_input := num_input }
        -- fscanf(f, "%d", &niov)
        match scan_int f1 with
        | none => (.undefined, self)
        | some r2 =>
          match sum_groups (r2.2.getD (r1.2.getD 0)).toNat r2.1 tmp1 self.num_output with
          | none => (.undefined, self)
          | some (f2, tmp2, num_output) =>
            let self := { self with num_output := num_output }
            -- gates.resize(num_gate*4)
            if int_ok (self.num_gate * 4) then
              match vec_resize self.gates (self.num_gate * 4) 0 with
              | none => (.threw .length_error, self)
              | some gates =>
                let self := { self with gates := gates }
                -- wires.resize(num_wire)
                match vec_resize self.wires self.num_wire default with
                | none => (.threw .length_error, self)
                | some wires =>
                  let self := { self with wires := wires }
                  match scan_gates self.num_gate.toNat 0 ⟨f2, tmp2, none, self.gates⟩ with
                  | none => (.undefined, self)
                  | some st => (.ok, { self with gates := st.gates })
            else (.undefined, self)

/-- One gate of a generalized-I/O text, as `from_file` reads it: the leading `2`
or `1`, an integer k that is read into `tmp` and not used, the wire indices,
and the type token, a word of `len` characters (beginning with `A` or `X` for
the two-input gates). -/
inductive FashionGate where
  | and (k a b o : Int) (len : Nat)
  | xor (k a b o : Int) (len : Nat)
  | not (k a o : Int) (c : Char) (len : Nat)

/-- The tokens of a gate of a generalized-I/O text. -/
def FashionGate.tokens : FashionGate → List FileToken
  | .and k a b o len => [.int 2, .int k, .int a, .int b, .int o, .word 'A' len]
  | .xor k a b o len => [.int 2, .int k, .int a, .int b, .int o, .word 'X' len]
  | .not k a o c len => [.int 1, .int k, .int a, .int o, .word c len]

/-- Whether every integer of a gate fits `int` and its type token fits `str`. -/
def FashionGate.fits : FashionGate → Prop
  | .and k a b o len =>
    int_ok k = true ∧ int_ok a = true ∧ int_ok b = true ∧ int_ok o = true ∧ len < 10
  | .xor k a b o len =>
    int_ok k = true ∧ int_ok a = true ∧ int_ok b = true ∧ int_ok o = true ∧ len < 10
  | .not k a o _ len => int_ok k = true ∧ int_ok a = true ∧ int_ok o = true ∧ len < 10

/-- The 4-tuple a gate of a generalized-I/O text stands for; the one-input gate
leaves the slot `in_b` at the 0 of the resize. -/
def FashionGate.stored : FashionGate → List Int
  | .and _ a b o _ => [a, b, o, AND_GATE]
  | .xor _ a b o _ => [a, b, o, XOR_GATE]
  | .not _ a o _ _ => [a, 0, o, NOT_GATE]

/-- Whether the running sums `acc + x0`, `acc + x0 + x1`, ... all fit `int`, and
every summand does. -/
def sums_fit : Int → List Int → Bool
  | _, [] => true
  | acc, x :: xs => int_ok x && int_ok (acc + x) && sums_fit (acc + x) xs

/-- The tokens of a generalized-I/O text: `num_gate num_wire`, the number of
input groups and their sizes, the number of output groups and their sizes,
then the gates. -/
def fashion_tokens (num_gate num_wire : Int) (ins outs : List Int) (gs : List FashionGate) :
    List FileToken :=
  [.int num_gate, .int num_wire] ++ (.int (ins.length : Int) :: ins.map FileToken.int)
    ++ (.int (outs.length : Int) :: outs.map FileToken.int) ++ gs.flatMap FashionGate.tokens

/-! ### The exporter -/

/-- The four insertions `fout << gates[4 * i + j] << ", "` for j = 0, .., 3 and
the `fout << "\n"` that ends the row of gate i in `to_file`; `none` when an
index overflows or lies outside `gates`. -/
def emit_gate (gates : List Int) (i : Nat) : Option String :=
  if int_ok (4 * (i : Int) + 3) then
    (vec_get gates (4 * (i : Int))).bind fun g0 =>
    (vec_get gates (4 * (i : Int) + 1)).bind fun g1 =>
    (vec_get gates (4 * (i : Int) + 2)).bind fun g2 =>
    (vec_get gates (4 * (i : Int) + 3)).bind fun g3 =>
    some (toString g0 ++ ", " ++ toString g1 ++ ", " ++ toString g2 ++ ", " ++ toString g3
      ++ ", " ++ "\n")
  else none

/-- The loop `for (int i = 0; i < num_gate; ++i)` of `to_file`, run for the
`rem` remaining values of i: the text it writes. -/
def emit_gates (gates : List Int) : Nat → Nat → Option String
  | 0, _ => some ""
  | rem + 1, i =>
    (emit_gate gates i).bind fun row => (emit_gates gates rem (i + 1)).map fun rest => row ++ rest

/-- The member function `BristolFormat::to_file(filename, prefix)`: the text
written to the file, the parameter `pfx` being the `prefix` of the source;
`none` is undefined behaviour. The file is taken to open. -/
def BristolFormat.to_file {β : Type} (self : BristolFormat β) (pfx : String) : Option String :=
  if int_ok (self.num_gate * 4) then
    (emit_gates self.gates self.num_gate.toNat 0).map fun rows =>
      "int " ++ (pfx ++ "_num_gate = ") ++ toString self.num_gate ++ ";\n"
        ++ "int " ++ (pfx ++ "_num_wire = ") ++ toString self.num_wire ++ ";\n"
        ++ "int " ++ (pfx ++ "_n1 = ") ++ toString self.n1 ++ ";\n"
        ++ "int " ++ (pfx ++ "_n2 = ") ++ toString self.n2 ++ ";\n"
        ++ "int " ++ (pfx ++ "_n3 = ") ++ toString self.n3 ++ ";\n"
        ++ "int " ++ (pfx ++ "_gate_arr [") ++ toString (self.num_gate * 4) ++ "] = \x7b\n"
        ++ rows ++ "\x7d;\n"
  else none

/-- A scalar declaration of the exported text: `int <pfx>_<name> = <v>;`. -/
def scalar_decl (pfx name : String) (v : Int) : String :=
  "int " ++ (pfx ++ "_" ++ name ++ " = ") ++ toString v ++ ";\n"

/-- The initializer of the exported array: the entries in order, each followed
by a comma and a blank, with a line break after every fourth. -/
def initializer_rows : List Int → String
  | a :: b :: c :: d :: rest =>
    toString a ++ ", " ++ toString b ++ ", " ++ toString c ++ ", " ++ toString d ++ ", " ++ "\n"
      ++ initializer_rows rest
  | _ => ""

/-- The array declaration of the exported text: `int <pfx>_gate_arr [<len>] =`
and the braced initializer. -/
def array_decl (pfx : String) (len : Int) (entries : List Int) : String :=
  "int " ++ (pfx ++ "_gate_arr [") ++ toString len ++ "] = \x7b\n"
    ++ initializer_rows entries ++ "\x7d;\n"

/-- The text the specification gives for the export of a circuit: five scalar
declarations, then the array declaration of length `num_gate * 4` with the
entries of `gates`. -/
def export_text {β : Type} (self : BristolFormat β) (pfx : String) : String :=
  scalar_decl pfx "num_gate" self.num_gate ++ scalar_decl pfx "num_wire" self.num_wire
    ++ scalar_decl pfx "n1" self.n1 ++ scalar_decl pfx "n2" self.n2
    ++ scalar_decl pfx "n3" self.n3 ++ array_decl pfx (self.num_gate * 4) self.gates

/-- The number of gates of a `gates` vector whose opcode entry (the fourth entry
of its tuple) is `op`. -/
def count_op (op : Int) : List Int → Nat
  | _ :: _ :: _ :: d :: rest => (if d = op then 1 else 0) + count_op op rest
  | _ => 0

/-! ### The helper `binary_to_hex` of `test_m2pc.cpp` -/

/-- The chain of comparisons `chunk == "0000"`, .., `chunk == "1111"` of
`binary_to_hex`: the character appended to `hex`, or `none` when the last
branch throws `std::invalid_argument`. A `std::string` is the list of its
characters. -/
def hex_of_chunk (chunk : List Char) : Option Char :=
  if chunk = ['0', '0', '0', '0'] then some '0'
  else if chunk = ['0', '0', '0', '1'] then some '1'
  else if chunk = ['0', '0', '1', '0'] then some '2'
  else if chunk = ['0', '0', '1', '1'] then some '3'
  else if chunk = ['0', '1', '0', '0'] then some '4'
  else if chunk = ['0', '1', '0', '1'] then some '5'
  else if chunk = ['0', '1', '1', '0'] then some '6'
  else if chunk = ['0', '1', '1', '1'] then some '7'
  else if chunk = ['1', '0', '0', '0'] then some '8'
  else if chunk = ['1', '0', '0', '1'] then some '9'
  else if chunk = ['1', '0', '1', '0'] then some 'a'
  else if chunk = ['1', '0', '1', '1'] then some 'b'
  else if chunk = ['1', '1', '0', '0'] then some 'c'
  else if chunk = ['1', '1', '0', '1'] then some 'd'
  else if chunk = ['1', '1', '1', '0'] then some 'e'
  else if chunk = ['1', '1', '1', '1'] then some 'f'
  else none

/-- The loop `for (i = 0; i < bin.length(); i += 4)` of `binary_to_hex`, run for
the `rem` remaining values of i, with `chunk = bin.substr(i, 4)`; `none` when a
pass throws. -/
def hex_loop (bin : List Char) : Nat → Nat → List Char → Option (List Char)
  | 0, _, hex => some hex
  | rem + 1, i, hex =>
    match hex_of_chunk ((bin.drop i).take 4) with
    | none => none
    | some c => hex_loop bin rem (i + 4) (hex ++ [c])

/-- The function `binary_to_hex(bin)`; `none` when it throws
`std::invalid_argument`. After the length check the loop makes
`bin.length() / 4` passes. -/
def binary_to_hex (bin : List Char) : Option (List Char) :=
  if bin.length % 4 ≠ 0 then none
  else hex_loop bin (bin.length / 4) 0 []

/-- The value of a binary digit. -/
def bit_value (c : Char) : Nat := if c = '1' then 1 else 0

/-- The value of the characters `4 * i .. 4 * i + 3` of `bin` read as a binary
number, most significant digit first. -/
def chunk_value (bin : List Char) (i : Nat) : Nat :=
  8 * bit_value (bin.getD (4 * i) '0') + 4 * bit_value (bin.getD (4 * i + 1) '0')
    + 2 * bit_value (bin.getD (4 * i + 2) '0') + bit_value (bin.getD (4 * i + 3) '0')

/-! ### The receive buffer of `RawIOJS` (`jslib.cpp`) -/

/-- The value of a `size_t` expression whose mathematical value is x. The file
`jslib.cpp` is built by Emscripten for wasm32, where `size_t` has 32 bits. -/
def size_t (x : Nat) : Nat := x % 4294967296

/-- The data members of `class RawIOJS` that `recv` uses. -/
structure RawIOJS where
  recv_buffer : List Byte
  recv_start : Nat
  recv_end : Nat

/-- The receive state the constructor of `RawIOJS` builds: `recv_buffer(64 * 1024)`,
`recv_start = 0`, `recv_end = 0`. -/
def RawIOJS.init : RawIOJS := ⟨List.replicate 65536 0, 0, 0⟩

/-- How a call of `recv` ends: it returns, it throws `std::runtime_error("recv
failed")`, it has undefined behaviour, or its doubling loop is still running
when the fuel of the model is used up. -/
inductive RecvEnd where
  | returned
  | threw
  | undefined
  | out_of_fuel
  deriving DecidableEq, Repr

/-- What a call of `recv` leaves: how it ended, the object, the bytes copied to
`data`, and the bytes `recv_js` returned (none when it was not called). -/
structure RecvResult where
  outcome : RecvEnd
  self : RawIOJS
  data : List Byte
  received : List Byte

/-- The block `if (recv_start + len > recv_buffer.size()) { ... }` of `recv`:
the pending bytes are moved to the front with `memmove`; `none` when the
source range of the `memmove` is not inside the buffer. -/
def RawIOJS.compact (self : RawIOJS) (len : Nat) : Option RawIOJS :=
  if size_t (self.recv_start + len) > self.recv_buffer.length then
    -- size_t recv_len = recv_end - recv_start
    let recv_len := size_t (self.recv_end + 4294967296 - self.recv_start)
    if self.recv_start + recv_len ≤ self.recv_buffer.length then
      some ⟨(self.recv_buffer.drop self.recv_start).take recv_len
          ++ self.recv_buffer.drop recv_len, 0, recv_len⟩
    else none
  else some self

/-- The loop `while (bytes_needed > room) { size *= 2; room = size - recv_end; }`
of `recv`: the final `size`, or `none` when the loop is still running after
`fuel` passes. -/
def grow_loop (recv_end bytes_needed : Nat) : Nat → Nat → Nat → Option Nat
  | 0, size, room => if bytes_needed > room then none else some size
  | fuel + 1, size, room =>
    if bytes_needed > room then
      grow_loop recv_end bytes_needed fuel (size_t (size * 2))
        (size_t (size_t (size * 2) + 4294967296 - recv_end))
    else some size

/-- The block `if (bytes_needed > room) { ... recv_buffer.resize(size); }` of
`recv`: the object and the final `room`. -/
def RawIOJS.grow (self : RawIOJS) (fuel bytes_needed room : Nat) : Option (RawIOJS × Nat) :=
  if bytes_needed > room then
    (grow_loop self.recv_end bytes_needed fuel self.recv_buffer.length room).map fun size =>
      (⟨self.recv_buffer.take size ++ List.replicate (size - self.recv_buffer.length) 0,
        self.recv_start, self.recv_end⟩, size_t (size + 4294967296 - self.recv_end))
  else some (self, room)

/-- The effect of `recv_js(.., recv_buffer.data() + recv_end, ..)` returning the
bytes `chunk`, followed by `recv_end += bytes_received`; `none` when the bytes
do not fit between `recv_end` and the end of the buffer. -/
def RawIOJS.fill (self : RawIOJS) (chunk : List Byte) : Option RawIOJS :=
  if self.recv_end + chunk.length ≤ self.recv_buffer.length then
    some ⟨self.recv_buffer.take self.recv_end ++ chunk
        ++ self.recv_buffer.drop (self.recv_end + chunk.length),
      self.recv_start, size_t (self.recv_end + chunk.length)⟩
  else none

/-- The two closing statements `memcpy(data, recv_buffer.data() + recv_start,
len); recv_start += len;` of `recv`: the object and the bytes copied; `none`
when the source range is not inside the buffer. -/
def RawIOJS.deliver (self : RawIOJS) (len : Nat) : Option (RawIOJS × List Byte) :=
  if self.recv_start + len ≤ self.recv_buffer.length then
    some (⟨self.recv_buffer, size_t (self.recv_start + len), self.recv_end⟩,
      (self.recv_buffer.drop self.recv_start).take len)
  else none

/-- The member function `RawIOJS::recv(data, len)`, where `recv_js n r` is what
the host returns when asked for at least n and at most r bytes, and `fuel`
bounds the passes of the doubling loop. The call `actual_flush_all()` touches
only the send buffers and is left out. -/
def RawIOJS.recv (fuel : Nat) (self : RawIOJS) (len : Nat) (recv_js : Nat → Nat → List Byte) :
    RecvResult :=
  if size_t (self.recv_start + len) > self.recv_end then
    match self.compact len with
    | none => ⟨.undefined, self, [], []⟩
    | some s1 =>
      -- size_t bytes_needed = recv_start + len - recv_end
      let bytes_needed := size_t (size_t (s1.recv_start + len) + 4294967296 - s1.recv_end)
      -- size_t room = recv_buffer.size() - recv_end
      let room := size_t (s1.recv_buffer.length + 4294967296 - s1.recv_end)
      match s1.grow fuel bytes_needed room with
      | none => ⟨.out_of_fuel, s1, [], []⟩
      | some (s2, room) =>
        let chunk := recv_js bytes_needed room
        match s2.fill chunk with
        | none => ⟨.undefined, s2, [], chunk⟩
        | some s3 =>
          if chunk.length < bytes_needed then ⟨.threw, s3, [], chunk⟩
          else
            match s3.deliver len with
            | none => ⟨.undefined, s3, [], chunk⟩
            | some (s4, data) => ⟨.returned, s4, data, chunk⟩
  else
    match self.deliver len with
    | none => ⟨.undefined, self, [], []⟩
    | some (s4, data) => ⟨.returned, s4, data, []⟩

/-- The bytes received from the host and not yet handed to a caller: the slots
`[recv_start, recv_end)` of the buffer. -/
def RawIOJS.pending (self : RawIOJS) : List Byte :=
  (self.recv_buffer.drop self.recv_start).take (self.recv_end - self.recv_start)

/-- The invariant of the receive state: `recv_start <= recv_end <=
recv_buffer.size()`, and the size of the buffer is a power of two that is at
most `2^31` (it starts at `2^16` and is only ever doubled). -/
def RawIOJS.inv (self : RawIOJS) : Prop :=
  self.recv_start ≤ self.recv_end ∧ self.recv_end ≤ self.recv_buffer.length
    ∧ ∃ a, a ≤ 31 ∧ self.recv_buffer.length = 2 ^ a

/-- What a run of successive `recv` calls leaves: whether every call returned,
the object, the bytes delivered and the bytes received from the host, both in
order. -/
structure RecvRun where
  ok : Bool
  self : RawIOJS
  delivered : List Byte
  received : List Byte

/-- Successive calls `recv(data, len)` for the lengths of a list, the k-th call
being answered by `recv_js k`; the run stops at the first call that does not
return. -/
def recv_calls (fuel : Nat) (recv_js : Nat → Nat → Nat → List Byte) :
    List Nat → Nat → RawIOJS → RecvRun
  | [], _, self => ⟨true, self, [], []⟩
  | len :: lens, k, self =>
    let r := self.recv fuel len (recv_js k)
    if r.outcome = .returned then
      let rest := recv_calls fuel recv_js lens (k + 1) r.self
      ⟨rest.ok, rest.self, r.data ++ rest.delivered, r.received ++ rest.received⟩
    else ⟨false, r.self, [], r.received⟩

/-! ### Reading words and storing gates -/

theorem shl_or (i a b : Nat) (h : b < 2 ^ i) : b ||| (a <<< i) = a * 2 ^ i + b := by
  rw [Nat.or_comm, Nat.shiftLeft_eq, Nat.mul_comm, ← Nat.mul_add_lt_is_or h]

theorem or_shift_eq (p0 p1 p2 p3 : Byte) :
    (p0.val ||| (p1.val <<< 8) ||| (p2.val <<< 16) ||| (p3.val <<< 24))
      = p0.val + 256 * p1.val + 65536 * p2.val + 16777216 * p3.val := by
  have h0 := p0.isLt
  have h1 := p1.isLt
  have h2 := p2.isLt
  rw [shl_or 8 _ _ (by omega), shl_or 16 _ _ (by omega), shl_or 24 _ _ (by omega)]
  omega

theorem word_val_lt (w : Word) : w.val < 2 ^ 32 := by
  have h0 := w.b0.isLt
  have h1 := w.b1.isLt
  have h2 := w.b2.isLt
  have h3 := w.b3.isLt
  unfold Word.val
  omega

theorem read_u32_drop (buf : List Byte) (off : Nat) :
    read_u32 buf off = read_u32 (buf.drop off) 0 := by
  simp [read_u32, List.getElem?_drop]

theorem read_u32_word (w : Word) (tl : List Byte) :
    read_u32 (w.bytes ++ tl) 0 = some w.val := by
  simp [read_u32, Word.bytes, Word.val, or_shift_eq]

theorem read_u32_at (buf : List Byte) (off : Nat) (w : Word) (tl : List Byte)
    (h : buf.drop off = w.bytes ++ tl) : read_u32 buf off = some w.val := by
  rw [read_u32_drop, h, read_u32_word]

theorem to_int_of_lt (x : Nat) (h : x < 2 ^ 31) : to_int x = (x : Int) := by
  unfold to_int
  have : x % 2 ^ 32 = x := Nat.mod_eq_of_lt (by omega)
  rw [this, if_pos h]

theorem to_int_range (x : Nat) : -(2 : Int) ^ 31 ≤ to_int x ∧ to_int x < (2 : Int) ^ 31 := by
  unfold to_int
  have := Nat.mod_lt x (show 0 < 2 ^ 32 by norm_num)
  split <;> omega

theorem set4_append (A B : List Int) (x0 x1 x2 x3 a b c d : Int) :
    ((((A ++ x0 :: x1 :: x2 :: x3 :: B).set A.length a).set (A.length + 1) b).set
      (A.length + 2) c).set (A.length + 3) d = A ++ a :: b :: c :: d :: B := by
  induction A with
  | nil => simp
  | cons y A ih => simp

theorem split4 (l : List Int) (n : Nat) (h : n + 3 < l.length) :
    ∃ x0 x1 x2 x3, l = l.take n ++ x0 :: x1 :: x2 :: x3 :: l.drop (n + 4) := by
  refine ⟨l[n], l[n+1], l[n+2], l[n+3], ?_⟩
  have e0 : l.drop n = l[n] :: l.drop (n + 1) := List.drop_eq_getElem_cons (by omega)
  have e1 : l.drop (n + 1) = l[n + 1] :: l.drop (n + 2) := List.drop_eq_getElem_cons (by omega)
  have e2 : l.drop (n + 2) = l[n + 2] :: l.drop (n + 3) := List.drop_eq_getElem_cons (by omega)
  have e3 : l.drop (n + 3) = l[n + 3] :: l.drop (n + 4) := List.drop_eq_getElem_cons (by omega)
  rw [← e3, ← e2, ← e1, ← e0, List.take_append_drop]

theorem set4_take_drop (l : List Int) (n : Nat) (a b c d : Int) (h : n + 3 < l.length) :
    (((l.set n a).set (n + 1) b).set (n + 2) c).set (n + 3) d
      = l.take n ++ a :: b :: c :: d :: l.drop (n + 4) := by
  obtain ⟨x0, x1, x2, x3, e⟩ := split4 l n h
  have hl : (l.take n).length = n := by simp; omega
  generalize l.take n = A at e hl
  generalize l.drop (n + 4) = B at e
  subst e
  rw [← hl]
  exact set4_append A B x0 x1 x2 x3 a b c d

theorem store_gate_eq (gates : List Int) (g : Nat) (a b c d : Int)
    (h : 4 * g + 3 < gates.length) (hl : gates.length < 2 ^ 31) :
    store_gate gates g a b c d
      = some (gates.take (4 * g) ++ a :: b :: c :: d :: gates.drop (4 * g + 4)) := by
  have h0 : int_ok (4 * (g : Int) + 3) = true := by
    simp only [int_ok, Bool.and_eq_true, decide_eq_true_eq]; omega
  have e0 : (4 * (g : Int)).toNat = 4 * g := by omega
  have e1 : (4 * (g : Int) + 1).toNat = 4 * g + 1 := by omega
  have e2 : (4 * (g : Int) + 2).toNat = 4 * g + 2 := by omega
  have e3 : (4 * (g : Int) + 3).toNat = 4 * g + 3 := by omega
  unfold store_gate
  rw [if_pos h0]
  simp only [vec_set, e0, e1, e2, e3]
  rw [if_pos ⟨by omega, by omega⟩]
  simp only [Option.some_bind, List.length_set]
  rw [if_pos ⟨by omega, by omega⟩]
  simp only [Option.some_bind, List.length_set]
  rw [if_pos ⟨by omega, by omega⟩]
  simp only [Option.some_bind, List.length_set]
  rw [if_pos ⟨by omega, by omega⟩]
  rw [set4_take_drop _ _ _ _ _ _ h]

theorem word_length_bytes (w : Word) : w.bytes.length = 4 := rfl

theorem record_length_stored (r : Record) : r.stored.length = 4 := by
  cases r <;> rfl

theorem record_length_bytes_pos (r : Record) : 9 ≤ r.bytes.length := by
  cases r <;> simp [Record.bytes, Word.bytes]

theorem drop_succ_of_cons {α : Type} (l : List α) (n : Nat) (x : α) (t : List α)
    (h : l.drop n = x :: t) : l.drop (n + 1) = t := by
  have : l.drop (n + 1) = (l.drop n).drop 1 := by rw [List.drop_drop, Nat.add_comm]
  rw [this, h]; rfl

theorem head_of_drop_cons {α : Type} (l : List α) (n : Nat) (x : α) (t : List α)
    (h : l.drop n = x :: t) : l[n]? = some x := by
  have : l[n]? = (l.drop n)[0]? := by simp [List.getElem?_drop]
  rw [this, h]; simp

theorem drop_word (l : List Byte) (n : Nat) (w : Word) (t : List Byte)
    (h : l.drop n = w.bytes ++ t) : l.drop (n + 4) = t := by
  have : l.drop (n + 4) = (l.drop n).drop 4 := by rw [List.drop_drop, Nat.add_comm]
  rw [this, h]; rfl

theorem decode_records_succ (buf : List Byte) (size rem g offset : Nat) (gates : List Int) :
    decode_records buf size (rem + 1) g offset gates =
      match (decode_record buf size g offset gates).outcome with
      | .ok => decode_records buf size rem (g + 1) (decode_record buf size g offset gates).offset
           (decode_record buf size g offset gates).gates
      | _ => decode_record buf size g offset gates := by
  rfl

theorem read_u32_inv (buf : List Byte) (off v : Nat) (h : read_u32 buf off = some v) :
    ∃ (w : Word) (tl : List Byte), buf.drop off = w.bytes ++ tl ∧ w.val = v
      ∧ off + 4 ≤ buf.length := by
  unfold read_u32 at h
  cases e0 : buf[off]? with
  | none => rw [e0] at h; exact absurd h (by simp)
  | some p0 =>
  cases e1 : buf[off + 1]? with
  | none => rw [e0, e1] at h; exact absurd h (by simp)
  | some p1 =>
  cases e2 : buf[off + 2]? with
  | none => rw [e0, e1, e2] at h; exact absurd h (by simp)
  | some p2 =>
  cases e3 : buf[off + 3]? with
  | none => rw [e0, e1, e2, e3] at h; exact absurd h (by simp)
  | some p3 =>
    rw [e0, e1, e2, e3] at h
    obtain ⟨l0, g0⟩ := List.getElem?_eq_some_iff.mp e0
    obtain ⟨l1, g1⟩ := List.getElem?_eq_some_iff.mp e1
    obtain ⟨l2, g2⟩ := List.getElem?_eq_some_iff.mp e2
    obtain ⟨l3, g3⟩ := List.getElem?_eq_some_iff.mp e3
    refine ⟨⟨p0, p1, p2, p3⟩, buf.drop (off + 4), ?_, ?_, by omega⟩
    · have d0 : buf.drop off = buf[off] :: buf.drop (off + 1) := List.drop_eq_getElem_cons l0
      have d1 : buf.drop (off + 1) = buf[off + 1] :: buf.drop (off + 2) :=
        List.drop_eq_getElem_cons l1
      have d2 : buf.drop (off + 2) = buf[off + 2] :: buf.drop (off + 3) :=
        List.drop_eq_getElem_cons l2
      have d3 : buf.drop (off + 3) = buf[off + 3] :: buf.drop (off + 4) :=
        List.drop_eq_getElem_cons l3
      rw [d0, d1, d2, d3, g0, g1, g2, g3]
      rfl
    · have h' : p0.val ||| (p1.val <<< 8) ||| (p2.val <<< 16) ||| (p3.val <<< 24) = v :=
        Option.some.inj h
      rw [← h', or_shift_eq]
      rfl

theorem decode_record_layout (buf : List Byte) (size g off : Nat) (gates : List Int)
    (r : Record) (tl : List Byte)
    (hb : buf.drop off = r.bytes ++ tl) (hs : off + r.bytes.length ≤ size) :
    decode_record buf size g off gates
      = match r.store gates g with
        | some G => ⟨.ok, G, off + r.bytes.length⟩
        | none => ⟨.undefined, gates, off + r.bytes.length⟩ := by
  have v0 : ((0 : Byte) : Nat) = 0 := rfl
  have v1 : ((1 : Byte) : Nat) = 1 := rfl
  have v2 : ((2 : Byte) : Nat) = 2 := rfl
  cases r with
  | inv i o =>
    have hb0 : buf.drop off = (0 : Byte) :: (i.bytes ++ (o.bytes ++ tl)) := by
      rw [hb]; simp [Record.bytes]
    have hb1 := drop_succ_of_cons _ _ _ _ hb0
    have hb2 := drop_word _ _ _ _ hb1
    have hop := head_of_drop_cons _ _ _ _ hb0
    have r1 := read_u32_at buf (off + 1) i _ hb1
    have r2 := read_u32_at buf (off + 1 + 4) o _ hb2
    have hlen : (Record.inv i o).bytes.length = 9 := rfl
    rw [hlen] at hs ⊢
    have hs' : ¬ (off + 1 > size) := by omega
    have hs'' : ¬ (off + 1 + 8 > size) := by omega
    unfold decode_record
    rw [if_neg hs', hop]
    dsimp only
    rw [v0, if_pos rfl, if_neg hs'', r1, r2]
    rfl
  | xor i1 i2 o =>
    have hb0 : buf.drop off = (1 : Byte) :: (i1.bytes ++ (i2.bytes ++ (o.bytes ++ tl))) := by
      rw [hb]; simp [Record.bytes]
    have hb1 := drop_succ_of_cons _ _ _ _ hb0
    have hb2 := drop_word _ _ _ _ hb1
    have hb3 := drop_word _ _ _ _ hb2
    have hop := head_of_drop_cons _ _ _ _ hb0
    have r1 := read_u32_at buf (off + 1) i1 _ hb1
    have r2 := read_u32_at buf (off + 1 + 4) i2 _ hb2
    have r3 := read_u32_at buf (off + 1 + 4 + 4) o _ hb3
    have hlen : (Record.xor i1 i2 o).bytes.length = 13 := rfl
    rw [hlen] at hs ⊢
    have hs' : ¬ (off + 1 > size) := by omega
    have hs'' : ¬ (off + 1 + 12 > size) := by omega
    unfold decode_record
    rw [if_neg hs', hop]
    dsimp only
    rw [v1, if_neg (by decide), if_pos (Or.inl rfl), if_neg hs'', r1, r2, r3, if_pos rfl]
    rfl
  | and i1 i2 o =>
    have hb0 : buf.drop off = (2 : Byte) :: (i1.bytes ++ (i2.bytes ++ (o.bytes ++ tl))) := by
      rw [hb]; simp [Record.bytes]
    have hb1 := drop_succ_of_cons _ _ _ _ hb0
    have hb2 := drop_word _ _ _ _ hb1
    have hb3 := drop_word _ _ _ _ hb2
    have hop := head_of_drop_cons _ _ _ _ hb0
    have r1 := read_u32_at buf (off + 1) i1 _ hb1
    have r2 := read_u32_at buf (off + 1 + 4) i2 _ hb2
    have r3 := read_u32_at buf (off + 1 + 4 + 4) o _ hb3
    have hlen : (Record.and i1 i2 o).bytes.length = 13 := rfl
    rw [hlen] at hs ⊢
    have hs' : ¬ (off + 1 > size) := by omega
    have hs'' : ¬ (off + 1 + 12 > size) := by omega
    unfold decode_record
    rw [if_neg hs', hop]
    dsimp only
    rw [v2, if_neg (by decide), if_pos (Or.inr rfl), if_neg hs'', r1, r2, r3, if_neg (by decide)]
    rfl

theorem record_store_eq (r : Record) (gates : List Int) (g : Nat)
    (hg : 4 * g + 3 < gates.length) (hl : gates.length < 2 ^ 31) :
    r.store gates g = some (gates.take (4 * g) ++ r.stored ++ gates.drop (4 * g + 4)) := by
  cases r <;>
    simp only [Record.store, Record.stored, store_gate_eq _ _ _ _ _ _ hg hl, List.append_assoc,
      List.cons_append, List.nil_append]

theorem decode_record_ok (buf : List Byte) (size g off : Nat) (gates : List Int)
    (r : Record) (tl : List Byte)
    (hb : buf.drop off = r.bytes ++ tl) (hs : off + r.bytes.length ≤ size)
    (hg : 4 * g + 3 < gates.length) (hl : gates.length < 2 ^ 31) :
    decode_record buf size g off gates
      = ⟨.ok, gates.take (4 * g) ++ r.stored ++ gates.drop (4 * g + 4), off + r.bytes.length⟩ := by
  rw [decode_record_layout buf size g off gates r tl hb hs, record_store_eq r gates g hg hl]

theorem take_drop_written (A S B : List Int) (n m : Nat) (h : (A ++ S).length = n) :
    (A ++ S ++ B).take n = A ++ S ∧ (A ++ S ++ B).drop (n + m) = B.drop m := by
  subst h
  exact ⟨List.take_left' rfl, List.drop_append m⟩

theorem decode_records_zero (buf : List Byte) (size g off : Nat) (gates : List Int) :
    decode_records buf size 0 g off gates = ⟨.ok, gates, off⟩ := rfl

theorem decode_records_run (buf : List Byte) (size : Nat) (recs : List Record) :
    ∀ (rem g off : Nat) (gates : List Int) (tl : List Byte),
    buf.drop off = recs.flatMap Record.bytes ++ tl →
    off + (recs.flatMap Record.bytes).length ≤ size →
    4 * (g + recs.length) ≤ gates.length → gates.length < 2 ^ 31 →
    decode_records buf size (recs.length + rem) g off gates
      = decode_records buf size rem (g + recs.length) (off + (recs.flatMap Record.bytes).length)
          (gates.take (4 * g) ++ recs.flatMap Record.stored
            ++ gates.drop (4 * (g + recs.length))) := by
  induction recs with
  | nil =>
    intro rem g off gates tl _ _ _ _
    simp
  | cons r rs ih =>
    intro rem g off gates tl hb hs hg hl
    have hlen : (r :: rs).length + rem = (rs.length + rem) + 1 := by simp; omega
    have hfb : (r :: rs).flatMap Record.bytes = r.bytes ++ rs.flatMap Record.bytes := by simp
    have hfs : (r :: rs).flatMap Record.stored = r.stored ++ rs.flatMap Record.stored := by simp
    rw [hfb, List.length_append] at hs
    rw [hfb, List.append_assoc] at hb
    simp only [List.length_cons] at hg
    rw [hlen, decode_records_succ,
      decode_record_ok buf size g off gates r _ hb (by omega) (by omega) hl]
    dsimp only
    have hb' : buf.drop (off + r.bytes.length) = rs.flatMap Record.bytes ++ tl := by
      rw [← List.drop_drop, hb, List.drop_left]
    have hA : (gates.take (4 * g) ++ r.stored).length = 4 * g + 4 := by
      rw [List.length_append, List.length_take, record_length_stored]; omega
    have hlen1 : (gates.take (4 * g) ++ r.stored ++ gates.drop (4 * g + 4)).length
        = gates.length := by
      rw [List.length_append, hA, List.length_drop]; omega
    rw [ih rem (g + 1) (off + r.bytes.length) _ tl hb' (by omega) (by rw [hlen1]; omega)
      (by rw [hlen1]; exact hl)]
    obtain ⟨e1, e2⟩ := take_drop_written (gates.take (4 * g)) r.stored (gates.drop (4 * g + 4))
      (4 * g + 4) (4 * rs.length) hA
    have i1 : 4 * (g + 1) = 4 * g + 4 := by omega
    have i2 : 4 * (g + 1 + rs.length) = 4 * g + 4 + 4 * rs.length := by omega
    have i3 : 4 * (g + (rs.length + 1)) = 4 * g + 4 + 4 * rs.length := by omega
    rw [i1, i2, e1, e2, List.drop_drop, hfb, hfs, List.length_append, List.length_cons, i3]
    have i4 : g + 1 + rs.length = g + (rs.length + 1) := by omega
    have i5 : 4 * g + 4 + 4 * rs.length = 4 * rs.length + (4 * g + 4) := by omega
    rw [i4, Nat.add_assoc off, i5]
    simp only [List.append_assoc]

theorem header_length_bytes (h : Header) : h.bytes.length = 20 := rfl

theorem header_reads (hdr : Header) (rest : List Byte) :
    read_u32 (hdr.bytes ++ rest) 0 = some hdr.num_gate.val
    ∧ read_u32 (hdr.bytes ++ rest) 4 = some hdr.num_wire.val
    ∧ read_u32 (hdr.bytes ++ rest) 8 = some hdr.n1.val
    ∧ read_u32 (hdr.bytes ++ rest) 12 = some hdr.n2.val
    ∧ read_u32 (hdr.bytes ++ rest) 16 = some hdr.n3.val := by
  have h0 : (hdr.bytes ++ rest).drop 0 = hdr.num_gate.bytes ++ (hdr.num_wire.bytes ++
      (hdr.n1.bytes ++ (hdr.n2.bytes ++ (hdr.n3.bytes ++ rest)))) := by
    simp [Header.bytes]
  have h1 := drop_word _ _ _ _ h0
  have h2 := drop_word _ _ _ _ h1
  have h3 := drop_word _ _ _ _ h2
  have h4 := drop_word _ _ _ _ h3
  exact ⟨read_u32_at _ _ _ _ h0, read_u32_at _ _ _ _ h1, read_u32_at _ _ _ _ h2,
    read_u32_at _ _ _ _ h3, read_u32_at _ _ _ _ h4⟩

theorem length_flatMap_bytes_ge (recs : List Record) :
    9 * recs.length ≤ (recs.flatMap Record.bytes).length := by
  induction recs with
  | nil => simp
  | cons r rs ih =>
    have := (record_length_bytes_pos r)
    simp only [List.flatMap_cons, List.length_append, List.length_cons]
    omega

theorem length_flatMap_stored (recs : List Record) :
    (recs.flatMap Record.stored).length = 4 * recs.length := by
  induction recs with
  | nil => simp
  | cons r rs ih =>
    simp only [List.flatMap_cons, List.length_append, List.length_cons, ih, (record_length_stored r)]
    omega

theorem stored_chunk (recs : List Record) :
    ∀ (i : Nat) (hi : i < recs.length),
      ((recs.flatMap Record.stored).drop (4 * i)).take 4 = (recs.get ⟨i, hi⟩).stored := by
  induction recs with
  | nil => intro i hi; simp at hi
  | cons r rs ih =>
    intro i hi
    cases i with
    | zero =>
      simp only [List.flatMap_cons, Nat.mul_zero, List.drop_zero]
      exact List.take_left' (record_length_stored r)
    | succ j =>
      have e : 4 * (j + 1) = r.stored.length + 4 * j := by rw [(record_length_stored r)]; omega
      simp only [List.flatMap_cons, e, List.drop_append]
      exact ih j (by simpa using hi)

theorem vec_resize_nonneg {α : Type} (v : List α) (n : Nat) (zero : α) :
    vec_resize v (n : Int) zero = some (v.take n ++ List.replicate (n - v.length) zero) := by
  simp [vec_resize]

theorem length_resized {α : Type} (v : List α) (n : Nat) (zero : α) :
    (v.take n ++ List.replicate (n - v.length) zero).length = n := by
  simp only [List.length_append, List.length_take, List.length_replicate]
  omega

theorem int_ok_ofNat (n : Nat) (h : n < 2 ^ 31) : int_ok (n : Int) = true := by
  simp only [int_ok, Bool.and_eq_true, decide_eq_true_eq]; omega

theorem from_buffer_layout {β : Type} [Inhabited β] (self : BristolFormat β) (hdr : Header)
    (recs : List Record)
    (hk : hdr.num_gate.val = recs.length) (hw : hdr.num_wire.val < 2 ^ 31)
    (hsz : (hdr.bytes ++ recs.flatMap Record.bytes).length < 2 ^ 31) :
    self.from_buffer (hdr.bytes ++ recs.flatMap Record.bytes)
        (hdr.bytes ++ recs.flatMap Record.bytes).length
      = (.ok, { num_gate := (recs.length : Int), num_wire := (hdr.num_wire.val : Int),
                n1 := to_int hdr.n1.val, n2 := to_int hdr.n2.val, n3 := to_int hdr.n3.val,
                gates := recs.flatMap Record.stored,
                wires := self.wires.take hdr.num_wire.val
                  ++ List.replicate (hdr.num_wire.val - self.wires.length) default }) := by
  obtain ⟨r0, r1, r2, r3, r4⟩ := header_reads hdr (recs.flatMap Record.bytes)
  have hlen : (hdr.bytes ++ recs.flatMap Record.bytes).length
      = 20 + (recs.flatMap Record.bytes).length := by
    rw [List.length_append, header_length_bytes]
  have h9 := length_flatMap_bytes_ge recs
  have hk31 : recs.length < 2 ^ 31 := by omega
  have hs20 : ¬ (20 > (hdr.bytes ++ recs.flatMap Record.bytes).length) := by omega
  have hmul : ((recs.length : Int) * 4) = ((recs.length * 4 : Nat) : Int) := by push_cast; ring
  unfold BristolFormat.from_buffer
  rw [if_neg hs20, r0, r1, r2, r3, r4]
  dsimp only
  rw [hk, to_int_of_lt _ hk31, to_int_of_lt _ hw, hmul, int_ok_ofNat _ (by omega), if_pos rfl,
    vec_resize_nonneg]
  dsimp only
  rw [vec_resize_nonneg]
  dsimp only
  have hrun := decode_records_run (hdr.bytes ++ recs.flatMap Record.bytes)
    (hdr.bytes ++ recs.flatMap Record.bytes).length recs 0 0 20
    (self.gates.take (recs.length * 4) ++ List.replicate (recs.length * 4 - self.gates.length) 0)
    [] (by rw [List.append_nil]; exact List.drop_left' (header_length_bytes hdr)) (by omega)
    (by rw [length_resized]; omega) (by rw [length_resized]; omega)
  simp only [Nat.add_zero, Nat.zero_add, Nat.mul_zero, List.take_zero, List.nil_append,
    decode_records_zero] at hrun
  rw [Int.toNat_ofNat, hrun]
  dsimp only
  rw [if_neg (by omega)]
  have hd : (self.gates.take (recs.length * 4)
      ++ List.replicate (recs.length * 4 - self.gates.length) 0).drop (4 * recs.length) = [] := by
    apply List.drop_eq_nil_of_le
    rw [length_resized]; omega
  rw [hd, List.append_nil]

theorem byte_eq_of_val (op : Byte) (n : Nat) (hn : n < 256) (h : op.val = n) :
    op = ⟨n, hn⟩ := Fin.ext h

theorem decode_record_ok_inv (buf : List Byte) (size g off : Nat) (gates : List Int)
    (h : (decode_record buf size g off gates).outcome = .ok) :
    ∃ (r : Record) (tl : List Byte), buf.drop off = r.bytes ++ tl
      ∧ off + r.bytes.length ≤ size := by
  unfold decode_record at h
  by_cases hs : off + 1 > size
  · rw [if_pos hs] at h; exact absurd h (by simp)
  rw [if_neg hs] at h
  cases hop : buf[off]? with
  | none => rw [hop] at h; exact absurd h (by simp)
  | some op =>
  rw [hop] at h
  dsimp only at h
  obtain ⟨l0, g0⟩ := List.getElem?_eq_some_iff.mp hop
  have d0 : buf.drop off = op :: buf.drop (off + 1) := by
    rw [← g0]; exact List.drop_eq_getElem_cons l0
  by_cases h0 : op.val = 0
  · rw [if_pos h0] at h
    by_cases hs2 : off + 1 + 8 > size
    · rw [if_pos hs2] at h; exact absurd h (by simp)
    rw [if_neg hs2] at h
    cases r1 : read_u32 buf (off + 1) with
    | none => rw [r1] at h; exact absurd h (by simp)
    | some a =>
    cases r2 : read_u32 buf (off + 1 + 4) with
    | none => rw [r1, r2] at h; exact absurd h (by simp)
    | some b =>
      obtain ⟨w1, t1, e1, -, -⟩ := read_u32_inv _ _ _ r1
      obtain ⟨w2, t2, e2, -, -⟩ := read_u32_inv _ _ _ r2
      have e1' := drop_word _ _ _ _ e1
      refine ⟨.inv w1 w2, t2, ?_, ?_⟩
      · rw [d0, e1, ← e1', e2, byte_eq_of_val op 0 (by decide) h0]
        simp [Record.bytes]
      · have : (Record.inv w1 w2).bytes.length = 9 := rfl
        omega
  · rw [if_neg h0] at h
    by_cases h12 : op.val = 1 ∨ op.val = 2
    · rw [if_pos h12] at h
      by_cases hs2 : off + 1 + 12 > size
      · rw [if_pos hs2] at h; exact absurd h (by simp)
      rw [if_neg hs2] at h
      cases r1 : read_u32 buf (off + 1) with
      | none => rw [r1] at h; exact absurd h (by simp)
      | some a =>
      cases r2 : read_u32 buf (off + 1 + 4) with
      | none => rw [r1, r2] at h; exact absurd h (by simp)
      | some b =>
      cases r3 : read_u32 buf (off + 1 + 8) with
      | none => rw [r1, r2, r3] at h; exact absurd h (by simp)
      | some c =>
        obtain ⟨w1, t1, e1, -, -⟩ := read_u32_inv _ _ _ r1
        obtain ⟨w2, t2, e2, -, -⟩ := read_u32_inv _ _ _ r2
        obtain ⟨w3, t3, e3, -, -⟩ := read_u32_inv _ _ _ r3
        have e1' := drop_word _ _ _ _ e1
        have e2' := drop_word _ _ _ _ e2
        rcases h12 with h1 | h2
        · refine ⟨.xor w1 w2 w3, t3, ?_, ?_⟩
          · rw [d0, e1, ← e1', e2, ← e2', e3, byte_eq_of_val op 1 (by decide) h1]
            simp [Record.bytes]
          · have : (Record.xor w1 w2 w3).bytes.length = 13 := rfl
            omega
        · refine ⟨.and w1 w2 w3, t3, ?_, ?_⟩
          · rw [d0, e1, ← e1', e2, ← e2', e3, byte_eq_of_val op 2 (by decide) h2]
            simp [Record.bytes]
          · have : (Record.and w1 w2 w3).bytes.length = 13 := rfl
            omega
    · rw [if_neg h12] at h; exact absurd h (by simp)

theorem decode_records_succ_of_ok (buf : List Byte) (size rem g off : Nat) (gates : List Int)
    (h : (decode_record buf size g off gates).outcome = .ok) :
    decode_records buf size (rem + 1) g off gates
      = decode_records buf size rem (g + 1) (decode_record buf size g off gates).offset
          (decode_record buf size g off gates).gates := by
  rw [decode_records_succ, h]

theorem decode_records_succ_of_not_ok (buf : List Byte) (size rem g off : Nat)
    (gates : List Int) (h : (decode_record buf size g off gates).outcome ≠ .ok) :
    decode_records buf size (rem + 1) g off gates = decode_record buf size g off gates := by
  rw [decode_records_succ]
  cases hc : (decode_record buf size g off gates).outcome with
  | ok => exact absurd hc h
  | threw e => rfl
  | undefined => rfl

theorem drop_extend (p s : List Byte) (off : Nat) (x tl : List Byte) (hx : x ≠ [])
    (h : p.drop off = x ++ tl) : (p ++ s).drop off = x ++ (tl ++ s) := by
  have hle : off ≤ p.length := by
    by_contra hc
    have : p.drop off = [] := List.drop_eq_nil_of_le (by omega)
    rw [this] at h
    cases x with
    | nil => exact hx rfl
    | cons a t => simp at h
  rw [List.drop_append_of_le_length hle, h, List.append_assoc]

theorem drop_restrict (p s : List Byte) (off : Nat) (x tl : List Byte)
    (h : (p ++ s).drop off = x ++ tl) (hlen : off + x.length ≤ p.length) :
    ∃ tl', p.drop off = x ++ tl' := by
  rw [List.drop_append_of_le_length (by omega)] at h
  have hl : x.length ≤ (p.drop off).length := by rw [List.length_drop]; omega
  have h1 := congrArg (List.take x.length) h
  rw [List.take_append_of_le_length hl, List.take_left' rfl] at h1
  refine ⟨(p.drop off).drop x.length, ?_⟩
  have h2 := (List.take_append_drop x.length (p.drop off)).symm
  rw [h1] at h2
  exact h2

theorem decode_record_truncated (p s : List Byte) (g off : Nat) (gates : List Int)
    (r : Record) (tl : List Byte)
    (hb : (p ++ s).drop off = r.bytes ++ tl) (hlt : p.length < off + r.bytes.length) :
    (decode_record p p.length g off gates).outcome = .threw .buffer_too_small := by
  have v0 : ((0 : Byte) : Nat) = 0 := rfl
  have v1 : ((1 : Byte) : Nat) = 1 := rfl
  have v2 : ((2 : Byte) : Nat) = 2 := rfl
  unfold decode_record
  by_cases hs : off + 1 > p.length
  · rw [if_pos hs]
  rw [if_neg hs]
  have hop : p[off]? = (p ++ s)[off]? := (List.getElem?_append_left (by omega)).symm
  cases r with
  | inv i o =>
    have hb0 : (p ++ s).drop off = (0 : Byte) :: (i.bytes ++ (o.bytes ++ tl)) := by
      rw [hb]; simp [Record.bytes]
    have hlen : (Record.inv i o).bytes.length = 9 := rfl
    rw [hlen] at hlt
    rw [hop, head_of_drop_cons _ _ _ _ hb0]
    dsimp only
    rw [v0, if_pos rfl, if_pos (by omega)]
  | xor i1 i2 o =>
    have hb0 : (p ++ s).drop off = (1 : Byte) :: (i1.bytes ++ (i2.bytes ++ (o.bytes ++ tl))) := by
      rw [hb]; simp [Record.bytes]
    have hlen : (Record.xor i1 i2 o).bytes.length = 13 := rfl
    rw [hlen] at hlt
    rw [hop, head_of_drop_cons _ _ _ _ hb0]
    dsimp only
    rw [v1, if_neg (by decide), if_pos (Or.inl rfl), if_pos (by omega)]
  | and i1 i2 o =>
    have hb0 : (p ++ s).drop off = (2 : Byte) :: (i1.bytes ++ (i2.bytes ++ (o.bytes ++ tl))) := by
      rw [hb]; simp [Record.bytes]
    have hlen : (Record.and i1 i2 o).bytes.length = 13 := rfl
    rw [hlen] at hlt
    rw [hop, head_of_drop_cons _ _ _ _ hb0]
    dsimp only
    rw [v2, if_neg (by decide), if_pos (Or.inr rfl), if_pos (by omega)]

theorem record_bytes_ne_nil (r : Record) : r.bytes ≠ [] := by
  cases r <;> simp [Record.bytes]

/-- A run of the record loop that ends normally is repeated step for step on
the same buffer followed by further bytes. -/
theorem decode_records_append (p s : List Byte) :
    ∀ (rem g off : Nat) (gates : List Int),
    (decode_records p p.length rem g off gates).outcome = .ok →
    decode_records (p ++ s) (p ++ s).length rem g off gates
      = decode_records p p.length rem g off gates := by
  intro rem
  induction rem with
  | zero => intro g off gates _; rfl
  | succ rem ih =>
    intro g off gates h
    have hstep : (decode_record p p.length g off gates).outcome = .ok := by
      by_contra hc
      rw [decode_records_succ_of_not_ok _ _ _ _ _ _ hc] at h
      exact hc h
    obtain ⟨r, tl, hb, hs⟩ := decode_record_ok_inv _ _ _ _ _ hstep
    have hb' := drop_extend p s off r.bytes tl (record_bytes_ne_nil r) hb
    have e1 := decode_record_layout p p.length g off gates r tl hb hs
    have e2 := decode_record_layout (p ++ s) (p ++ s).length g off gates r (tl ++ s) hb'
      (by rw [List.length_append]; omega)
    have e : decode_record (p ++ s) (p ++ s).length g off gates
        = decode_record p p.length g off gates := by rw [e1, e2]
    rw [decode_records_succ_of_ok _ _ _ _ _ _ hstep] at h
    rw [decode_records_succ_of_ok _ _ _ _ _ _ hstep,
      decode_records_succ_of_ok _ _ _ _ _ _ (by rw [e]; exact hstep), e]
    exact ih _ _ _ h

/-- A run of the record loop that ends normally beyond the end of a prefix of
the buffer throws on that prefix. -/
theorem decode_records_truncated (p s : List Byte) :
    ∀ (rem g off : Nat) (gates : List Int),
    (decode_records (p ++ s) (p ++ s).length rem g off gates).outcome = .ok →
    p.length < (decode_records (p ++ s) (p ++ s).length rem g off gates).offset →
    off ≤ p.length →
    (decode_records p p.length rem g off gates).outcome = .threw .buffer_too_small := by
  intro rem
  induction rem with
  | zero =>
    intro g off gates _ hlt hle
    rw [decode_records_zero] at hlt
    exact absurd hlt (by simpa using hle)
  | succ rem ih =>
    intro g off gates h hlt hle
    have hstep : (decode_record (p ++ s) (p ++ s).length g off gates).outcome = .ok := by
      by_contra hc
      rw [decode_records_succ_of_not_ok _ _ _ _ _ _ hc] at h
      exact hc h
    obtain ⟨r, tl, hb, hs⟩ := decode_record_ok_inv _ _ _ _ _ hstep
    by_cases hfit : off + r.bytes.length ≤ p.length
    · obtain ⟨tl', hb'⟩ := drop_restrict p s off r.bytes tl hb hfit
      have e1 := decode_record_layout p p.length g off gates r tl' hb' hfit
      have e2 := decode_record_layout (p ++ s) (p ++ s).length g off gates r tl hb hs
      have e : decode_record (p ++ s) (p ++ s).length g off gates
          = decode_record p p.length g off gates := by rw [e1, e2]
      have hoff : (decode_record p p.length g off gates).offset = off + r.bytes.length := by
        rw [e1]; cases r.store gates g <;> rfl
      rw [decode_records_succ_of_ok _ _ _ _ _ _ hstep, e] at h hlt
      rw [decode_records_succ_of_ok _ _ _ _ _ _ (by rw [← e]; exact hstep)]
      exact ih _ _ _ h hlt (by rw [hoff]; exact hfit)
    · have ht := decode_record_truncated p s g off gates r tl hb (by omega)
      rw [decode_records_succ_of_not_ok _ _ _ _ _ _ (by rw [ht]; simp)]
      exact ht

theorem from_buffer_eq {β : Type} [Inhabited β] (self : BristolFormat β) (buf : List Byte)
    (size : Nat) :
    self.from_buffer buf size =
      if 20 > size then (.threw .buffer_too_small, self) else
      match read_u32 buf 0, read_u32 buf 4, read_u32 buf 8, read_u32 buf 12, read_u32 buf 16 with
      | some h0, some h1, some h2, some h3, some h4 =>
        from_buffer_after_header self h0 h1 h2 h3 h4
          (fun rem gates => decode_records buf size rem 0 20 gates) size
      | _, _, _, _, _ => (.undefined, self) := by
  rfl

theorem from_buffer_of_reads {β : Type} [Inhabited β] (self : BristolFormat β) (buf : List Byte)
    (size h0 h1 h2 h3 h4 : Nat) (hs : 20 ≤ size)
    (r0 : read_u32 buf 0 = some h0) (r1 : read_u32 buf 4 = some h1)
    (r2 : read_u32 buf 8 = some h2) (r3 : read_u32 buf 12 = some h3)
    (r4 : read_u32 buf 16 = some h4) :
    self.from_buffer buf size = from_buffer_after_header self h0 h1 h2 h3 h4
          (fun rem gates => decode_records buf size rem 0 20 gates) size := by
  rw [from_buffer_eq, if_neg (by omega), r0, r1, r2, r3, r4]

theorem from_buffer_short {β : Type} [Inhabited β] (self : BristolFormat β) (buf : List Byte)
    (size : Nat) (hs : size < 20) :
    self.from_buffer buf size = (.threw .buffer_too_small, self) := by
  rw [from_buffer_eq, if_pos (by omega)]

theorem from_buffer_ok_reads {β : Type} [Inhabited β] (self : BristolFormat β) (buf : List Byte)
    (size : Nat) (h : (self.from_buffer buf size).1 = .ok) :
    20 ≤ size ∧ ∃ h0 h1 h2 h3 h4, read_u32 buf 0 = some h0 ∧ read_u32 buf 4 = some h1
      ∧ read_u32 buf 8 = some h2 ∧ read_u32 buf 12 = some h3 ∧ read_u32 buf 16 = some h4 := by
  rw [from_buffer_eq] at h
  by_cases hs : 20 > size
  · rw [if_pos hs] at h; exact absurd h (by simp)
  rw [if_neg hs] at h
  refine ⟨by omega, ?_⟩
  cases r0 : read_u32 buf 0 with
  | none => rw [r0] at h; exact absurd h (by simp)
  | some h0 =>
  cases r1 : read_u32 buf 4 with
  | none => rw [r0, r1] at h; exact absurd h (by simp)
  | some h1 =>
  cases r2 : read_u32 buf 8 with
  | none => rw [r0, r1, r2] at h; exact absurd h (by simp)
  | some h2 =>
  cases r3 : read_u32 buf 12 with
  | none => rw [r0, r1, r2, r3] at h; exact absurd h (by simp)
  | some h3 =>
  cases r4 : read_u32 buf 16 with
  | none => rw [r0, r1, r2, r3, r4] at h; exact absurd h (by simp)
  | some h4 => exact ⟨h0, h1, h2, h3, h4, rfl, rfl, rfl, rfl, rfl⟩

/-- What a normal end of the part after the header reads says about its steps. -/
theorem after_header_ok_inv {β : Type} [Inhabited β] (self : BristolFormat β)
    (h0 h1 h2 h3 h4 : Nat) (loop : Nat → List Int → LoopState) (size : Nat)
    (h : (from_buffer_after_header self h0 h1 h2 h3 h4 loop size).1 = .ok) :
    ∃ G W, int_ok (to_int h0 * 4) = true
      ∧ vec_resize self.gates (to_int h0 * 4) 0 = some G
      ∧ vec_resize self.wires (to_int h1) default = some W
      ∧ (loop (to_int h0).toNat G).outcome = .ok
      ∧ (loop (to_int h0).toNat G).offset = size
      ∧ (from_buffer_after_header self h0 h1 h2 h3 h4 loop size).2
          = { num_gate := to_int h0, num_wire := to_int h1, n1 := to_int h2, n2 := to_int h3,
              n3 := to_int h4, gates := (loop (to_int h0).toNat G).gates, wires := W } := by
  unfold from_buffer_after_header at h ⊢
  dsimp only at h ⊢
  by_cases hi : int_ok (to_int h0 * 4) = true
  · rw [if_pos hi] at h ⊢
    rcases Option.eq_none_or_eq_some (vec_resize self.gates (to_int h0 * 4) 0) with hG | ⟨G, hG⟩
    · rw [hG] at h; exact absurd h (by simp)
    rw [hG] at h ⊢
    dsimp only at h ⊢
    rcases Option.eq_none_or_eq_some (vec_resize self.wires (to_int h1) default) with
      hW | ⟨W, hW⟩
    · rw [hW] at h; exact absurd h (by simp)
    rw [hW] at h ⊢
    dsimp only at h ⊢
    have ho : (loop (to_int h0).toNat G).outcome = .ok := by
      by_contra hc
      cases hc' : (loop (to_int h0).toNat G).outcome with
      | ok => exact hc hc'
      | threw e => rw [hc'] at h; exact absurd h (by simp)
      | undefined => rw [hc'] at h; exact absurd h (by simp)
    rw [ho] at h ⊢
    dsimp only at h ⊢
    by_cases hoff : (loop (to_int h0).toNat G).offset ≠ size
    · rw [if_pos hoff] at h; exact absurd h (by simp)
    · rw [if_neg hoff] at h ⊢
      exact ⟨G, W, hi, rfl, rfl, ho, not_not.mp hoff, rfl⟩
  · rw [if_neg hi] at h; exact absurd h (by simp)

/-- The outcome of the part after the header reads when the record loop does
not end normally: it is the outcome of the loop. -/
theorem after_header_loop_fails {β : Type} [Inhabited β] (self : BristolFormat β)
    (h0 h1 h2 h3 h4 : Nat) (loop : Nat → List Int → LoopState) (size : Nat) (G : List Int)
    (W : List β) (hi : int_ok (to_int h0 * 4) = true)
    (hG : vec_resize self.gates (to_int h0 * 4) 0 = some G)
    (hW : vec_resize self.wires (to_int h1) default = some W)
    (hne : (loop (to_int h0).toNat G).outcome ≠ .ok) :
    (from_buffer_after_header self h0 h1 h2 h3 h4 loop size).1
      = (loop (to_int h0).toNat G).outcome := by
  unfold from_buffer_after_header
  dsimp only
  rw [if_pos hi, hG]
  dsimp only
  rw [hW]
  dsimp only
  cases ho : (loop (to_int h0).toNat G).outcome with
  | ok => exact absurd ho hne
  | threw e => rfl
  | undefined => rfl

/-- The outcome of the part after the header reads when the record loop ends
normally with the cursor off the end of the buffer. -/
theorem after_header_extra {β : Type} [Inhabited β] (self : BristolFormat β)
    (h0 h1 h2 h3 h4 : Nat) (loop : Nat → List Int → LoopState) (size : Nat) (G : List Int)
    (W : List β) (hi : int_ok (to_int h0 * 4) = true)
    (hG : vec_resize self.gates (to_int h0 * 4) 0 = some G)
    (hW : vec_resize self.wires (to_int h1) default = some W)
    (hok : (loop (to_int h0).toNat G).outcome = .ok)
    (hoff : (loop (to_int h0).toNat G).offset ≠ size) :
    (from_buffer_after_header self h0 h1 h2 h3 h4 loop size).1 = .threw .extra_bytes := by
  unfold from_buffer_after_header
  dsimp only
  rw [if_pos hi, hG]
  dsimp only
  rw [hW]
  dsimp only
  rw [hok]
  dsimp only
  rw [if_pos hoff]

/-! ### The claims about the binary decoder -/

theorem read_u32_append (p s : List Byte) (off v : Nat) (h : read_u32 p off = some v) :
    read_u32 (p ++ s) off = some v := by
  obtain ⟨w, tl, e, hv, -⟩ := read_u32_inv _ _ _ h
  rw [← hv]
  exact read_u32_at _ _ _ _ (drop_extend p s off w.bytes tl (by simp [Word.bytes]) e)

theorem read_u32_restrict (p s : List Byte) (off v : Nat) (h : read_u32 (p ++ s) off = some v)
    (hlen : off + 4 ≤ p.length) : read_u32 p off = some v := by
  obtain ⟨w, tl, e, hv, -⟩ := read_u32_inv _ _ _ h
  obtain ⟨tl', e'⟩ := drop_restrict p s off w.bytes tl e (by rw [word_length_bytes]; exact hlen)
  rw [← hv]
  exact read_u32_at _ _ _ _ e'

/-- C4: for every buffer b that `from_buffer` accepts and every non-empty byte
sequence s, `from_buffer` fails on `b ++ s`; the exception is the one for
extra bytes after the final gate. -/
theorem from_buffer_append {β : Type} [Inhabited β] (self : BristolFormat β) (b s : List Byte)
    (hok : (self.from_buffer b b.length).1 = .ok) (hs : s ≠ []) :
    (self.from_buffer (b ++ s) (b ++ s).length).1 = .threw .extra_bytes := by
  obtain ⟨h20, h0, h1, h2, h3, h4, r0, r1, r2, r3, r4⟩ := from_buffer_ok_reads self b _ hok
  rw [from_buffer_of_reads self b _ h0 h1 h2 h3 h4 h20 r0 r1 r2 r3 r4] at hok
  obtain ⟨G, W, hi, hG, hW, ho, hoff, -⟩ := after_header_ok_inv _ _ _ _ _ _ _ _ hok
  have hlen : (b ++ s).length = b.length + s.length := List.length_append _ _
  have hspos : 0 < s.length := List.length_pos.mpr hs
  rw [from_buffer_of_reads self (b ++ s) _ h0 h1 h2 h3 h4 (by omega)
    (read_u32_append _ _ _ _ r0) (read_u32_append _ _ _ _ r1) (read_u32_append _ _ _ _ r2)
    (read_u32_append _ _ _ _ r3) (read_u32_append _ _ _ _ r4)]
  have e := decode_records_append b s (to_int h0).toNat 0 20 G ho
  apply after_header_extra _ _ _ _ _ _ _ _ G W hi hG hW
  · show (decode_records (b ++ s) (b ++ s).length (to_int h0).toNat 0 20 G).outcome = .ok
    rw [e]; exact ho
  · show (decode_records (b ++ s) (b ++ s).length (to_int h0).toNat 0 20 G).offset
      ≠ (b ++ s).length
    rw [e]
    have : (decode_records b b.length (to_int h0).toNat 0 20 G).offset = b.length := hoff
    omega

/-- C5: for every buffer that `from_buffer` accepts, `from_buffer` fails on every
proper prefix p of it (the buffer is `p ++ s` with s non-empty); the exception
is the one of the bounds check `need`. -/
theorem from_buffer_prefix {β : Type} [Inhabited β] (self : BristolFormat β) (p s : List Byte)
    (hs : s ≠ []) (hok : (self.from_buffer (p ++ s) (p ++ s).length).1 = .ok) :
    (self.from_buffer p p.length).1 = .threw .buffer_too_small := by
  by_cases hp : p.length < 20
  · rw [from_buffer_short self p _ hp]
  obtain ⟨h20, h0, h1, h2, h3, h4, r0, r1, r2, r3, r4⟩ := from_buffer_ok_reads self _ _ hok
  rw [from_buffer_of_reads self _ _ h0 h1 h2 h3 h4 h20 r0 r1 r2 r3 r4] at hok
  obtain ⟨G, W, hi, hG, hW, ho, hoff, -⟩ := after_header_ok_inv _ _ _ _ _ _ _ _ hok
  have hlen : (p ++ s).length = p.length + s.length := List.length_append _ _
  have hspos : 0 < s.length := List.length_pos.mpr hs
  rw [from_buffer_of_reads self p _ h0 h1 h2 h3 h4 (by omega)
    (read_u32_restrict _ _ _ _ r0 (by omega)) (read_u32_restrict _ _ _ _ r1 (by omega))
    (read_u32_restrict _ _ _ _ r2 (by omega)) (read_u32_restrict _ _ _ _ r3 (by omega))
    (read_u32_restrict _ _ _ _ r4 (by omega))]
  have ht := decode_records_truncated p s (to_int h0).toNat 0 20 G ho
    (by
      have : (decode_records (p ++ s) (p ++ s).length (to_int h0).toNat 0 20 G).offset
          = (p ++ s).length := hoff
      omega)
    (by omega)
  rw [after_header_loop_fails _ _ _ _ _ _ _ _ G W hi hG hW
    (by
      show (decode_records p p.length (to_int h0).toNat 0 20 G).outcome ≠ .ok
      rw [ht]; simp)]
  exact ht

/-- C1 (amended): a buffer that is a 20-byte header declaring `num_gate = k` and
`num_wire < 2^31`, followed by exactly k records and nothing else (its length
fitting the `int` parameter `size`), is accepted, and gate i is stored as
`(in, 0, out, 2)` for a record of opcode 0, `(in1, in2, out, 1)` for opcode 1 and
`(in1, in2, out, 0)` for opcode 2, each index being the `int` reading of the
record's little-endian word. -/
theorem from_buffer_stores_records {β : Type} [Inhabited β] (self : BristolFormat β)
    (hdr : Header) (recs : List Record)
    (hk : hdr.num_gate.val = recs.length) (hw : hdr.num_wire.val < 2 ^ 31)
    (hsz : (hdr.bytes ++ recs.flatMap Record.bytes).length < 2 ^ 31) :
    (self.from_buffer (hdr.bytes ++ recs.flatMap Record.bytes)
        (hdr.bytes ++ recs.flatMap Record.bytes).length).1 = .ok
    ∧ (self.from_buffer (hdr.bytes ++ recs.flatMap Record.bytes)
        (hdr.bytes ++ recs.flatMap Record.bytes).length).2.num_gate = (recs.length : Int)
    ∧ (self.from_buffer (hdr.bytes ++ recs.flatMap Record.bytes)
        (hdr.bytes ++ recs.flatMap Record.bytes).length).2.gates.length = 4 * recs.length
    ∧ ∀ (i : Nat) (hi : i < recs.length),
        (((self.from_buffer (hdr.bytes ++ recs.flatMap Record.bytes)
          (hdr.bytes ++ recs.flatMap Record.bytes).length).2.gates.drop (4 * i)).take 4
          = match recs.get ⟨i, hi⟩ with
            | .inv a o => [to_int a.val, 0, to_int o.val, 2]
            | .xor a b o => [to_int a.val, to_int b.val, to_int o.val, 1]
            | .and a b o => [to_int a.val, to_int b.val, to_int o.val, 0]) := by
  rw [from_buffer_layout self hdr recs hk hw hsz]
  refine ⟨rfl, rfl, length_flatMap_stored recs, ?_⟩
  intro i hi
  show ((recs.flatMap Record.stored).drop (4 * i)).take 4 = _
  rw [stored_chunk recs i hi]
  cases recs.get ⟨i, hi⟩ <;> rfl

theorem from_buffer_stores_records_witness :
    (Header.mk ⟨1, 0, 0, 0⟩ ⟨3, 0, 0, 0⟩ ⟨1, 0, 0, 0⟩ ⟨1, 0, 0, 0⟩ ⟨1, 0, 0, 0⟩).num_gate.val
      = [Record.xor ⟨0, 0, 0, 0⟩ ⟨1, 0, 0, 0⟩ ⟨2, 0, 0, 0⟩].length
    ∧ ((⟨0, 0, 0, 0, 0, [], []⟩ : BristolFormat Bool).from_buffer
        ((Header.mk ⟨1, 0, 0, 0⟩ ⟨3, 0, 0, 0⟩ ⟨1, 0, 0, 0⟩ ⟨1, 0, 0, 0⟩ ⟨1, 0, 0, 0⟩).bytes
          ++ [Record.xor ⟨0, 0, 0, 0⟩ ⟨1, 0, 0, 0⟩ ⟨2, 0, 0, 0⟩].flatMap Record.bytes)
        ((Header.mk ⟨1, 0, 0, 0⟩ ⟨3, 0, 0, 0⟩ ⟨1, 0, 0, 0⟩ ⟨1, 0, 0, 0⟩ ⟨1, 0, 0, 0⟩).bytes
          ++ [Record.xor ⟨0, 0, 0, 0⟩ ⟨1, 0, 0, 0⟩ ⟨2, 0, 0, 0⟩].flatMap Record.bytes).length).1
      = .ok :=
  ⟨by decide, (from_buffer_stores_records _ _ _ (by decide) (by decide) (by decide)).1⟩

/-- C1 as stated fails: the 20-byte buffer whose header declares no gate and
`num_wire = 0xFFFFFFFF` is a header followed by exactly zero records, and
`from_buffer` throws `std::length_error` from `wires.resize(-1)`. -/
theorem from_buffer_rejects_wide_num_wire :
    (Header.mk ⟨0, 0, 0, 0⟩ ⟨255, 255, 255, 255⟩ ⟨0, 0, 0, 0⟩ ⟨0, 0, 0, 0⟩ ⟨0, 0, 0, 0⟩).num_gate.val
      = ([] : List Record).length
    ∧ ((⟨0, 0, 0, 0, 0, [], []⟩ : BristolFormat Bool).from_buffer
        ((Header.mk ⟨0, 0, 0, 0⟩ ⟨255, 255, 255, 255⟩ ⟨0, 0, 0, 0⟩ ⟨0, 0, 0, 0⟩ ⟨0, 0, 0, 0⟩).bytes
          ++ ([] : List Record).flatMap Record.bytes) 20).1 = .threw .length_error := by
  decide

/-- C2: for every buffer of length below 20, `from_buffer` fails: it throws from
the bounds check of the header and returns nothing. -/
theorem from_buffer_truncated_header {β : Type} [Inhabited β] (self : BristolFormat β)
    (buf : List Byte) (h : buf.length < 20) :
    (self.from_buffer buf buf.length).1 = .threw .buffer_too_small := by
  rw [from_buffer_short self buf _ h]

theorem from_buffer_truncated_header_witness :
    (List.replicate 19 (7 : Byte)).length < 20
    ∧ ((⟨0, 0, 0, 0, 0, [], []⟩ : BristolFormat Bool).from_buffer (List.replicate 19 (7 : Byte))
        (List.replicate 19 (7 : Byte)).length).1 = .threw .buffer_too_small :=
  ⟨by decide, from_buffer_truncated_header _ _ (by decide)⟩

/-- C3 fails on the code: on the 30-byte buffer whose header declares
`num_gate = 2^30`, whose first record is a well-formed NOT record and whose
second record starts with opcode 7, the product `num_gate * 4` of
`gates.resize(num_gate * 4)` overflows `int` before any opcode is looked at;
the call has no defined outcome instead of the exception for the opcode. -/
theorem from_buffer_overflow_before_opcode :
    (Header.mk ⟨0, 0, 0, 64⟩ ⟨3, 0, 0, 0⟩ ⟨1, 0, 0, 0⟩ ⟨1, 0, 0, 0⟩ ⟨1, 0, 0, 0⟩).num_gate.val
      = 2 ^ 30
    ∧ ((⟨0, 0, 0, 0, 0, [], []⟩ : BristolFormat Bool).from_buffer
        ((Header.mk ⟨0, 0, 0, 64⟩ ⟨3, 0, 0, 0⟩ ⟨1, 0, 0, 0⟩ ⟨1, 0, 0, 0⟩ ⟨1, 0, 0, 0⟩).bytes
          ++ (Record.inv ⟨0, 0, 0, 0⟩ ⟨2, 0, 0, 0⟩).bytes ++ [7]) 30).1 = .undefined := by
  decide

theorem from_buffer_append_witness :
    ((⟨0, 0, 0, 0, 0, [], []⟩ : BristolFormat Bool).from_buffer (List.replicate 20 (0 : Byte))
        (List.replicate 20 (0 : Byte)).length).1 = .ok
    ∧ ([1] : List Byte) ≠ []
    ∧ ((⟨0, 0, 0, 0, 0, [], []⟩ : BristolFormat Bool).from_buffer
        (List.replicate 20 (0 : Byte) ++ [1])
        (List.replicate 20 (0 : Byte) ++ [1]).length).1 = .threw .extra_bytes :=
  ⟨by decide, by decide, from_buffer_append _ _ _ (by decide) (by decide)⟩

theorem from_buffer_prefix_witness :
    ([0] : List Byte) ≠ []
    ∧ ((⟨0, 0, 0, 0, 0, [], []⟩ : BristolFormat Bool).from_buffer
        (List.replicate 19 (0 : Byte) ++ [0])
        (List.replicate 19 (0 : Byte) ++ [0]).length).1 = .ok
    ∧ ((⟨0, 0, 0, 0, 0, [], []⟩ : BristolFormat Bool).from_buffer (List.replicate 19 (0 : Byte))
        (List.replicate 19 (0 : Byte)).length).1 = .threw .buffer_too_small :=
  ⟨by decide, by decide,
    from_buffer_prefix _ (List.replicate 19 (0 : Byte)) [0] (by decide) (by decide)⟩

theorem decode_record_unknown (buf : List Byte) (size g off : Nat) (gates : List Int)
    (op : Byte) (rest : List Byte) (hb : buf.drop off = op :: rest) (hop : 2 < op.val)
    (hs : off + 1 ≤ size) :
    decode_record buf size g off gates = ⟨.threw .unknown_opcode, gates, off + 1⟩ := by
  unfold decode_record
  rw [if_neg (by omega), head_of_drop_cons _ _ _ _ hb]
  dsimp only
  rw [if_neg (by omega), if_neg (by omega)]

/-- The exception for an unknown opcode, when `num_gate * 4` fits `int`: a buffer
whose header declares `num_gate < 2^29` and `num_wire < 2^31`, and in which
fewer than `num_gate` well-formed records are followed by a byte above 2. -/
theorem from_buffer_unknown_opcode {β : Type} [Inhabited β] (self : BristolFormat β)
    (hdr : Header) (recs : List Record) (op : Byte) (rest : List Byte)
    (hlt : recs.length < hdr.num_gate.val) (hk : hdr.num_gate.val < 2 ^ 29)
    (hw : hdr.num_wire.val < 2 ^ 31) (hop : 2 < op.val) :
    (self.from_buffer (hdr.bytes ++ (recs.flatMap Record.bytes ++ op :: rest))
      (hdr.bytes ++ (recs.flatMap Record.bytes ++ op :: rest)).length).1
      = .threw .unknown_opcode := by
  obtain ⟨r0, r1, r2, r3, r4⟩ := header_reads hdr (recs.flatMap Record.bytes ++ op :: rest)
  have hlen : (hdr.bytes ++ (recs.flatMap Record.bytes ++ op :: rest)).length
      = 20 + ((recs.flatMap Record.bytes).length + (rest.length + 1)) := by
    rw [List.length_append, header_length_bytes, List.length_append, List.length_cons]
  rw [from_buffer_of_reads self _ _ _ _ _ _ _ (by omega) r0 r1 r2 r3 r4]
  have hti : to_int hdr.num_gate.val = (hdr.num_gate.val : Int) := to_int_of_lt _ (by omega)
  have hmul : to_int hdr.num_gate.val * 4 = ((hdr.num_gate.val * 4 : Nat) : Int) := by
    rw [hti]; push_cast; ring
  have hrun := decode_records_run (hdr.bytes ++ (recs.flatMap Record.bytes ++ op :: rest))
    (hdr.bytes ++ (recs.flatMap Record.bytes ++ op :: rest)).length recs
    (hdr.num_gate.val - recs.length - 1 + 1) 0 20
    (self.gates.take (hdr.num_gate.val * 4)
      ++ List.replicate (hdr.num_gate.val * 4 - self.gates.length) 0)
    (op :: rest) (List.drop_left' (header_length_bytes hdr)) (by omega)
    (by rw [length_resized]; omega) (by rw [length_resized]; omega)
  have hcnt : recs.length + (hdr.num_gate.val - recs.length - 1 + 1) = hdr.num_gate.val := by
    omega
  have hb : (hdr.bytes ++ (recs.flatMap Record.bytes ++ op :: rest)).drop
      (20 + (recs.flatMap Record.bytes).length) = op :: rest := by
    rw [← List.drop_drop, List.drop_left' (header_length_bytes hdr), List.drop_left]
  rw [hcnt, decode_records_succ_of_not_ok _ _ _ _ _ _
    (by rw [decode_record_unknown _ _ _ _ _ op rest hb hop (by omega)]; simp),
    decode_record_unknown _ _ _ _ _ op rest hb hop (by omega)] at hrun
  rw [after_header_loop_fails self _ _ _ _ _ _ _ _
    (self.wires.take hdr.num_wire.val
      ++ List.replicate (hdr.num_wire.val - self.wires.length) default)
    (by rw [hmul]; exact int_ok_ofNat _ (by omega))
    (by rw [hmul]; exact vec_resize_nonneg _ _ _)
    (by rw [to_int_of_lt _ hw]; exact vec_resize_nonneg _ _ _)]
  · show (decode_records _ _ (to_int hdr.num_gate.val).toNat 0 20 _).outcome = _
    rw [hti, Int.toNat_ofNat, hrun]
  · show (decode_records _ _ (to_int hdr.num_gate.val).toNat 0 20 _).outcome ≠ _
    rw [hti, Int.toNat_ofNat, hrun]
    simp

theorem int_ok_iff (x : Int) : int_ok x = true ↔ (-(2 : Int) ^ 31 ≤ x ∧ x < (2 : Int) ^ 31) := by
  simp only [int_ok, Bool.and_eq_true, decide_eq_true_eq]
  omega

theorem vec_set_length {α : Type} (v : List α) (i : Int) (x : α) (v' : List α)
    (h : vec_set v i x = some v') : v'.length = v.length := by
  unfold vec_set at h
  split at h
  · rw [← Option.some.inj h, List.length_set]
  · exact absurd h (by simp)

theorem store_gate_inv (gates : List Int) (g : Nat) (a b c d : Int) (G : List Int)
    (h : store_gate gates g a b c d = some G) :
    4 * g + 3 < gates.length
      ∧ G = gates.take (4 * g) ++ a :: b :: c :: d :: gates.drop (4 * g + 4) := by
  have e0 : (4 * (g : Int)).toNat = 4 * g := by omega
  have e3 : (4 * (g : Int) + 3).toNat = 4 * g + 3 := by omega
  have hlt : 4 * g + 3 < gates.length := by
    unfold store_gate at h
    by_cases hi : int_ok (4 * (g : Int) + 3) = true
    · rw [if_pos hi] at h
      simp only [Option.bind_eq_some] at h
      obtain ⟨g0, h0, g1, h1, g2, h2, h3⟩ := h
      have l0 := vec_set_length _ _ _ _ h0
      have l1 := vec_set_length _ _ _ _ h1
      have l2 := vec_set_length _ _ _ _ h2
      unfold vec_set at h3
      by_cases hc : 0 ≤ 4 * (g : Int) + 3 ∧ (4 * (g : Int) + 3).toNat < g2.length
      · rw [e3, l2, l1, l0] at hc; exact hc.2
      · rw [if_neg hc] at h3; exact absurd h3 (by simp)
    · rw [if_neg hi] at h; exact absurd h (by simp)
  refine ⟨hlt, ?_⟩
  have hi : int_ok (4 * (g : Int) + 3) = true := by
    by_contra hc
    unfold store_gate at h
    rw [if_neg hc] at h
    exact absurd h (by simp)
  have e1 : (4 * (g : Int) + 1).toNat = 4 * g + 1 := by omega
  have e2 : (4 * (g : Int) + 2).toNat = 4 * g + 2 := by omega
  unfold store_gate at h
  rw [if_pos hi] at h
  simp only [vec_set, e0, e1, e2, e3] at h
  rw [if_pos ⟨by omega, by omega⟩] at h
  simp only [Option.some_bind, List.length_set] at h
  rw [if_pos ⟨by omega, by omega⟩] at h
  simp only [Option.some_bind, List.length_set] at h
  rw [if_pos ⟨by omega, by omega⟩] at h
  simp only [Option.some_bind, List.length_set] at h
  rw [if_pos ⟨by omega, by omega⟩] at h
  rw [set4_take_drop _ _ _ _ _ _ hlt] at h
  exact (Option.some.inj h).symm

theorem record_store_inv (r : Record) (gates : List Int) (g : Nat) (G : List Int)
    (h : r.store gates g = some G) :
    4 * g + 3 < gates.length
      ∧ G = gates.take (4 * g) ++ r.stored ++ gates.drop (4 * g + 4) := by
  cases r with
  | inv i o =>
    obtain ⟨h1, h2⟩ := store_gate_inv _ _ _ _ _ _ _ h
    exact ⟨h1, by rw [h2]; simp [Record.stored]⟩
  | xor i1 i2 o =>
    obtain ⟨h1, h2⟩ := store_gate_inv _ _ _ _ _ _ _ h
    exact ⟨h1, by rw [h2]; simp [Record.stored]⟩
  | and i1 i2 o =>
    obtain ⟨h1, h2⟩ := store_gate_inv _ _ _ _ _ _ _ h
    exact ⟨h1, by rw [h2]; simp [Record.stored]⟩

/-- A pass of the record loop that ends normally has read one record and
stored its tuple. -/
theorem decode_record_ok_full (buf : List Byte) (size g off : Nat) (gates : List Int)
    (h : (decode_record buf size g off gates).outcome = .ok) :
    ∃ (r : Record) (tl : List Byte), buf.drop off = r.bytes ++ tl
      ∧ off + r.bytes.length ≤ size ∧ 4 * g + 3 < gates.length
      ∧ decode_record buf size g off gates
        = ⟨.ok, gates.take (4 * g) ++ r.stored ++ gates.drop (4 * g + 4),
            off + r.bytes.length⟩ := by
  obtain ⟨r, tl, hb, hs⟩ := decode_record_ok_inv _ _ _ _ _ h
  have e := decode_record_layout buf size g off gates r tl hb hs
  rcases Option.eq_none_or_eq_some (r.store gates g) with hn | ⟨G, hG⟩
  · rw [e, hn] at h; exact absurd h (by simp)
  · obtain ⟨h1, h2⟩ := record_store_inv r _ _ _ hG
    refine ⟨r, tl, hb, hs, h1, ?_⟩
    rw [e, hG, h2]

/-- A run of the record loop that ends normally has read `rem` records, one
after the other from `off`, and stored their tuples from gate g on. -/
theorem decode_records_ok_inv (buf : List Byte) (size : Nat) :
    ∀ (rem g off : Nat) (gates : List Int),
    (decode_records buf size rem g off gates).outcome = .ok →
    ∃ (recs : List Record) (tl : List Byte), recs.length = rem
      ∧ buf.drop off = recs.flatMap Record.bytes ++ tl
      ∧ (decode_records buf size rem g off gates).offset
          = off + (recs.flatMap Record.bytes).length
      ∧ (0 < rem → 4 * (g + rem) ≤ gates.length)
      ∧ (decode_records buf size rem g off gates).gates
          = gates.take (4 * g) ++ recs.flatMap Record.stored
            ++ gates.drop (4 * (g + rem)) := by
  intro rem
  induction rem with
  | zero =>
    intro g off gates _
    refine ⟨[], buf.drop off, rfl, by simp, by simp [decode_records_zero], by simp, ?_⟩
    simp [decode_records_zero]
  | succ rem ih =>
    intro g off gates h
    have hstep : (decode_record buf size g off gates).outcome = .ok := by
      by_contra hc
      rw [decode_records_succ_of_not_ok _ _ _ _ _ _ hc] at h
      exact hc h
    obtain ⟨r, tl, hb, hs, hg, e⟩ := decode_record_ok_full _ _ _ _ _ hstep
    rw [decode_records_succ_of_ok _ _ _ _ _ _ hstep, e] at h ⊢
    dsimp only at h ⊢
    obtain ⟨recs, tl', hlen, hb', hoff, hcap, hgates⟩ := ih _ _ _ h
    have hA : (gates.take (4 * g) ++ r.stored).length = 4 * g + 4 := by
      rw [List.length_append, List.length_take, record_length_stored]; omega
    have hlen1 : (gates.take (4 * g) ++ r.stored ++ gates.drop (4 * g + 4)).length
        = gates.length := by
      rw [List.length_append, hA, List.length_drop]; omega
    have htl : tl = recs.flatMap Record.bytes ++ tl' := by
      rw [← hb', ← List.drop_drop, hb, List.drop_left]
    obtain ⟨e1, e2⟩ := take_drop_written (gates.take (4 * g)) r.stored (gates.drop (4 * g + 4))
      (4 * g + 4) (4 * rem) hA
    have i1 : 4 * (g + 1) = 4 * g + 4 := by omega
    have i2 : 4 * (g + 1 + rem) = 4 * g + 4 + 4 * rem := by omega
    have i3 : 4 * (g + (rem + 1)) = 4 * rem + (4 * g + 4) := by omega
    refine ⟨r :: recs, tl', by simp [hlen], ?_, ?_, ?_, ?_⟩
    · rw [hb, htl]; simp
    · rw [hoff]; simp only [List.flatMap_cons, List.length_append]; omega
    · intro _
      by_cases hr : 0 < rem
      · have := hcap hr
        rw [hlen1] at this
        omega
      · have : rem = 0 := by omega
        subst this
        omega
    · have i5 : 4 * g + 4 + 4 * rem = 4 * rem + (4 * g + 4) := by omega
      rw [hgates, i1, i2, e1, e2, List.drop_drop, i3, i5]
      simp only [List.flatMap_cons, List.append_assoc]

theorem vec_resize_inv {α : Type} (v : List α) (n : Int) (zero : α) (l : List α)
    (h : vec_resize v n zero = some l) :
    0 ≤ n ∧ l = v.take n.toNat ++ List.replicate (n.toNat - v.length) zero := by
  unfold vec_resize at h
  by_cases hn : n < 0
  · rw [if_pos hn] at h; exact absurd h (by simp)
  · rw [if_neg hn] at h
    exact ⟨by omega, (Option.some.inj h).symm⟩

theorem to_int_nonneg_inv (x : Nat) (hx : x < 2 ^ 32) (h : 0 ≤ to_int x) :
    x < 2 ^ 31 ∧ to_int x = (x : Int) := by
  have hlt : x < 2 ^ 31 := by
    by_contra hc
    unfold to_int at h
    have : x % 2 ^ 32 = x := Nat.mod_eq_of_lt hx
    rw [this, if_neg hc] at h
    omega
  exact ⟨hlt, to_int_of_lt x hlt⟩

theorem header_of_reads (buf : List Byte) (h0 h1 h2 h3 h4 : Nat)
    (r0 : read_u32 buf 0 = some h0) (r1 : read_u32 buf 4 = some h1)
    (r2 : read_u32 buf 8 = some h2) (r3 : read_u32 buf 12 = some h3)
    (r4 : read_u32 buf 16 = some h4) :
    ∃ hdr : Header, buf = hdr.bytes ++ buf.drop 20 ∧ hdr.num_gate.val = h0
      ∧ hdr.num_wire.val = h1 ∧ hdr.n1.val = h2 ∧ hdr.n2.val = h3 ∧ hdr.n3.val = h4 := by
  obtain ⟨w0, t0, e0, v0, -⟩ := read_u32_inv _ _ _ r0
  obtain ⟨w1, t1, e1, v1, -⟩ := read_u32_inv _ _ _ r1
  obtain ⟨w2, t2, e2, v2, -⟩ := read_u32_inv _ _ _ r2
  obtain ⟨w3, t3, e3, v3, -⟩ := read_u32_inv _ _ _ r3
  obtain ⟨w4, t4, e4, v4, -⟩ := read_u32_inv _ _ _ r4
  have d0 : buf.drop 4 = t0 := drop_word buf 0 w0 t0 e0
  have d1 : buf.drop 8 = t1 := drop_word buf 4 w1 t1 e1
  have d2 : buf.drop 12 = t2 := drop_word buf 8 w2 t2 e2
  have d3 : buf.drop 16 = t3 := drop_word buf 12 w3 t3 e3
  have d4 : buf.drop 20 = t4 := drop_word buf 16 w4 t4 e4
  refine ⟨⟨w0, w1, w2, w3, w4⟩, ?_, v0, v1, v2, v3, v4⟩
  have e : buf = buf.drop 0 := rfl
  rw [d4]
  conv_lhs => rw [e, e0, ← d0, e1, ← d1, e2, ← d2, e3, ← d3, e4]
  simp [Header.bytes]

/-- Every buffer `from_buffer` accepts is a header followed by exactly
`num_gate` records, and the object is left holding that header and the tuples
of those records. -/
theorem from_buffer_ok_layout {β : Type} [Inhabited β] (self : BristolFormat β)
    (buf : List Byte) (h : (self.from_buffer buf buf.length).1 = .ok) :
    ∃ (hdr : Header) (recs : List Record), buf = hdr.bytes ++ recs.flatMap Record.bytes
      ∧ hdr.num_gate.val = recs.length ∧ recs.length < 2 ^ 29 ∧ hdr.num_wire.val < 2 ^ 31
      ∧ (self.from_buffer buf buf.length).2
        = { num_gate := (recs.length : Int), num_wire := (hdr.num_wire.val : Int),
            n1 := to_int hdr.n1.val, n2 := to_int hdr.n2.val, n3 := to_int hdr.n3.val,
            gates := recs.flatMap Record.stored,
            wires := self.wires.take hdr.num_wire.val
              ++ List.replicate (hdr.num_wire.val - self.wires.length) default } := by
  obtain ⟨h20, h0, h1, h2, h3, h4, r0, r1, r2, r3, r4⟩ := from_buffer_ok_reads self buf _ h
  obtain ⟨hdr, hbuf, v0, v1, v2, v3, v4⟩ := header_of_reads buf h0 h1 h2 h3 h4 r0 r1 r2 r3 r4
  rw [from_buffer_of_reads self buf _ h0 h1 h2 h3 h4 h20 r0 r1 r2 r3 r4] at h ⊢
  obtain ⟨G, W, hi, hG, hW, ho, hoff, hst⟩ := after_header_ok_inv _ _ _ _ _ _ _ _ h
  obtain ⟨hG0, hGe⟩ := vec_resize_inv _ _ _ _ hG
  obtain ⟨hW0, hWe⟩ := vec_resize_inv _ _ _ _ hW
  have hx0 : h0 < 2 ^ 32 := by rw [← v0]; exact (word_val_lt hdr.num_gate)
  have hx1 : h1 < 2 ^ 32 := by rw [← v1]; exact (word_val_lt hdr.num_wire)
  obtain ⟨hl0, ht0⟩ := to_int_nonneg_inv h0 hx0 (by omega)
  obtain ⟨hl1, ht1⟩ := to_int_nonneg_inv h1 hx1 hW0
  have hk29 : h0 < 2 ^ 29 := by
    have := (int_ok_iff _).mp hi
    rw [ht0] at this
    omega
  have hn : (to_int h0).toNat = h0 := by rw [ht0, Int.toNat_ofNat]
  have hGl : G.length = 4 * h0 := by
    rw [hGe, List.length_append, List.length_take, List.length_replicate, ht0]
    omega
  have ho' : (decode_records buf buf.length h0 0 20 G).outcome = .ok := by
    rw [← hn]; exact ho
  have hoff' : (decode_records buf buf.length h0 0 20 G).offset = buf.length := by
    rw [← hn]; exact hoff
  obtain ⟨recs, tl, hlen, hb, hfin, -, hgates⟩ := decode_records_ok_inv buf buf.length h0 0 20 G ho'
  have htl : tl = [] := by
    have hl := congrArg List.length hb
    rw [List.length_drop, List.length_append] at hl
    rw [hfin] at hoff'
    exact List.length_eq_zero.mp (by omega)
  rw [htl, List.append_nil] at hb
  have hgates' : (decode_records buf buf.length h0 0 20 G).gates
      = recs.flatMap Record.stored := by
    rw [hgates]
    have : G.drop (4 * (0 + h0)) = [] := List.drop_eq_nil_of_le (by omega)
    rw [this]; simp
  refine ⟨hdr, recs, by rw [← hb]; exact hbuf, by rw [v0, hlen], by rw [hlen]; exact hk29,
    by rw [v1]; exact hl1, ?_⟩
  rw [hst, hWe, v1, v2, v3, v4, ht1, hlen]
  show _ = _
  have e1 : (decode_records buf buf.length (to_int h0).toNat 0 20 G).gates
      = recs.flatMap Record.stored := by rw [hn]; exact hgates'
  have e2 : ((fun rem gates => decode_records buf buf.length rem 0 20 gates)
      (to_int h0).toNat G).gates = recs.flatMap Record.stored := e1
  rw [e2, ht0, ← hlen]
  simp

theorem get_circuit_of_threw {β : Type} [Inhabited β] (buf : List Byte) (g w a b c : Int)
    (e : Exn)
    (h : ((⟨g, w, a, b, c, [], []⟩ : BristolFormat β).from_buffer buf buf.length).1 = .threw e) :
    (get_circuit buf g w a b c : Except Outcome (BristolFormat β)) = .error (.threw e) := by
  unfold get_circuit
  dsimp only
  rcases hr : (⟨g, w, a, b, c, [], []⟩ : BristolFormat β).from_buffer buf buf.length with ⟨o, s⟩
  rw [hr] at h
  dsimp only at h
  subst h
  rfl

/-- C6 (amended): whenever `from_buffer` throws inside `get_circuit`, `get_circuit`
returns no circuit, the exception leaves it; and the object `from_buffer` was
called on is exactly what it was before the call when the exception comes from
the bounds check of the header (`size < 20`). -/
theorem failed_decode_returns_no_circuit {β : Type} [Inhabited β] (self : BristolFormat β)
    (buf : List Byte) (g w a b c : Int) :
    (∀ e : Exn,
      ((⟨g, w, a, b, c, [], []⟩ : BristolFormat β).from_buffer buf buf.length).1 = .threw e →
      (get_circuit buf g w a b c : Except Outcome (BristolFormat β)) = .error (.threw e))
    ∧ (buf.length < 20 →
        self.from_buffer buf buf.length = (.threw .buffer_too_small, self)) :=
  ⟨fun e h => get_circuit_of_threw buf g w a b c e h, fun h => from_buffer_short self buf _ h⟩

theorem failed_decode_returns_no_circuit_witness :
    ((⟨0, 0, 0, 0, 0, [], []⟩ : BristolFormat Bool).from_buffer (List.replicate 19 (0 : Byte))
        (List.replicate 19 (0 : Byte)).length).1 = .threw .buffer_too_small
    ∧ (get_circuit (List.replicate 19 (0 : Byte)) 0 0 0 0 0 : Except Outcome (BristolFormat Bool))
        = .error (.threw .buffer_too_small)
    ∧ (List.replicate 19 (0 : Byte)).length < 20
    ∧ (⟨5, 4, 3, 2, 1, [9], [true]⟩ : BristolFormat Bool).from_buffer
        (List.replicate 19 (0 : Byte)) (List.replicate 19 (0 : Byte)).length
        = (.threw .buffer_too_small, ⟨5, 4, 3, 2, 1, [9], [true]⟩) :=
  ⟨by decide,
   (failed_decode_returns_no_circuit (⟨5, 4, 3, 2, 1, [9], [true]⟩ : BristolFormat Bool)
      (List.replicate 19 (0 : Byte)) 0 0 0 0 0).1 _ (by decide),
   by decide,
   (failed_decode_returns_no_circuit (⟨5, 4, 3, 2, 1, [9], [true]⟩ : BristolFormat Bool)
      (List.replicate 19 (0 : Byte)) 0 0 0 0 0).2 (by decide)⟩

/-- C6 as stated fails: on a 20-byte buffer whose header declares one gate and
two wires and that holds no record, `from_buffer` throws from the bounds check
of the first record after it has overwritten the five members and resized
both vectors of the object. -/
theorem from_buffer_failure_leaves_members_overwritten :
    ((⟨0, 0, 0, 0, 0, [], []⟩ : BristolFormat Bool).from_buffer
        ((Header.mk ⟨1, 0, 0, 0⟩ ⟨2, 0, 0, 0⟩ ⟨1, 0, 0, 0⟩ ⟨1, 0, 0, 0⟩ ⟨1, 0, 0, 0⟩).bytes) 20).1
      = .threw .buffer_too_small
    ∧ ((⟨0, 0, 0, 0, 0, [], []⟩ : BristolFormat Bool).from_buffer
        ((Header.mk ⟨1, 0, 0, 0⟩ ⟨2, 0, 0, 0⟩ ⟨1, 0, 0, 0⟩ ⟨1, 0, 0, 0⟩ ⟨1, 0, 0, 0⟩).bytes) 20).2.num_gate
      = 1
    ∧ ((⟨0, 0, 0, 0, 0, [], []⟩ : BristolFormat Bool).from_buffer
        ((Header.mk ⟨1, 0, 0, 0⟩ ⟨2, 0, 0, 0⟩ ⟨1, 0, 0, 0⟩ ⟨1, 0, 0, 0⟩ ⟨1, 0, 0, 0⟩).bytes) 20).2.gates
      = [0, 0, 0, 0]
    ∧ ((⟨0, 0, 0, 0, 0, [], []⟩ : BristolFormat Bool).from_buffer
        ((Header.mk ⟨1, 0, 0, 0⟩ ⟨2, 0, 0, 0⟩ ⟨1, 0, 0, 0⟩ ⟨1, 0, 0, 0⟩ ⟨1, 0, 0, 0⟩).bytes) 20).2.wires
      = [false, false] := by
  decide

/-- C7 (amended): for every buffer `from_buffer` accepts, `num_gate` and
`num_wire` equal the unsigned little-endian values of the header words at
offsets 0 and 4, and n1, n2, n3 equal the `int` reading of the words at offsets
8, 12, 16: the unsigned value `b0 + 256*b1 + 65536*b2 + 16777216*b3` when that is
below `2^31`, and that value minus `2^32` otherwise. -/
theorem from_buffer_header_fields {β : Type} [Inhabited β] (self : BristolFormat β)
    (hdr : Header) (rest : List Byte)
    (h : (self.from_buffer (hdr.bytes ++ rest) (hdr.bytes ++ rest).length).1 = .ok) :
    (self.from_buffer (hdr.bytes ++ rest) (hdr.bytes ++ rest).length).2.num_gate
      = (hdr.num_gate.val : Int)
    ∧ (self.from_buffer (hdr.bytes ++ rest) (hdr.bytes ++ rest).length).2.num_wire
      = (hdr.num_wire.val : Int)
    ∧ (self.from_buffer (hdr.bytes ++ rest) (hdr.bytes ++ rest).length).2.n1
      = (if hdr.n1.val < 2 ^ 31 then (hdr.n1.val : Int) else (hdr.n1.val : Int) - 2 ^ 32)
    ∧ (self.from_buffer (hdr.bytes ++ rest) (hdr.bytes ++ rest).length).2.n2
      = (if hdr.n2.val < 2 ^ 31 then (hdr.n2.val : Int) else (hdr.n2.val : Int) - 2 ^ 32)
    ∧ (self.from_buffer (hdr.bytes ++ rest) (hdr.bytes ++ rest).length).2.n3
      = (if hdr.n3.val < 2 ^ 31 then (hdr.n3.val : Int) else (hdr.n3.val : Int) - 2 ^ 32) := by
  obtain ⟨r0, r1, r2, r3, r4⟩ := header_reads hdr rest
  have h20 : 20 ≤ (hdr.bytes ++ rest).length := by
    rw [List.length_append, header_length_bytes]; omega
  rw [from_buffer_of_reads self _ _ _ _ _ _ _ h20 r0 r1 r2 r3 r4] at h ⊢
  obtain ⟨G, W, hi, hG, hW, -, -, hst⟩ := after_header_ok_inv _ _ _ _ _ _ _ _ h
  obtain ⟨hG0, -⟩ := vec_resize_inv _ _ _ _ hG
  obtain ⟨hW0, -⟩ := vec_resize_inv _ _ _ _ hW
  obtain ⟨-, ht0⟩ := to_int_nonneg_inv _ (word_val_lt hdr.num_gate) (by omega)
  obtain ⟨-, ht1⟩ := to_int_nonneg_inv _ (word_val_lt hdr.num_wire) hW0
  have hto : ∀ w : Word, to_int w.val
      = (if w.val < 2 ^ 31 then (w.val : Int) else (w.val : Int) - 2 ^ 32) := by
    intro w
    unfold to_int
    rw [Nat.mod_eq_of_lt (word_val_lt w)]
  rw [hst]
  exact ⟨ht0, ht1, hto _, hto _, hto _⟩

theorem from_buffer_header_fields_witness :
    ((⟨0, 0, 0, 0, 0, [], []⟩ : BristolFormat Bool).from_buffer
        ((Header.mk ⟨0, 0, 0, 0⟩ ⟨3, 1, 0, 0⟩ ⟨1, 0, 0, 0⟩ ⟨255, 255, 255, 255⟩ ⟨1, 0, 0, 0⟩).bytes
          ++ [])
        ((Header.mk ⟨0, 0, 0, 0⟩ ⟨3, 1, 0, 0⟩ ⟨1, 0, 0, 0⟩ ⟨255, 255, 255, 255⟩ ⟨1, 0, 0, 0⟩).bytes
          ++ []).length).1 = .ok
    ∧ ((⟨0, 0, 0, 0, 0, [], []⟩ : BristolFormat Bool).from_buffer
        ((Header.mk ⟨0, 0, 0, 0⟩ ⟨3, 1, 0, 0⟩ ⟨1, 0, 0, 0⟩ ⟨255, 255, 255, 255⟩ ⟨1, 0, 0, 0⟩).bytes
          ++ [])
        ((Header.mk ⟨0, 0, 0, 0⟩ ⟨3, 1, 0, 0⟩ ⟨1, 0, 0, 0⟩ ⟨255, 255, 255, 255⟩ ⟨1, 0, 0, 0⟩).bytes
          ++ []).length).2.num_wire
      = ((Header.mk ⟨0, 0, 0, 0⟩ ⟨3, 1, 0, 0⟩ ⟨1, 0, 0, 0⟩ ⟨255, 255, 255, 255⟩
          ⟨1, 0, 0, 0⟩).num_wire.val : Int) :=
  ⟨by decide, (from_buffer_header_fields _ _ _ (by decide)).2.1⟩

/-- C7 as stated fails: the 20-byte buffer whose header declares no gate, no wire
and n1 = `FF FF FF FF` is accepted, and the stored n1 is -1 while the unsigned
little-endian value of the four bytes is 4294967295. -/
theorem from_buffer_stores_signed_n1 :
    ((⟨0, 0, 0, 0, 0, [], []⟩ : BristolFormat Bool).from_buffer
        ((Header.mk ⟨0, 0, 0, 0⟩ ⟨0, 0, 0, 0⟩ ⟨255, 255, 255, 255⟩ ⟨0, 0, 0, 0⟩ ⟨0, 0, 0, 0⟩).bytes)
        20).1 = .ok
    ∧ ((⟨0, 0, 0, 0, 0, [], []⟩ : BristolFormat Bool).from_buffer
        ((Header.mk ⟨0, 0, 0, 0⟩ ⟨0, 0, 0, 0⟩ ⟨255, 255, 255, 255⟩ ⟨0, 0, 0, 0⟩ ⟨0, 0, 0, 0⟩).bytes)
        20).2.n1 = -1
    ∧ (Header.mk ⟨0, 0, 0, 0⟩ ⟨0, 0, 0, 0⟩ ⟨255, 255, 255, 255⟩ ⟨0, 0, 0, 0⟩ ⟨0, 0, 0, 0⟩).n1.val
      = 4294967295 := by
  decide

theorem gate_indices_chunk (recs : List Record) (i : Nat) (hi : i < recs.length) :
    gate_indices (recs.flatMap Record.stored) i = ((recs.get ⟨i, hi⟩).stored).take 3 := by
  unfold gate_indices
  rw [← stored_chunk recs i hi, List.take_take]
  rfl

theorem to_int_in_range_iff (w : Word) (n : Nat) (hn : n ≤ 2 ^ 31) :
    (0 ≤ to_int w.val ∧ to_int w.val < (n : Int)) ↔ w.val < n := by
  have hlt := (word_val_lt w)
  unfold to_int
  rw [Nat.mod_eq_of_lt hlt]
  constructor
  · intro h
    split at h <;> omega
  · intro h
    rw [if_pos (by omega)]
    omega


/-- C8 (amended): `from_buffer` accepts a well-formed buffer without examining
its wire indices; in the circuit it constructs, `in_a`, `in_b` and `out` of
every stored gate lie in `[0, num_wire)` exactly when every index word of every
record of the buffer is below the header's `num_wire`. -/
theorem from_buffer_indices_in_range_iff {β : Type} [Inhabited β] (self : BristolFormat β)
    (hdr : Header) (recs : List Record)
    (hk : hdr.num_gate.val = recs.length) (hw : hdr.num_wire.val < 2 ^ 31)
    (hsz : (hdr.bytes ++ recs.flatMap Record.bytes).length < 2 ^ 31) :
    (self.from_buffer (hdr.bytes ++ recs.flatMap Record.bytes)
        (hdr.bytes ++ recs.flatMap Record.bytes).length).1 = .ok
    ∧ ((∀ r ∈ recs, ∀ w ∈ r.index_words, w.val < hdr.num_wire.val) ↔
        ∀ i, i < recs.length →
          ∀ x ∈ gate_indices (self.from_buffer (hdr.bytes ++ recs.flatMap Record.bytes)
              (hdr.bytes ++ recs.flatMap Record.bytes).length).2.gates i,
            0 ≤ x ∧ x < (self.from_buffer (hdr.bytes ++ recs.flatMap Record.bytes)
              (hdr.bytes ++ recs.flatMap Record.bytes).length).2.num_wire) := by
  rw [from_buffer_layout self hdr recs hk hw hsz]
  refine ⟨rfl, ?_⟩
  show _ ↔ ∀ i, i < recs.length → ∀ x ∈ gate_indices (recs.flatMap Record.stored) i,
    0 ≤ x ∧ x < (hdr.num_wire.val : Int)
  have hn : hdr.num_wire.val ≤ 2 ^ 31 := by omega
  constructor
  · intro hall i hi x hx
    rw [gate_indices_chunk recs i hi] at hx
    have hmem : recs.get ⟨i, hi⟩ ∈ recs := List.get_mem _ _ _
    have hr := hall _ hmem
    cases hrec : recs.get ⟨i, hi⟩ with
    | inv a o =>
      rw [hrec] at hx hr
      have ha := hr a (by simp [Record.index_words])
      have ho := hr o (by simp [Record.index_words])
      simp only [Record.stored, List.take_succ_cons, List.take_zero, List.mem_cons,
        List.mem_nil_iff, or_false] at hx
      rcases hx with rfl | rfl | rfl
      · exact (to_int_in_range_iff a _ hn).mpr ha
      · omega
      · exact (to_int_in_range_iff o _ hn).mpr ho
    | xor a b o =>
      rw [hrec] at hx hr
      have ha := hr a (by simp [Record.index_words])
      have hb := hr b (by simp [Record.index_words])
      have ho := hr o (by simp [Record.index_words])
      simp only [Record.stored, List.take_succ_cons, List.take_zero, List.mem_cons,
        List.mem_nil_iff, or_false] at hx
      rcases hx with rfl | rfl | rfl
      · exact (to_int_in_range_iff a _ hn).mpr ha
      · exact (to_int_in_range_iff b _ hn).mpr hb
      · exact (to_int_in_range_iff o _ hn).mpr ho
    | and a b o =>
      rw [hrec] at hx hr
      have ha := hr a (by simp [Record.index_words])
      have hb := hr b (by simp [Record.index_words])
      have ho := hr o (by simp [Record.index_words])
      simp only [Record.stored, List.take_succ_cons, List.take_zero, List.mem_cons,
        List.mem_nil_iff, or_false] at hx
      rcases hx with rfl | rfl | rfl
      · exact (to_int_in_range_iff a _ hn).mpr ha
      · exact (to_int_in_range_iff b _ hn).mpr hb
      · exact (to_int_in_range_iff o _ hn).mpr ho
  · intro hall r hr w hwm
    obtain ⟨⟨i, hi⟩, hget⟩ := List.mem_iff_get.mp hr
    have hx := hall i hi
    rw [gate_indices_chunk recs i hi, hget] at hx
    apply (to_int_in_range_iff w _ hn).mp
    apply hx
    cases r with
    | inv a o =>
      simp only [Record.index_words, List.mem_cons, List.mem_nil_iff, or_false] at hwm
      rcases hwm with rfl | rfl <;> simp [Record.stored]
    | xor a b o =>
      simp only [Record.index_words, List.mem_cons, List.mem_nil_iff, or_false] at hwm
      rcases hwm with rfl | rfl | rfl <;> simp [Record.stored]
    | and a b o =>
      simp only [Record.index_words, List.mem_cons, List.mem_nil_iff, or_false] at hwm
      rcases hwm with rfl | rfl | rfl <;> simp [Record.stored]

theorem from_buffer_indices_in_range_iff_witness :
    (Header.mk ⟨1, 0, 0, 0⟩ ⟨3, 0, 0, 0⟩ ⟨1, 0, 0, 0⟩ ⟨1, 0, 0, 0⟩ ⟨1, 0, 0, 0⟩).num_gate.val
      = [Record.xor ⟨0, 0, 0, 0⟩ ⟨1, 0, 0, 0⟩ ⟨2, 0, 0, 0⟩].length
    ∧ ((⟨0, 0, 0, 0, 0, [], []⟩ : BristolFormat Bool).from_buffer
        ((Header.mk ⟨1, 0, 0, 0⟩ ⟨3, 0, 0, 0⟩ ⟨1, 0, 0, 0⟩ ⟨1, 0, 0, 0⟩ ⟨1, 0, 0, 0⟩).bytes
          ++ [Record.xor ⟨0, 0, 0, 0⟩ ⟨1, 0, 0, 0⟩ ⟨2, 0, 0, 0⟩].flatMap Record.bytes)
        ((Header.mk ⟨1, 0, 0, 0⟩ ⟨3, 0, 0, 0⟩ ⟨1, 0, 0, 0⟩ ⟨1, 0, 0, 0⟩ ⟨1, 0, 0, 0⟩).bytes
          ++ [Record.xor ⟨0, 0, 0, 0⟩ ⟨1, 0, 0, 0⟩ ⟨2, 0, 0, 0⟩].flatMap Record.bytes).length).1
      = .ok :=
  ⟨by decide, (from_buffer_indices_in_range_iff _ _ _ (by decide) (by decide) (by decide)).1⟩

/-- C8 as stated fails: the buffer whose header declares one gate and no wire,
followed by the NOT record `(in, out) = (5, 7)`, is accepted, and the stored
gate has `in_a = 5`, `in_b = 0`, `out = 7` with `num_wire = 0`. -/
theorem from_buffer_accepts_out_of_range_indices :
    ((⟨0, 0, 0, 0, 0, [], []⟩ : BristolFormat Bool).from_buffer
        ((Header.mk ⟨1, 0, 0, 0⟩ ⟨0, 0, 0, 0⟩ ⟨0, 0, 0, 0⟩ ⟨0, 0, 0, 0⟩ ⟨0, 0, 0, 0⟩).bytes
          ++ (Record.inv ⟨5, 0, 0, 0⟩ ⟨7, 0, 0, 0⟩).bytes) 29).1 = .ok
    ∧ ((⟨0, 0, 0, 0, 0, [], []⟩ : BristolFormat Bool).from_buffer
        ((Header.mk ⟨1, 0, 0, 0⟩ ⟨0, 0, 0, 0⟩ ⟨0, 0, 0, 0⟩ ⟨0, 0, 0, 0⟩ ⟨0, 0, 0, 0⟩).bytes
          ++ (Record.inv ⟨5, 0, 0, 0⟩ ⟨7, 0, 0, 0⟩).bytes) 29).2.num_wire = 0
    ∧ gate_indices ((⟨0, 0, 0, 0, 0, [], []⟩ : BristolFormat Bool).from_buffer
        ((Header.mk ⟨1, 0, 0, 0⟩ ⟨0, 0, 0, 0⟩ ⟨0, 0, 0, 0⟩ ⟨0, 0, 0, 0⟩ ⟨0, 0, 0, 0⟩).bytes
          ++ (Record.inv ⟨5, 0, 0, 0⟩ ⟨7, 0, 0, 0⟩).bytes) 29).2.gates 0 = [5, 0, 7] := by
  decide

/-! ### The claims about the evaluator -/

theorem gate_indices_eq (gates : List Int) (i : Nat) (h : 4 * i + 3 < gates.length) :
    gate_indices gates i = [gates[4 * i], gates[4 * i + 1], gates[4 * i + 2]] := by
  unfold gate_indices
  have e0 : gates.drop (4 * i) = gates[4 * i] :: gates.drop (4 * i + 1) :=
    List.drop_eq_getElem_cons (by omega)
  have e1 : gates.drop (4 * i + 1) = gates[4 * i + 1] :: gates.drop (4 * i + 2) :=
    List.drop_eq_getElem_cons (by omega)
  have e2 : gates.drop (4 * i + 2) = gates[4 * i + 2] :: gates.drop (4 * i + 3) :=
    List.drop_eq_getElem_cons (by omega)
  rw [e0, e1, e2]
  rfl

theorem vec_get_gates (gates : List Int) (i k : Nat) (h : 4 * i + k < gates.length) :
    vec_get gates (4 * (i : Int) + (k : Int)) = some gates[4 * i + k] := by
  have e : (4 * (i : Int) + (k : Int)).toNat = 4 * i + k := by omega
  unfold vec_get
  rw [if_pos (by omega)]
  simp only [e]
  exact List.getElem?_eq_getElem h

theorem vec_get_some {α : Type} (v : List α) (x : Int) (h0 : 0 ≤ x) (h1 : x < (v.length : Int)) :
    ∃ y, vec_get v x = some y := by
  have hlt : x.toNat < v.length := by omega
  unfold vec_get
  rw [if_pos h0]
  exact ⟨v[x.toNat], List.getElem?_eq_getElem hlt⟩

theorem vec_set_some {α : Type} (v : List α) (x : Int) (y : α) (h0 : 0 ≤ x)
    (h1 : x < (v.length : Int)) :
    ∃ v', vec_set v x y = some v' ∧ v'.length = v.length := by
  unfold vec_set
  rw [if_pos ⟨h0, by omega⟩]
  exact ⟨_, rfl, List.length_set _ _ _⟩

/-- One pass of the gate loop is defined and keeps the size of the store when
the slots of gate i exist and its three indices are inside the store. -/
theorem eval_gate_some {σ β : Type} (bk : Backend σ β) (gates : List Int) (i : Nat) (s : σ)
    (wires : List β) (hg : 4 * i + 3 < gates.length) (hl : gates.length < 2 ^ 31)
    (hidx : ∀ x ∈ gate_indices gates i, 0 ≤ x ∧ x < (wires.length : Int)) :
    ∃ r, eval_gate bk gates i s wires = some r ∧ r.2.length = wires.length := by
  rw [gate_indices_eq gates i hg] at hidx
  have ha := hidx gates[4 * i] (by simp)
  have hb := hidx gates[4 * i + 1] (by simp)
  have ho := hidx gates[4 * i + 2] (by simp)
  have g0 := vec_get_gates gates i 0 (by omega)
  have g1 := vec_get_gates gates i 1 (by omega)
  have g2 := vec_get_gates gates i 2 (by omega)
  have g3 := vec_get_gates gates i 3 (by omega)
  simp only [Nat.cast_zero, Int.add_zero, Nat.add_zero, Nat.cast_one, Nat.cast_ofNat] at g0 g1 g2 g3
  obtain ⟨x, hx⟩ := vec_get_some wires _ ha.1 ha.2
  obtain ⟨y, hy⟩ := vec_get_some wires _ hb.1 hb.2
  have hi : int_ok (4 * (i : Int) + 3) = true := by
    rw [int_ok_iff]; omega
  unfold eval_gate
  rw [if_pos hi, g3]
  simp only [Option.some_bind]
  by_cases hand : gates[4 * i + 3] = AND_GATE
  · rw [if_pos hand]
    simp only [g1, g2, g0, Option.some_bind, hx, hy]
    have h3 := vec_set_some wires _ (bk.and_gate s x y).2 ho.1 ho.2
    obtain ⟨v', hv⟩ := h3
    obtain ⟨hv, hlen⟩ := hv
    rw [hv]
    exact ⟨_, rfl, hlen⟩
  · rw [if_neg hand]
    by_cases hxor : gates[4 * i + 3] = XOR_GATE
    · rw [if_pos hxor]
      simp only [g1, g2, g0, Option.some_bind, hx, hy]
      have h3 := vec_set_some wires _ (bk.xor_gate s x y).2 ho.1 ho.2
      obtain ⟨v', hv⟩ := h3
      obtain ⟨hv, hlen⟩ := hv
      rw [hv]
      exact ⟨_, rfl, hlen⟩
    · rw [if_neg hxor]
      simp only [g2, g0, Option.some_bind, hx]
      have h3 := vec_set_some wires _ (bk.not_gate s x).2 ho.1 ho.2
      obtain ⟨v', hv⟩ := h3
      obtain ⟨hv, hlen⟩ := hv
      rw [hv]
      exact ⟨_, rfl, hlen⟩

/-- The gate loop is defined and keeps the size of the store when the slots of
the gates it runs over exist and their indices are inside the store. -/
theorem eval_gates_some {σ β : Type} (bk : Backend σ β) (gates : List Int)
    (hl : gates.length < 2 ^ 31) (n : Nat) :
    ∀ (rem i : Nat) (s : σ) (wires : List β), wires.length = n →
    4 * (i + rem) ≤ gates.length →
    (∀ j, j < i + rem → ∀ x ∈ gate_indices gates j, 0 ≤ x ∧ x < (n : Int)) →
    ∃ r, eval_gates bk gates rem i s wires = some r ∧ r.2.length = n := by
  intro rem
  induction rem with
  | zero => intro i s wires hn _ _; exact ⟨(s, wires), rfl, hn⟩
  | succ rem ih =>
    intro i s wires hn hcap hidx
    obtain ⟨r, hr, hrl⟩ := eval_gate_some bk gates i s wires (by omega) hl
      (by rw [hn]; exact hidx i (by omega))
    obtain ⟨r', hr', hrl'⟩ := ih (i + 1) r.1 r.2 (by rw [hrl, hn]) (by omega)
      (fun j hj => hidx j (by omega))
    refine ⟨r', ?_, hrl'⟩
    show (eval_gate bk gates i s wires).bind _ = some r'
    rw [hr]
    exact hr'

theorem memcpy_some {α : Type} (dst src : List α) (doff soff n : Int)
    (h0 : 0 ≤ doff) (h1 : 0 ≤ soff) (h2 : 0 ≤ n)
    (h3 : soff + n ≤ (src.length : Int)) (h4 : doff + n ≤ (dst.length : Int)) :
    memcpy dst doff src soff n
      = some (dst.take doff.toNat ++ (src.drop soff.toNat).take n.toNat
          ++ dst.drop (doff.toNat + n.toNat)) := by
  unfold memcpy
  rw [if_pos ⟨h0, h1, h2, by omega, by omega⟩]

theorem getElem?_copied {α : Type} (out w : List α) (a n k : Nat) (hk : k < n)
    (ha : a + n ≤ w.length) :
    (out.take 0 ++ (w.drop a).take n ++ out.drop (0 + n))[k]? = w[a + k]?
      ∧ a + k < w.length := by
  refine ⟨?_, by omega⟩
  have hlen : ((w.drop a).take n).length = n := by
    rw [List.length_take, List.length_drop]; omega
  rw [List.take_zero, List.nil_append, List.getElem?_append_left (by rw [hlen]; exact hk),
    List.getElem?_take_of_lt hk, List.getElem?_drop]

/-- The store `compute` evaluates the gates on: in1 in slots `[0, n1)`, in2 in
slots `[n1, n1 + n2)`, the earlier contents elsewhere. -/
theorem memcpy_inputs {β : Type} (wires in1 in2 : List β) (n1 n2 : Int)
    (h1 : 0 ≤ n1) (h2 : 0 ≤ n2) (h12 : n1 + n2 ≤ (wires.length : Int))
    (hin1 : n1 ≤ (in1.length : Int)) (hin2 : n2 ≤ (in2.length : Int)) :
    ∃ w1, memcpy wires 0 in1 0 n1 = some w1
      ∧ memcpy w1 n1 in2 0 n2
        = some (in1.take n1.toNat ++ in2.take n2.toNat ++ wires.drop (n1.toNat + n2.toNat))
      ∧ (in1.take n1.toNat ++ in2.take n2.toNat ++ wires.drop (n1.toNat + n2.toNat)).length
        = wires.length := by
  have hl1 : (in1.take n1.toNat).length = n1.toNat := by
    rw [List.length_take]; omega
  have hl2 : (in2.take n2.toNat).length = n2.toNat := by
    rw [List.length_take]; omega
  refine ⟨_, memcpy_some wires in1 0 0 n1 (le_refl _) (le_refl _) h1 (by omega) (by omega),
    ?_, ?_⟩
  · rw [memcpy_some _ in2 n1 0 n2 h1 (le_refl _) h2 (by omega)
      (by simp only [List.length_append, List.length_take, List.length_drop]; omega)]
    simp only [Int.toNat_zero, List.take_zero, List.nil_append, List.drop_zero, Nat.zero_add]
    rw [List.take_left' hl1, List.drop_append_eq_append_drop, List.drop_drop]
    have hd : List.drop (n1.toNat + n2.toNat) (in1.take n1.toNat) = [] :=
      List.drop_eq_nil_of_le (by omega)
    have he : n1.toNat + (n1.toNat + n2.toNat - (in1.take n1.toNat).length)
        = n1.toNat + n2.toNat := by omega
    rw [hd, List.nil_append, he]
  · simp only [List.length_append, hl1, hl2, List.length_drop]
    omega

/-- The evaluator is defined on a circuit whose vectors have the declared sizes
and whose indices are in range, and it copies the outputs from the last n3
slots of the store the gate loop leaves. -/
theorem compute_reads_last_slots {σ β : Type} (bk : Backend σ β) (self : BristolFormat β)
    (s : σ) (out in1 in2 : List β)
    (hw : (self.wires.length : Int) = self.num_wire)
    (hg : (self.gates.length : Int) = 4 * self.num_gate)
    (hgi : self.gates.length < 2 ^ 31) (hwi : self.num_wire < 2 ^ 31)
    (h1 : 0 ≤ self.n1) (h2 : 0 ≤ self.n2) (h12 : self.n1 + self.n2 ≤ self.num_wire)
    (h3 : 0 ≤ self.n3) (h3w : self.n3 ≤ self.num_wire)
    (hidx : ∀ i : Nat, (i : Int) < self.num_gate →
      ∀ x ∈ gate_indices self.gates i, 0 ≤ x ∧ x < self.num_wire)
    (hin1 : self.n1 ≤ (in1.length : Int)) (hin2 : self.n2 ≤ (in2.length : Int))
    (hout : self.n3 ≤ (out.length : Int)) :
    ∃ r : Computed σ β, self.compute bk s out in1 in2 = some r
      ∧ eval_gates bk self.gates self.num_gate.toNat 0 s
          (in1.take self.n1.toNat ++ in2.take self.n2.toNat
            ++ self.wires.drop (self.n1.toNat + self.n2.toNat)) = some (r.state, r.wires)
      ∧ ∀ k : Nat, (k : Int) < self.n3 →
          r.out[k]? = r.wires[(self.num_wire - self.n3).toNat + k]?
            ∧ (self.num_wire - self.n3).toNat + k < r.wires.length := by
  obtain ⟨w1, hm1, hm2, hml⟩ := memcpy_inputs self.wires in1 in2 self.n1 self.n2 h1 h2
    (by omega) hin1 hin2
  obtain ⟨rg, hrg, hrgl⟩ := eval_gates_some bk self.gates hgi self.wires.length
    self.num_gate.toNat 0 s _ hml (by omega)
    (fun j hj x hx => by
      have := hidx j (by omega) x hx
      omega)
  have hio : int_ok (self.num_wire - self.n3) = true := by
    rw [int_ok_iff]; omega
  have hout' := memcpy_some out rg.2 0 (self.num_wire - self.n3) self.n3 (le_refl _)
    (by omega) h3 (by omega) (by omega)
  refine ⟨⟨out.take (0 : Int).toNat
      ++ (rg.2.drop (self.num_wire - self.n3).toNat).take self.n3.toNat
      ++ out.drop ((0 : Int).toNat + self.n3.toNat), rg.2, rg.1⟩, ?_, hrg, ?_⟩
  · unfold BristolFormat.compute
    rw [hm1]
    simp only [Option.some_bind]
    rw [hm2]
    simp only [Option.some_bind]
    rw [hrg]
    simp only [Option.some_bind]
    rw [if_pos hio, hout']
    rfl
  · intro k hk
    have := getElem?_copied out rg.2 (self.num_wire - self.n3).toNat self.n3.toNat k
      (by omega) (by omega)
    simpa using this

theorem memcpy_inv {α : Type} (dst src : List α) (doff soff n : Int) (l : List α)
    (h : memcpy dst doff src soff n = some l) :
    0 ≤ doff ∧ 0 ≤ soff ∧ 0 ≤ n ∧ soff.toNat + n.toNat ≤ src.length
      ∧ doff.toNat + n.toNat ≤ dst.length
      ∧ l = dst.take doff.toNat ++ (src.drop soff.toNat).take n.toNat
          ++ dst.drop (doff.toNat + n.toNat) := by
  unfold memcpy at h
  split at h
  · rename_i hc
    exact ⟨hc.1, hc.2.1, hc.2.2.1, hc.2.2.2.1, hc.2.2.2.2, (Option.some.inj h).symm⟩
  · exact absurd h (by simp)

/-- Whenever `BristolFormat::compute` is defined, the store it leaves is the one
the gate loop produced and the outputs are its last n3 slots. -/
theorem compute_inv {σ β : Type} (bk : Backend σ β) (self : BristolFormat β) (s : σ)
    (out in1 in2 : List β) (r : Computed σ β) (h : self.compute bk s out in1 in2 = some r) :
    (∃ w, eval_gates bk self.gates self.num_gate.toNat 0 s w = some (r.state, r.wires))
    ∧ ∀ k : Nat, (k : Int) < self.n3 →
        r.out[k]? = r.wires[(self.num_wire - self.n3).toNat + k]?
          ∧ (self.num_wire - self.n3).toNat + k < r.wires.length := by
  unfold BristolFormat.compute at h
  simp only [Option.bind_eq_some] at h
  obtain ⟨w1, -, w2, -, rg, hrg, h⟩ := h
  by_cases hio : int_ok (self.num_wire - self.n3) = true
  · rw [if_pos hio] at h
    simp only [Option.bind_eq_some] at h
    obtain ⟨o, ho, hr⟩ := h
    obtain ⟨-, hs0, hn0, hsrc, -, hl⟩ := memcpy_inv _ _ _ _ _ _ ho
    have hr' := (Option.some.inj hr).symm
    subst hr'
    refine ⟨⟨w2, hrg⟩, ?_⟩
    intro k hk
    rw [hl]
    have := getElem?_copied out rg.2 (self.num_wire - self.n3).toNat self.n3.toNat k
      (by omega) (by omega)
    simpa using this
  · rw [if_neg hio] at h; exact absurd h (by simp)

theorem fashion_compute_inv {σ β : Type} (bk : Backend σ β) (fa : BristolFashion β) (s : σ)
    (out inp : List β) (r : Computed σ β) (h : fa.compute bk s out inp = some r) :
    (∃ w, eval_gates bk fa.gates fa.num_gate.toNat 0 s w = some (r.state, r.wires))
    ∧ ∀ k : Nat, (k : Int) < fa.num_output →
        r.out[k]? = r.wires[(fa.num_wire - fa.num_output).toNat + k]?
          ∧ (fa.num_wire - fa.num_output).toNat + k < r.wires.length := by
  unfold BristolFashion.compute at h
  simp only [Option.bind_eq_some] at h
  obtain ⟨w1, -, rg, hrg, h⟩ := h
  by_cases hio : int_ok (fa.num_wire - fa.num_output) = true
  · rw [if_pos hio] at h
    simp only [Option.bind_eq_some] at h
    obtain ⟨o, ho, hr⟩ := h
    obtain ⟨-, hs0, hn0, hsrc, -, hl⟩ := memcpy_inv _ _ _ _ _ _ ho
    have hr' := (Option.some.inj hr).symm
    subst hr'
    refine ⟨⟨w1, hrg⟩, ?_⟩
    intro k hk
    rw [hl]
    have := getElem?_copied out rg.2 (fa.num_wire - fa.num_output).toNat
      fa.num_output.toNat k (by omega) (by omega)
    simpa using this
  · rw [if_neg hio] at h; exact absurd h (by simp)

/-- The generalized variant computes what the 3-way variant computes on the same
gates and store with `n1 = num_input`, `n2 = 0`, `n3 = num_output` and an empty
second input. -/
theorem fashion_compute_eq {σ β : Type} (bk : Backend σ β) (fa : BristolFashion β) (s : σ)
    (out inp : List β) (h0 : 0 ≤ fa.num_input) (h1 : fa.num_input ≤ (fa.wires.length : Int))
    (h2 : fa.num_input ≤ (inp.length : Int)) :
    fa.compute bk s out inp
      = BristolFormat.compute bk
          ⟨fa.num_gate, fa.num_wire, fa.num_input, 0, fa.num_output, fa.gates, fa.wires⟩
          s out inp [] := by
  have hm := memcpy_some fa.wires inp 0 0 fa.num_input (le_refl _) (le_refl _) h0
    (by omega) (by omega)
  unfold BristolFashion.compute BristolFormat.compute
  dsimp only
  rw [hm]
  simp only [Option.some_bind]
  rw [memcpy_some _ [] fa.num_input 0 0 h0 (le_refl _) (le_refl _) (by simp)
    (by simp only [List.length_append, List.length_take, List.length_drop]; omega)]
  simp

/-- C9: whenever `BristolFormat::compute` is defined, its k-th output (k < n3)
is the value at wire index `num_wire - n3 + k` of the store the gate loop
leaves, whatever the gates are; for `num_wire = 10` and `n3 = 3` these are
wires 7, 8, 9. It is defined on every circuit whose vectors have the declared
sizes (`gates` of `4 * num_gate` entries, `wires` of `num_wire` entries, both
counts fitting `int`), with the inputs fitting the store (`0 <= n1`, `0 <= n2`,
`n1 + n2 <= num_wire`), `0 <= n3 <= num_wire` and in-range gate indices, called
on buffers of at least n1, n2 and n3 values. `BristolFashion::compute` does the
same with `num_output` in place of n3. -/
theorem compute_outputs_are_last_wires {σ β : Type} (bk : Backend σ β) :
    (∀ (self : BristolFormat β) (s : σ) (out in1 in2 : List β) (r : Computed σ β),
      self.compute bk s out in1 in2 = some r →
      (∃ w, eval_gates bk self.gates self.num_gate.toNat 0 s w = some (r.state, r.wires))
        ∧ (∀ k : Nat, (k : Int) < self.n3 →
            r.out[k]? = r.wires[(self.num_wire - self.n3).toNat + k]?
              ∧ (self.num_wire - self.n3).toNat + k < r.wires.length)
        ∧ (self.num_wire = 10 → self.n3 = 3 →
            r.out[0]? = r.wires[7]? ∧ r.out[1]? = r.wires[8]? ∧ r.out[2]? = r.wires[9]?))
    ∧ (∀ (self : BristolFormat β) (s : σ) (out in1 in2 : List β),
      (self.wires.length : Int) = self.num_wire →
      (self.gates.length : Int) = 4 * self.num_gate →
      self.gates.length < 2 ^ 31 → self.num_wire < 2 ^ 31 →
      0 ≤ self.n1 → 0 ≤ self.n2 → self.n1 + self.n2 ≤ self.num_wire →
      0 ≤ self.n3 → self.n3 ≤ self.num_wire →
      (∀ i : Nat, (i : Int) < self.num_gate →
        ∀ x ∈ gate_indices self.gates i, 0 ≤ x ∧ x < self.num_wire) →
      self.n1 ≤ (in1.length : Int) → self.n2 ≤ (in2.length : Int) →
      self.n3 ≤ (out.length : Int) →
      ∃ r : Computed σ β, self.compute bk s out in1 in2 = some r
        ∧ eval_gates bk self.gates self.num_gate.toNat 0 s
            (in1.take self.n1.toNat ++ in2.take self.n2.toNat
              ++ self.wires.drop (self.n1.toNat + self.n2.toNat)) = some (r.state, r.wires))
    ∧ (∀ (fa : BristolFashion β) (s : σ) (out inp : List β) (r : Computed σ β),
      fa.compute bk s out inp = some r →
      (∃ w, eval_gates bk fa.gates fa.num_gate.toNat 0 s w = some (r.state, r.wires))
        ∧ (∀ k : Nat, (k : Int) < fa.num_output →
            r.out[k]? = r.wires[(fa.num_wire - fa.num_output).toNat + k]?
              ∧ (fa.num_wire - fa.num_output).toNat + k < r.wires.length))
    ∧ (∀ (fa : BristolFashion β) (s : σ) (out inp : List β),
      (fa.wires.length : Int) = fa.num_wire →
      (fa.gates.length : Int) = 4 * fa.num_gate →
      fa.gates.length < 2 ^ 31 → fa.num_wire < 2 ^ 31 →
      0 ≤ fa.num_input → fa.num_input ≤ fa.num_wire →
      0 ≤ fa.num_output → fa.num_output ≤ fa.num_wire →
      (∀ i : Nat, (i : Int) < fa.num_gate →
        ∀ x ∈ gate_indices fa.gates i, 0 ≤ x ∧ x < fa.num_wire) →
      fa.num_input ≤ (inp.length : Int) → fa.num_output ≤ (out.length : Int) →
      ∃ r : Computed σ β, fa.compute bk s out inp = some r
        ∧ eval_gates bk fa.gates fa.num_gate.toNat 0 s
            (inp.take fa.num_input.toNat ++ fa.wires.drop fa.num_input.toNat)
            = some (r.state, r.wires)) := by
  refine ⟨?_, ?_, ?_, ?_⟩
  · intro self s out in1 in2 r hr
    obtain ⟨he, hk⟩ := compute_inv bk self s out in1 in2 r hr
    refine ⟨he, hk, ?_⟩
    intro h10 h33
    have k0 := (hk 0 (by rw [h33]; decide)).1
    have k1 := (hk 1 (by rw [h33]; decide)).1
    have k2 := (hk 2 (by rw [h33]; decide)).1
    have e : (self.num_wire - self.n3).toNat = 7 := by rw [h10, h33]; rfl
    rw [e] at k0 k1 k2
    exact ⟨k0, k1, k2⟩
  · intro self s out in1 in2 hw hg hgi hwi h1 h2 h12 h3 h3w hidx hin1 hin2 hout
    obtain ⟨r, hr, he, -⟩ := compute_reads_last_slots bk self s out in1 in2 hw hg hgi hwi
      h1 h2 h12 h3 h3w hidx hin1 hin2 hout
    exact ⟨r, hr, he⟩
  · intro fa s out inp r hr
    exact fashion_compute_inv bk fa s out inp r hr
  · intro fa s out inp hw hg hgi hwi h1 h1w h3 h3w hidx hin hout
    rw [fashion_compute_eq bk fa s out inp h1 (by omega) hin]
    obtain ⟨r, hr, he, -⟩ := compute_reads_last_slots bk
      ⟨fa.num_gate, fa.num_wire, fa.num_input, 0, fa.num_output, fa.gates, fa.wires⟩
      s out inp [] hw hg hgi hwi h1 (le_refl _) (by simpa using h1w) h3 h3w hidx hin
      (by simp) hout
    refine ⟨r, hr, ?_⟩
    simpa using he

theorem compute_outputs_are_last_wires_witness :
    (BristolFormat.compute cleartext ⟨1, 3, 1, 1, 1, [0, 1, 2, 1], [false, false, false]⟩ ()
        [false] [true] [false]).isSome = true := by
  obtain ⟨r, hr, -⟩ := (compute_outputs_are_last_wires cleartext).2.1
    ⟨1, 3, 1, 1, 1, [0, 1, 2, 1], [false, false, false]⟩ () [false] [true] [false]
    (by decide) (by decide) (by decide) (by decide) (by decide) (by decide) (by decide)
    (by decide) (by decide)
    (by
      intro i hi
      have hi' : (i : Int) < 1 := hi
      have h0 : i = 0 := by omega
      subst h0
      decide)
    (by decide) (by decide) (by decide)
  rw [hr]
  rfl

/-- C10: under the cleartext backend, for all bits a and b (and whatever the
store and the output buffer held before), `BristolFormat::compute` on the
circuit `num_gate = 1, num_wire = 3, n1 = n2 = n3 = 1` with the single gate
`(0, 1, 2, XOR)` writes `a XOR b`, and with the single gate `(0, 1, 2, AND)`
writes `a AND b`. -/
theorem compute_single_gate_truth_tables :
    ∀ a b w0 w1 w2 o : Bool,
      (BristolFormat.compute cleartext ⟨1, 3, 1, 1, 1, [0, 1, 2, XOR_GATE], [w0, w1, w2]⟩ ()
          [o] [a] [b]).map (fun r => r.out) = some [xor a b]
      ∧ (BristolFormat.compute cleartext ⟨1, 3, 1, 1, 1, [0, 1, 2, AND_GATE], [w0, w1, w2]⟩ ()
          [o] [a] [b]).map (fun r => r.out) = some [a && b] := by
  decide

/-- C16: there is a 2-gate circuit in which gate 2 reads the wire gate 1 writes
(gate 1 is `(0, 1, 2, XOR)`, gate 2 is `(2, 0, 3, AND)`, with `num_wire = 4`,
`n1 = n2 = n3 = 1`) and an input (a = 1, b = 0) for which `BristolFormat::compute`
under the cleartext backend outputs 1 while the evaluation of the same two
gates in reverse list order outputs 0. -/
theorem reverse_order_changes_output :
    (BristolFormat.compute cleartext
        ⟨2, 4, 1, 1, 1, [0, 1, 2, XOR_GATE, 2, 0, 3, AND_GATE], [false, false, false, false]⟩ ()
        [false] [true] [false]).map (fun r => r.out) = some [true]
    ∧ (compute_reversed cleartext
        ⟨2, 4, 1, 1, 1, [0, 1, 2, XOR_GATE, 2, 0, 3, AND_GATE], [false, false, false, false]⟩ ()
        [false] [true] [false]).map (fun r => r.out) = some [false] := by
  decide

/-- C17 as stated fails: in `execute_circuit` under the cleartext backend, a gate
`(0, 1, 2, 3)` of opcode 3 on the wires `a = 1, b = 0` writes 1 to the out
wire, and `NOT(a)` is 0. -/
theorem fallback_is_not_negation :
    execute_circuit cleartext [0, 1, 2, 3] 1 0 () [true, false, false]
      = some ((), [true, false, true])
    ∧ (!true) = false := by
  decide

/-- C17 (amended): in `execute_circuit`, the branch taken for a gate whose opcode
is none of `AND_GATE`, `XOR_GATE`, `NOT_GATE` computes `XOR(XOR(a, b), AND(a, b))`
from the wires a at `in_a` and b at `in_b`; under the cleartext backend the
value written to the out wire is `a OR b`. -/
theorem fallback_writes_or (gates : List Int) (wires : List Bool) (i : Nat)
    (op ia ib io : Int) (a b : Bool)
    (hop : vec_get gates (4 * (i : Int) + 3) = some op)
    (h0 : op ≠ AND_GATE) (h1 : op ≠ XOR_GATE) (h2 : op ≠ NOT_GATE)
    (hia : vec_get gates (4 * (i : Int)) = some ia)
    (hib : vec_get gates (4 * (i : Int) + 1) = some ib)
    (hio : vec_get gates (4 * (i : Int) + 2) = some io)
    (ha : vec_get wires ia = some a) (hb : vec_get wires ib = some b)
    (hlo : 0 ≤ io) (hhi : io < (wires.length : Int)) :
    execute_gate cleartext gates i () wires = some ((), wires.set io.toNat (a || b)) := by
  have hset : vec_set wires io (a || b) = some (wires.set io.toNat (a || b)) := by
    unfold vec_set
    rw [if_pos ⟨hlo, by omega⟩]
  have hor : xor (xor a b) (a && b) = (a || b) := by
    cases a <;> cases b <;> rfl
  unfold execute_gate
  rw [hop]
  simp only [Option.some_bind]
  rw [if_neg h0, if_neg h1, if_neg h2]
  simp only [hib, hio, hia, Option.some_bind, ha, hb, cleartext, hor, hset, Option.map_some']

theorem fallback_writes_or_witness :
    execute_gate cleartext [0, 1, 2, 3] 0 () [true, false, false]
      = some ((), [true, false, false].set (2 : Int).toNat (true || false)) :=
  fallback_writes_or [0, 1, 2, 3] [true, false, false] 0 3 0 1 2 true false
    (by decide) (by decide) (by decide) (by decide) (by decide) (by decide) (by decide)
    (by decide) (by decide) (by decide) (by decide)

/-- The gate loop has no defined result when `4 * i + 3` leaves `int` for one
of the values of i it runs over. -/
theorem eval_gates_none_of_overflow {σ β : Type} (bk : Backend σ β) (gates : List Int) :
    ∀ (rem i : Nat) (s : σ) (wires : List β),
    (∃ j, i ≤ j ∧ j < i + rem ∧ int_ok (4 * (j : Int) + 3) = false) →
    eval_gates bk gates rem i s wires = none := by
  intro rem
  induction rem with
  | zero =>
    intro i s wires h
    obtain ⟨j, h1, h2, -⟩ := h
    omega
  | succ rem ih =>
    intro i s wires h
    obtain ⟨j, h1, h2, h3⟩ := h
    show (eval_gate bk gates i s wires).bind _ = none
    rcases Option.eq_none_or_eq_some (eval_gate bk gates i s wires) with hn | ⟨r, hr⟩
    · rw [hn]; rfl
    · rw [hr]
      simp only [Option.some_bind]
      apply ih
      by_cases hji : j = i
      · subst hji
        unfold eval_gate at hr
        rw [h3] at hr
        exact absurd hr (by simp)
      · exact ⟨j, by omega, by omega, h3⟩


/-- On any gate list, `compute` with `num_gate = 2^29 + 1` has no defined
behaviour: the pass `i = 2^29` evaluates `4 * i + 3` outside `int`. -/
theorem compute_none_of_many_gates (g : List Int) :
    BristolFormat.compute cleartext ⟨536870913, 1, 0, 0, 1, g, [false]⟩ () [false] [] []
      = none := by
  have m1 : memcpy [false] 0 ([] : List Bool) 0 0 = some [false] := by decide
  have hn : (536870913 : Int).toNat = 536870913 := by rfl
  have ho : int_ok (4 * ((536870912 : Nat) : Int) + 3) = false := by decide
  have he : eval_gates cleartext g 536870913 0 () [false] = none :=
    eval_gates_none_of_overflow cleartext _ 536870913 0 () [false]
      ⟨536870912, by omega, by omega, ho⟩
  unfold BristolFormat.compute
  simp only [m1, Option.some_bind, hn, he]
  rfl

/-- C20 as stated fails: the circuit of `2^29 + 1` gates `(0, 0, 0, AND)` on one
wire satisfies every condition of the claim (`gates` has `4 * num_gate`
entries, `wires` has `num_wire = 1` entry, `n1 = n2 = 0`, `n3 = 1`, every index
is 0), and in the pass `i = 2^29` the `int` expression `4 * i + 3` overflows:
`compute` has no defined behaviour on it. -/
theorem compute_overflows_on_huge_gate_list :
    ((List.replicate 2147483652 (0 : Int)).length : Int) = 4 * 536870913
    ∧ (∀ x ∈ List.replicate 2147483652 (0 : Int), 0 ≤ x ∧ x < 1)
    ∧ BristolFormat.compute cleartext
        ⟨536870913, 1, 0, 0, 1, List.replicate 2147483652 (0 : Int), [false]⟩ ()
        [false] [] [] = none := by
  refine ⟨by rw [List.length_replicate]; norm_num, ?_, compute_none_of_many_gates _⟩
  intro x hx
  rw [List.eq_of_mem_replicate hx]
  omega

theorem eval_gate_length {σ β : Type} (bk : Backend σ β) (gates : List Int) (i : Nat) (s : σ)
    (wires : List β) (r : σ × List β) (h : eval_gate bk gates i s wires = some r) :
    r.2.length = wires.length := by
  unfold eval_gate at h
  split at h
  · simp only [Option.bind_eq_some] at h
    obtain ⟨op, -, h⟩ := h
    split at h
    · simp only [Option.bind_eq_some, Option.map_eq_some'] at h
      obtain ⟨ia, -, ib, -, io, -, x, -, y, -, w, hw, rfl⟩ := h
      exact vec_set_length _ _ _ _ hw
    · split at h
      · simp only [Option.bind_eq_some, Option.map_eq_some'] at h
        obtain ⟨ia, -, ib, -, io, -, x, -, y, -, w, hw, rfl⟩ := h
        exact vec_set_length _ _ _ _ hw
      · simp only [Option.bind_eq_some, Option.map_eq_some'] at h
        obtain ⟨ia, -, io, -, x, -, w, hw, rfl⟩ := h
        exact vec_set_length _ _ _ _ hw
  · exact absurd h (by simp)

theorem eval_gates_length {σ β : Type} (bk : Backend σ β) (gates : List Int) :
    ∀ (rem i : Nat) (s : σ) (wires : List β) (r : σ × List β),
    eval_gates bk gates rem i s wires = some r → r.2.length = wires.length := by
  intro rem
  induction rem with
  | zero =>
    intro i s wires r h
    have h' : some (s, wires) = some r := h
    rw [← Option.some.inj h']
  | succ rem ih =>
    intro i s wires r h
    have h' : (eval_gate bk gates i s wires).bind
        (fun r => eval_gates bk gates rem (i + 1) r.1 r.2) = some r := h
    simp only [Option.bind_eq_some] at h'
    obtain ⟨r1, h1, h2⟩ := h'
    rw [ih _ _ _ _ h2, eval_gate_length bk gates i s wires r1 h1]

theorem memcpy_length {α : Type} (dst src : List α) (doff soff n : Int) (l : List α)
    (h : memcpy dst doff src soff n = some l) : l.length = dst.length := by
  obtain ⟨h0, h1, h2, h3, h4, hl⟩ := memcpy_inv _ _ _ _ _ _ h
  rw [hl]
  simp only [List.length_append, List.length_take, List.length_drop]
  omega

/-- Whenever `BristolFormat::compute` is defined, it leaves the output buffer and
the wire store with the sizes they had. -/
theorem compute_lengths {σ β : Type} (bk : Backend σ β) (self : BristolFormat β) (s : σ)
    (out in1 in2 : List β) (r : Computed σ β) (h : self.compute bk s out in1 in2 = some r) :
    r.out.length = out.length ∧ r.wires.length = self.wires.length := by
  unfold BristolFormat.compute at h
  simp only [Option.bind_eq_some] at h
  obtain ⟨w1, hw1, w2, hw2, rg, hrg, h⟩ := h
  split at h
  · simp only [Option.bind_eq_some] at h
    obtain ⟨o, ho, hr⟩ := h
    have hr' := (Option.some.inj hr).symm
    subst hr'
    refine ⟨memcpy_length _ _ _ _ _ _ ho, ?_⟩
    show rg.2.length = self.wires.length
    rw [eval_gates_length bk _ _ _ _ _ _ hrg, memcpy_length _ _ _ _ _ _ hw2,
      memcpy_length _ _ _ _ _ _ hw1]
  · exact absurd h (by simp)

/-- C20 (amended): on every circuit with `gates.size = 4 * num_gate` where
`4 * num_gate` fits `int`, `wires.size = num_wire`, `n1, n2, n3 >= 0`,
`n1 + n2 <= num_wire`, `n3 <= num_wire` and every gate index in `[0, num_wire)`,
given input buffers of lengths n1 and n2 and an output buffer of length n3,
`BristolFormat::compute` performs no out-of-range access and no overflowing
index computation: the call is defined. -/
theorem compute_is_memory_safe {σ β : Type} (bk : Backend σ β) (self : BristolFormat β)
    (s : σ) (out in1 in2 : List β)
    (hg : (self.gates.length : Int) = 4 * self.num_gate)
    (hgi : 4 * self.num_gate < 2 ^ 31)
    (hw : (self.wires.length : Int) = self.num_wire) (hwi : self.num_wire < 2 ^ 31)
    (h1 : 0 ≤ self.n1) (h2 : 0 ≤ self.n2) (h3 : 0 ≤ self.n3)
    (h12 : self.n1 + self.n2 ≤ self.num_wire) (h3w : self.n3 ≤ self.num_wire)
    (hidx : ∀ i : Nat, (i : Int) < self.num_gate →
      ∀ x ∈ gate_indices self.gates i, 0 ≤ x ∧ x < self.num_wire)
    (hin1 : (in1.length : Int) = self.n1) (hin2 : (in2.length : Int) = self.n2)
    (hout : (out.length : Int) = self.n3) :
    ∃ r : Computed σ β, self.compute bk s out in1 in2 = some r
      ∧ r.out.length = out.length ∧ r.wires.length = self.wires.length := by
  obtain ⟨r, hr, he, -⟩ := compute_reads_last_slots bk self s out in1 in2 hw hg (by omega) hwi
    h1 h2 h12 h3 h3w hidx (by omega) (by omega) (by omega)
  exact ⟨r, hr, compute_lengths bk self s out in1 in2 r hr⟩

theorem compute_is_memory_safe_witness :
    ∃ r : Computed Unit Bool,
      BristolFormat.compute cleartext ⟨1, 3, 1, 1, 1, [0, 1, 2, 1], [false, false, false]⟩ ()
        [false] [true] [false] = some r
      ∧ r.out.length = [false].length ∧ r.wires.length = [false, false, false].length :=
  compute_is_memory_safe cleartext ⟨1, 3, 1, 1, 1, [0, 1, 2, 1], [false, false, false]⟩ ()
    [false] [true] [false]
    (by decide) (by decide) (by decide) (by decide) (by decide) (by decide) (by decide)
    (by decide) (by decide)
    (by
      intro i hi
      have hi' : (i : Int) < 1 := hi
      have h0 : i = 0 := by omega
      subst h0
      decide)
    (by decide) (by decide) (by decide)

/-- One pass of the gate loop on a gate `(ia, ib, io, op)` with a binary opcode:
the backend operation of the opcode is applied to the wires at `ia` and `ib`
and its result is written to the wire at `io`. -/
theorem eval_gate_binary {σ β : Type} (bk : Backend σ β) (gates : List Int) (i : Nat) (s : σ)
    (wires : List β) (op ia ib io : Int) (x y : β)
    (hi : 4 * i + 3 < 2 ^ 31)
    (hop : vec_get gates (4 * (i : Int) + 3) = some op)
    (hbin : op = AND_GATE ∨ op = XOR_GATE)
    (hia : vec_get gates (4 * (i : Int)) = some ia)
    (hib : vec_get gates (4 * (i : Int) + 1) = some ib)
    (hio : vec_get gates (4 * (i : Int) + 2) = some io)
    (hx : vec_get wires ia = some x) (hy : vec_get wires ib = some y)
    (hlo : 0 ≤ io) (hhi : io < (wires.length : Int)) :
    eval_gate bk gates i s wires
      = some ((bk.binary op s x y).1, wires.set io.toNat (bk.binary op s x y).2) := by
  have hok : int_ok (4 * (i : Int) + 3) = true := by rw [int_ok_iff]; omega
  have hset : ∀ v : β, vec_set wires io v = some (wires.set io.toNat v) := by
    intro v
    unfold vec_set
    rw [if_pos ⟨hlo, by omega⟩]
  unfold eval_gate
  rw [if_pos hok, hop]
  simp only [Option.some_bind]
  rcases hbin with h | h
  · rw [if_pos h]
    simp only [hib, hio, hia, Option.some_bind, hx, hy, hset, Option.map_some', Backend.binary,
      if_pos h]
  · have hne : op ≠ AND_GATE := by rw [h]; decide
    rw [if_neg hne, if_pos h]
    simp only [hib, hio, hia, Option.some_bind, hx, hy, hset, Option.map_some', Backend.binary,
      if_neg hne]

/-- C11: for every backend, all binary opcodes op1, op2 in `{AND, XOR}` and all
input wire values a, b, c (the three input wires 0, 1, 2, split between in1 and
in2), `BristolFormat::compute` on the 2-gate circuit whose gate 1 is
`(0, 1, w, op1)` and whose gate 2 is `(w, 2, num_wire - 1, op2)`, with w a
non-input wire and `n3 = 1`, outputs `op2(op1(a, b), c)`: gate 2 sees the value
gate 1 wrote, and the backend is called for gate 1 first. -/
theorem compute_two_gates_in_list_order {σ β : Type} (bk : Backend σ β)
    (self : BristolFormat β) (s : σ) (out in1 in2 : List β) (op1 op2 w : Int) (a b c : β)
    (hnum : self.num_gate = 2)
    (hgates : self.gates = [0, 1, w, op1, w, 2, self.num_wire - 1, op2])
    (hop1 : op1 = AND_GATE ∨ op1 = XOR_GATE) (hop2 : op2 = AND_GATE ∨ op2 = XOR_GATE)
    (hw : (self.wires.length : Int) = self.num_wire) (hwi : self.num_wire < 2 ^ 31)
    (hin1 : (in1.length : Int) = self.n1) (hin2 : (in2.length : Int) = self.n2)
    (hin : in1 ++ in2 = [a, b, c])
    (hw3 : 3 ≤ w) (hwn : w < self.num_wire) (hn3 : self.n3 = 1) (hout : 1 ≤ out.length) :
    ∃ r : Computed σ β, self.compute bk s out in1 in2 = some r
      ∧ r.out[0]? = some (bk.binary op2 (bk.binary op1 s a b).1 (bk.binary op1 s a b).2 c).2
      ∧ r.state = (bk.binary op2 (bk.binary op1 s a b).1 (bk.binary op1 s a b).2 c).1 := by
  have hlen : in1.length + in2.length = 3 := by
    have := congrArg List.length hin
    simpa using this
  have hn1 : self.n1.toNat = in1.length := by omega
  have hn2 : self.n2.toNat = in2.length := by omega
  have hwl : 4 ≤ self.wires.length := by omega
  have hidx : ∀ i : Nat, (i : Int) < self.num_gate →
      ∀ x ∈ gate_indices self.gates i, 0 ≤ x ∧ x < self.num_wire := by
    intro i hi x hx
    rw [hnum] at hi
    rw [hgates] at hx
    have hi2 : i = 0 ∨ i = 1 := by omega
    rcases hi2 with rfl | rfl
    · have e : gate_indices [0, 1, w, op1, w, 2, self.num_wire - 1, op2] 0 = [0, 1, w] := rfl
      rw [e] at hx
      simp only [List.mem_cons, List.mem_nil_iff, or_false] at hx
      rcases hx with rfl | rfl | rfl <;> omega
    · have e : gate_indices [0, 1, w, op1, w, 2, self.num_wire - 1, op2] 1
          = [w, 2, self.num_wire - 1] := rfl
      rw [e] at hx
      simp only [List.mem_cons, List.mem_nil_iff, or_false] at hx
      rcases hx with rfl | rfl | rfl <;> omega
  obtain ⟨r, hr, he, hk⟩ := compute_reads_last_slots bk self s out in1 in2 hw
    (by rw [hgates, hnum]; rfl)
    (by rw [hgates]; simp only [List.length_cons, List.length_nil]; omega) hwi (by omega) (by omega) (by omega)
    (by omega) (by omega) hidx (by omega) (by omega) (by omega)
  have hload : in1.take self.n1.toNat ++ in2.take self.n2.toNat
      ++ self.wires.drop (self.n1.toNat + self.n2.toNat)
      = a :: b :: c :: self.wires.drop 3 := by
    rw [hn1, hn2, List.take_length, List.take_length, hin, hlen]
    rfl
  rw [hload, hnum, hgates] at he
  have hL : (a :: b :: c :: self.wires.drop 3).length = self.wires.length := by
    simp only [List.length_cons, List.length_drop]; omega
  have g1 := eval_gate_binary bk [0, 1, w, op1, w, 2, self.num_wire - 1, op2] 0 s
    (a :: b :: c :: self.wires.drop 3) op1 0 1 w a b (by decide) rfl hop1 rfl rfl rfl rfl rfl
    (by omega) (by rw [hL]; omega)
  have hwt : w.toNat < (a :: b :: c :: self.wires.drop 3).length := by rw [hL]; omega
  have hx1 : vec_get ((a :: b :: c :: self.wires.drop 3).set w.toNat (bk.binary op1 s a b).2) w
      = some (bk.binary op1 s a b).2 := by
    unfold vec_get
    rw [if_pos (by omega), List.getElem?_set_self hwt]
  have hc : vec_get ((a :: b :: c :: self.wires.drop 3).set w.toNat (bk.binary op1 s a b).2) 2
      = some c := by
    unfold vec_get
    rw [if_pos (by decide)]
    have e2 : (2 : Int).toNat = 2 := rfl
    rw [e2, List.getElem?_set_ne (by omega)]
    simp
  have g2 := eval_gate_binary bk [0, 1, w, op1, w, 2, self.num_wire - 1, op2] 1
    (bk.binary op1 s a b).1
    ((a :: b :: c :: self.wires.drop 3).set w.toNat (bk.binary op1 s a b).2)
    op2 w 2 (self.num_wire - 1) (bk.binary op1 s a b).2 c (by decide) rfl hop2 rfl rfl rfl
    hx1 hc (by omega) (by rw [List.length_set, hL]; omega)
  have hrun : eval_gates bk [0, 1, w, op1, w, 2, self.num_wire - 1, op2] (2 : Int).toNat 0 s
      (a :: b :: c :: self.wires.drop 3)
      = some ((bk.binary op2 (bk.binary op1 s a b).1 (bk.binary op1 s a b).2 c).1,
          ((a :: b :: c :: self.wires.drop 3).set w.toNat (bk.binary op1 s a b).2).set
            (self.num_wire - 1).toNat
            (bk.binary op2 (bk.binary op1 s a b).1 (bk.binary op1 s a b).2 c).2) := by
    show (eval_gate bk _ 0 s _).bind _ = _
    rw [g1]
    show (eval_gate bk _ 1 _ _).bind _ = _
    rw [g2]
    rfl
  rw [hrun] at he
  have hpair := Option.some.inj he
  have hs : r.state = _ := (congrArg Prod.fst hpair).symm
  have hwires : r.wires = _ := (congrArg Prod.snd hpair).symm
  refine ⟨r, hr, ?_, hs⟩
  have h0 := (hk 0 (by rw [hn3]; decide)).1
  rw [h0, hwires, hn3, Nat.add_zero]
  exact List.getElem?_set_self (by rw [List.length_set, hL]; omega)

theorem compute_two_gates_in_list_order_witness :
    ∃ r : Computed Unit Bool,
      BristolFormat.compute cleartext
        ⟨2, 4, 2, 1, 1, [0, 1, 3, XOR_GATE, 3, 2, 3, AND_GATE], [false, false, false, false]⟩ ()
        [false] [true, false] [true] = some r
      ∧ r.out[0]? = some (cleartext.binary AND_GATE (cleartext.binary XOR_GATE () true false).1
          (cleartext.binary XOR_GATE () true false).2 true).2
      ∧ r.state = (cleartext.binary AND_GATE (cleartext.binary XOR_GATE () true false).1
          (cleartext.binary XOR_GATE () true false).2 true).1 :=
  compute_two_gates_in_list_order cleartext
    ⟨2, 4, 2, 1, 1, [0, 1, 3, XOR_GATE, 3, 2, 3, AND_GATE], [false, false, false, false]⟩ ()
    [false] [true, false] [true] XOR_GATE AND_GATE 3 true false true
    (by decide) (by decide) (by decide) (by decide) (by decide) (by decide) (by decide)
    (by decide) (by decide) (by decide) (by decide) (by decide) (by decide)

theorem record_reads_lt (buf : List Byte) (size offset : Nat) :
    ∀ i ∈ record_reads buf size offset, i < size := by
  intro i hi
  unfold record_reads at hi
  by_cases hs : offset + 1 > size
  · rw [if_pos hs] at hi; exact absurd hi (by simp)
  rw [if_neg hs] at hi
  rcases List.mem_cons.mp hi with rfl | hi
  · omega
  rcases Option.eq_none_or_eq_some buf[offset]? with h | ⟨op, h⟩
  · rw [h] at hi; exact absurd hi (by simp)
  rw [h] at hi
  dsimp only at hi
  by_cases h0 : op.val = 0
  · rw [if_pos h0] at hi
    by_cases hs2 : offset + 1 + 8 > size
    · rw [if_pos hs2] at hi; exact absurd hi (by simp)
    · rw [if_neg hs2, List.mem_range'_1] at hi; omega
  · rw [if_neg h0] at hi
    by_cases h12 : op.val = 1 ∨ op.val = 2
    · rw [if_pos h12] at hi
      by_cases hs2 : offset + 1 + 12 > size
      · rw [if_pos hs2] at hi; exact absurd hi (by simp)
      · rw [if_neg hs2, List.mem_range'_1] at hi; omega
    · rw [if_neg h12] at hi; exact absurd hi (by simp)

theorem records_reads_lt (buf : List Byte) (size : Nat) :
    ∀ (rem g offset : Nat) (gates : List Int),
    ∀ i ∈ records_reads buf size rem g offset gates, i < size := by
  intro rem
  induction rem with
  | zero => intro g offset gates i hi; exact absurd hi (by simp [records_reads])
  | succ rem ih =>
    intro g offset gates i hi
    have hi' : i ∈ record_reads buf size offset ++
        (match (decode_record buf size g offset gates).outcome with
         | .ok => records_reads buf size rem (g + 1)
             (decode_record buf size g offset gates).offset
             (decode_record buf size g offset gates).gates
         | _ => []) := hi
    rcases List.mem_append.mp hi' with h | h
    · exact record_reads_lt buf size offset i h
    · cases ho : (decode_record buf size g offset gates).outcome with
      | ok => rw [ho] at h; exact ih _ _ _ i h
      | threw e => rw [ho] at h; exact absurd h (by simp)
      | undefined => rw [ho] at h; exact absurd h (by simp)

theorem read_u32_some_of_le (buf : List Byte) (off : Nat) (h : off + 4 ≤ buf.length) :
    ∃ v, read_u32 buf off = some v := by
  have e0 : buf[off]? = some buf[off] := List.getElem?_eq_getElem (by omega)
  have e1 : buf[off + 1]? = some buf[off + 1] := List.getElem?_eq_getElem (by omega)
  have e2 : buf[off + 2]? = some buf[off + 2] := List.getElem?_eq_getElem (by omega)
  have e3 : buf[off + 3]? = some buf[off + 3] := List.getElem?_eq_getElem (by omega)
  unfold read_u32
  rw [e0, e1, e2, e3]
  exact ⟨_, rfl⟩

/-- With the bounds checks against a `size` within the buffer and room for gate
g in `gates`, a pass of the record loop returns or throws; it keeps the size
of `gates`. -/
theorem decode_record_defined (buf : List Byte) (size g off : Nat) (gates : List Int)
    (hsize : size ≤ buf.length) (hg : 4 * g + 3 < gates.length) (hl : gates.length < 2 ^ 31) :
    (decode_record buf size g off gates).outcome ≠ .undefined
      ∧ (decode_record buf size g off gates).gates.length = gates.length := by
  unfold decode_record
  by_cases hs : off + 1 > size
  · rw [if_pos hs]; exact ⟨by simp, rfl⟩
  rw [if_neg hs]
  have hop : buf[off]? = some buf[off] := List.getElem?_eq_getElem (by omega)
  rw [hop]
  dsimp only
  have hlen : ∀ a b c d : Int,
      (gates.take (4 * g) ++ a :: b :: c :: d :: gates.drop (4 * g + 4)).length
        = gates.length := by
    intro a b c d
    simp only [List.length_append, List.length_take, List.length_cons, List.length_drop]
    omega
  by_cases h0 : (buf[off]).val = 0
  · rw [if_pos h0]
    by_cases hs2 : off + 1 + 8 > size
    · rw [if_pos hs2]; exact ⟨by simp, rfl⟩
    rw [if_neg hs2]
    obtain ⟨a, ra⟩ := read_u32_some_of_le buf (off + 1) (by omega)
    obtain ⟨b, rb⟩ := read_u32_some_of_le buf (off + 1 + 4) (by omega)
    rw [ra, rb]
    dsimp only
    rw [store_gate_eq _ _ _ _ _ _ hg hl]
    exact ⟨by simp, hlen _ _ _ _⟩
  · rw [if_neg h0]
    by_cases h12 : (buf[off]).val = 1 ∨ (buf[off]).val = 2
    · rw [if_pos h12]
      by_cases hs2 : off + 1 + 12 > size
      · rw [if_pos hs2]; exact ⟨by simp, rfl⟩
      rw [if_neg hs2]
      obtain ⟨a, ra⟩ := read_u32_some_of_le buf (off + 1) (by omega)
      obtain ⟨b, rb⟩ := read_u32_some_of_le buf (off + 1 + 4) (by omega)
      obtain ⟨c, rc⟩ := read_u32_some_of_le buf (off + 1 + 8) (by omega)
      rw [ra, rb, rc]
      dsimp only
      rw [store_gate_eq _ _ _ _ _ _ hg hl]
      exact ⟨by simp, hlen _ _ _ _⟩
    · rw [if_neg h12]; exact ⟨by simp, rfl⟩

theorem decode_records_defined (buf : List Byte) (size : Nat) (hsize : size ≤ buf.length) :
    ∀ (rem g off : Nat) (gates : List Int),
    4 * (g + rem) ≤ gates.length → gates.length < 2 ^ 31 →
    (decode_records buf size rem g off gates).outcome ≠ .undefined := by
  intro rem
  induction rem with
  | zero => intro g off gates _ _; rw [decode_records_zero]; simp
  | succ rem ih =>
    intro g off gates hcap hl
    obtain ⟨h1, h2⟩ := decode_record_defined buf size g off gates hsize (by omega) hl
    by_cases hok : (decode_record buf size g off gates).outcome = .ok
    · rw [decode_records_succ_of_ok _ _ _ _ _ _ hok]
      exact ih _ _ _ (by rw [h2]; omega) (by rw [h2]; exact hl)
    · rw [decode_records_succ_of_not_ok _ _ _ _ _ _ hok]
      exact h1

/-- On a buffer passed with its length, the only undefined behaviour of
`from_buffer` is the overflow of `num_gate * 4`. -/
theorem from_buffer_undefined_inv {β : Type} [Inhabited β] (self : BristolFormat β)
    (buf : List Byte) (h : (self.from_buffer buf buf.length).1 = .undefined) :
    ∃ h0, read_u32 buf 0 = some h0 ∧ int_ok (to_int h0 * 4) = false := by
  by_cases hs : buf.length < 20
  · rw [from_buffer_short self buf _ hs] at h; exact absurd h (by simp)
  obtain ⟨h0, r0⟩ := read_u32_some_of_le buf 0 (by omega)
  obtain ⟨h1, r1⟩ := read_u32_some_of_le buf 4 (by omega)
  obtain ⟨h2, r2⟩ := read_u32_some_of_le buf 8 (by omega)
  obtain ⟨h3, r3⟩ := read_u32_some_of_le buf 12 (by omega)
  obtain ⟨h4, r4⟩ := read_u32_some_of_le buf 16 (by omega)
  refine ⟨h0, r0, ?_⟩
  by_contra hc
  have hi : int_ok (to_int h0 * 4) = true := by
    cases hb : int_ok (to_int h0 * 4) with
    | true => rfl
    | false => exact absurd hb hc
  rw [from_buffer_of_reads self buf _ h0 h1 h2 h3 h4 (by omega) r0 r1 r2 r3 r4] at h
  unfold from_buffer_after_header at h
  dsimp only at h
  rw [if_pos hi] at h
  rcases Option.eq_none_or_eq_some (vec_resize self.gates (to_int h0 * 4) 0) with hG | ⟨G, hG⟩
  · rw [hG] at h; exact absurd h (by simp)
  rw [hG] at h
  dsimp only at h
  rcases Option.eq_none_or_eq_some (vec_resize self.wires (to_int h1) default) with
    hW | ⟨W, hW⟩
  · rw [hW] at h; exact absurd h (by simp)
  rw [hW] at h
  dsimp only at h
  obtain ⟨hG0, hGe⟩ := vec_resize_inv _ _ _ _ hG
  have hio := (int_ok_iff _).mp hi
  have hGl : G.length = (to_int h0 * 4).toNat := by
    rw [hGe, List.length_append, List.length_take, List.length_replicate]
    omega
  have hdef := decode_records_defined buf buf.length (le_refl _) (to_int h0).toNat 0 20 G
    (by rw [hGl]; omega) (by rw [hGl]; omega)
  cases ho : (decode_records buf buf.length (to_int h0).toNat 0 20 G).outcome with
  | ok =>
    rw [ho] at h
    dsimp only at h
    split at h <;> exact absurd h (by simp)
  | threw e => rw [ho] at h; exact absurd h (by simp)
  | undefined => exact hdef ho

/-- C19: for every buffer and every size, every index at which
`BristolFormat::from_buffer(buf, size)` reads `buf` is below `size`: each read
follows a passed bounds check `need`. With `size` the length of the buffer,
every read is inside the buffer, and the call returns or throws unless the
product `num_gate * 4` overflows `int`. -/
theorem from_buffer_reads_below_size {β : Type} [Inhabited β] (self : BristolFormat β)
    (buf : List Byte) :
    (∀ (size i : Nat), i ∈ self.from_buffer_reads buf size → i < size)
    ∧ (∀ i : Nat, i ∈ self.from_buffer_reads buf buf.length → ∃ x, buf[i]? = some x)
    ∧ ((self.from_buffer buf buf.length).1 = .undefined →
        ∃ h0, read_u32 buf 0 = some h0 ∧ int_ok (to_int h0 * 4) = false) := by
  have hall : ∀ (size i : Nat), i ∈ self.from_buffer_reads buf size → i < size := by
    intro size i hi
    unfold BristolFormat.from_buffer_reads at hi
    by_cases hs : 20 > size
    · rw [if_pos hs] at hi; exact absurd hi (by simp)
    rw [if_neg hs] at hi
    rcases List.mem_append.mp hi with h | h
    · rw [List.mem_range'_1] at h; omega
    · rcases Option.eq_none_or_eq_some (read_u32 buf 0) with r0 | ⟨h0, r0⟩
      · rw [r0] at h; exact absurd h (by simp)
      rcases Option.eq_none_or_eq_some (read_u32 buf 4) with r1 | ⟨h1, r1⟩
      · rw [r0, r1] at h; exact absurd h (by simp)
      rcases Option.eq_none_or_eq_some (read_u32 buf 8) with r2 | ⟨h2, r2⟩
      · rw [r0, r1, r2] at h; exact absurd h (by simp)
      rcases Option.eq_none_or_eq_some (read_u32 buf 12) with r3 | ⟨h3, r3⟩
      · rw [r0, r1, r2, r3] at h; exact absurd h (by simp)
      rcases Option.eq_none_or_eq_some (read_u32 buf 16) with r4 | ⟨h4, r4⟩
      · rw [r0, r1, r2, r3, r4] at h; exact absurd h (by simp)
      rw [r0, r1, r2, r3, r4] at h
      dsimp only at h
      by_cases hi0 : int_ok (to_int h0 * 4) = true
      · rw [if_pos hi0] at h
        rcases Option.eq_none_or_eq_some (vec_resize self.gates (to_int h0 * 4) 0) with
          hG | ⟨G, hG⟩
        · rw [hG] at h; exact absurd h (by simp)
        rw [hG] at h
        dsimp only at h
        rcases Option.eq_none_or_eq_some (vec_resize self.wires (to_int h1) default) with
          hW | ⟨W, hW⟩
        · rw [hW] at h; exact absurd h (by simp)
        rw [hW] at h
        exact records_reads_lt buf size _ _ _ _ i h
      · rw [if_neg hi0] at h; exact absurd h (by simp)
  refine ⟨hall, ?_, from_buffer_undefined_inv self buf⟩
  intro i hi
  have hlt := hall buf.length i hi
  exact ⟨buf[i], List.getElem?_eq_getElem hlt⟩

theorem from_buffer_reads_below_size_witness :
    28 ∈ (⟨0, 0, 0, 0, 0, [], []⟩ : BristolFormat Bool).from_buffer_reads
        ((Header.mk ⟨1, 0, 0, 0⟩ ⟨3, 0, 0, 0⟩ ⟨1, 0, 0, 0⟩ ⟨1, 0, 0, 0⟩ ⟨1, 0, 0, 0⟩).bytes
          ++ (Record.inv ⟨0, 0, 0, 0⟩ ⟨2, 0, 0, 0⟩).bytes) 29
    ∧ 28 < 29 :=
  ⟨by decide,
   (from_buffer_reads_below_size (⟨0, 0, 0, 0, 0, [], []⟩ : BristolFormat Bool)
      ((Header.mk ⟨1, 0, 0, 0⟩ ⟨3, 0, 0, 0⟩ ⟨1, 0, 0, 0⟩ ⟨1, 0, 0, 0⟩ ⟨1, 0, 0, 0⟩).bytes
        ++ (Record.inv ⟨0, 0, 0, 0⟩ ⟨2, 0, 0, 0⟩).bytes)).1 29 28 (by decide)⟩

/-- C12 as stated fails: on the circuit without gates with `num_wire = 2`,
`n1 = 1`, `n2 = 0`, `n3 = 1`, the output is wire 1, which the call never
writes: from the prior store `[0, 0]` the output is 0, from `[0, 1]` it is 1. -/
theorem compute_depends_on_prior_store :
    (BristolFormat.compute cleartext ⟨0, 2, 1, 0, 1, [], [false, false]⟩ () [false] [true] []).map
        (fun r => r.out) = some [false]
    ∧ (BristolFormat.compute cleartext ⟨0, 2, 1, 0, 1, [], [false, true]⟩ () [false] [true] []).map
        (fun r => r.out) = some [true] := by
  decide

theorem agree_on_set {β : Type} (W : List Int) (u v : List β) (io : Int) (r : β)
    (h : agree_on W u v) (h0 : 0 ≤ io) :
    agree_on (io :: W) (u.set io.toNat r) (v.set io.toNat r) := by
  obtain ⟨hl, hW⟩ := h
  refine ⟨by rw [List.length_set, List.length_set, hl], ?_⟩
  intro x hx
  unfold vec_get
  by_cases hx0 : 0 ≤ x
  · rw [if_pos hx0, if_pos hx0]
    by_cases he : io.toNat = x.toNat
    · rw [← he, List.getElem?_set_self', List.getElem?_set_self']
      by_cases hlt : io.toNat < u.length
      · rw [List.getElem?_eq_getElem hlt, List.getElem?_eq_getElem (by omega)]; rfl
      · rw [List.getElem?_eq_none (by omega), List.getElem?_eq_none (by omega)]
    · rw [List.getElem?_set_ne he, List.getElem?_set_ne he]
      have hxW : x ∈ W := by
        rcases List.mem_cons.mp hx with rfl | hxW
        · exact absurd rfl he
        · exact hxW
      have := hW x hxW
      unfold vec_get at this
      rw [if_pos hx0, if_pos hx0] at this
      exact this
  · rw [if_neg hx0, if_neg hx0]

theorem agree_on_mono {β : Type} (W W' : List Int) (u v : List β) (h : agree_on W u v)
    (hsub : ∀ x ∈ W', x ∈ W) : agree_on W' u v :=
  ⟨h.1, fun x hx => h.2 x (hsub x hx)⟩

theorem vec_get_gates_getD (gates : List Int) (idx : Int) (n : Nat) (x : Int)
    (he : idx = (n : Int)) (h : vec_get gates idx = some x) : gates.getD n 0 = x := by
  subst he
  unfold vec_get at h
  rw [if_pos (by omega), Int.toNat_ofNat] at h
  rw [List.getD_eq_getElem?_getD, h]
  rfl

theorem vec_set_agree {β : Type} (W : List Int) (u v : List β) (io : Int) (r : β)
    (h : agree_on W u v) :
    (vec_set u io r = none ∧ vec_set v io r = none)
    ∨ ∃ u1 v1, vec_set u io r = some u1 ∧ vec_set v io r = some v1
        ∧ agree_on (io :: W) u1 v1 := by
  unfold vec_set
  by_cases hc : 0 ≤ io ∧ io.toNat < u.length
  · right
    rw [if_pos hc, if_pos ⟨hc.1, by rw [← h.1]; exact hc.2⟩]
    exact ⟨_, _, rfl, rfl, agree_on_set W u v io r h hc.1⟩
  · left
    rw [if_neg hc, if_neg (by rw [← h.1]; exact hc)]
    exact ⟨rfl, rfl⟩


theorem same_step_none {σ β : Type} (W : List Int) :
    same_step W (none : Option (σ × List β)) none := Or.inl ⟨rfl, rfl⟩

theorem same_step_write {σ β : Type} (W : List Int) (u v : List β) (io : Int) (r : σ × β)
    (h : agree_on W u v) :
    same_step (io :: W) ((vec_set u io r.2).map fun w => (r.1, w))
      ((vec_set v io r.2).map fun w => (r.1, w)) := by
  rcases vec_set_agree W u v io r.2 h with ⟨h1, h2⟩ | ⟨u1, v1, h1, h2, h3⟩
  · rw [h1, h2]; exact same_step_none _
  · rw [h1, h2]; exact Or.inr ⟨r.1, u1, v1, rfl, rfl, h3⟩

/-- The body of a two-input gate on two stores that agree on W, when both
input wires are in W. -/
theorem same_step_binary {σ β : Type} (f : σ → β → β → σ × β) (gates : List Int) (i : Nat)
    (s : σ) (W : List Int) (u v : List β) (h : agree_on W u v)
    (ha : gates.getD (4 * i) 0 ∈ W) (hb : gates.getD (4 * i + 1) 0 ∈ W) :
    same_step (gates.getD (4 * i + 2) 0 :: W)
      ((vec_get gates (4 * (i : Int))).bind fun ia =>
        (vec_get gates (4 * (i : Int) + 1)).bind fun ib =>
        (vec_get gates (4 * (i : Int) + 2)).bind fun io =>
        (vec_get u ia).bind fun x =>
        (vec_get u ib).bind fun y =>
        (vec_set u io (f s x y).2).map fun wires => ((f s x y).1, wires))
      ((vec_get gates (4 * (i : Int))).bind fun ia =>
        (vec_get gates (4 * (i : Int) + 1)).bind fun ib =>
        (vec_get gates (4 * (i : Int) + 2)).bind fun io =>
        (vec_get v ia).bind fun x =>
        (vec_get v ib).bind fun y =>
        (vec_set v io (f s x y).2).map fun wires => ((f s x y).1, wires)) := by
  rcases Option.eq_none_or_eq_some (vec_get gates (4 * (i : Int))) with h0 | ⟨ia, h0⟩
  · rw [h0]; exact same_step_none _
  rw [h0]
  simp only [Option.some_bind]
  have e0 := vec_get_gates_getD gates _ (4 * i) ia (by push_cast; ring) h0
  rcases Option.eq_none_or_eq_some (vec_get gates (4 * (i : Int) + 1)) with h1 | ⟨ib, h1⟩
  · rw [h1]; exact same_step_none _
  rw [h1]
  simp only [Option.some_bind]
  have e1 := vec_get_gates_getD gates _ (4 * i + 1) ib (by push_cast; ring) h1
  rcases Option.eq_none_or_eq_some (vec_get gates (4 * (i : Int) + 2)) with h2 | ⟨io, h2⟩
  · rw [h2]; exact same_step_none _
  rw [h2]
  simp only [Option.some_bind]
  have e2 := vec_get_gates_getD gates _ (4 * i + 2) io (by push_cast; ring) h2
  rw [e2]
  have hxa : vec_get u ia = vec_get v ia := h.2 ia (by rw [← e0]; exact ha)
  have hxb : vec_get u ib = vec_get v ib := h.2 ib (by rw [← e1]; exact hb)
  rw [hxa, hxb]
  rcases Option.eq_none_or_eq_some (vec_get v ia) with hx | ⟨x, hx⟩
  · rw [hx]; exact same_step_none _
  rw [hx]
  simp only [Option.some_bind]
  rcases Option.eq_none_or_eq_some (vec_get v ib) with hy | ⟨y, hy⟩
  · rw [hy]; exact same_step_none _
  rw [hy]
  simp only [Option.some_bind]
  exact same_step_write W u v io (f s x y) h

/-- The body of a one-input gate on two stores that agree on W, when the input
wire is in W. -/
theorem same_step_unary {σ β : Type} (f : σ → β → σ × β) (gates : List Int) (i : Nat)
    (s : σ) (W : List Int) (u v : List β) (h : agree_on W u v)
    (ha : gates.getD (4 * i) 0 ∈ W) :
    same_step (gates.getD (4 * i + 2) 0 :: W)
      ((vec_get gates (4 * (i : Int))).bind fun ia =>
        (vec_get gates (4 * (i : Int) + 2)).bind fun io =>
        (vec_get u ia).bind fun x =>
        (vec_set u io (f s x).2).map fun wires => ((f s x).1, wires))
      ((vec_get gates (4 * (i : Int))).bind fun ia =>
        (vec_get gates (4 * (i : Int) + 2)).bind fun io =>
        (vec_get v ia).bind fun x =>
        (vec_set v io (f s x).2).map fun wires => ((f s x).1, wires)) := by
  rcases Option.eq_none_or_eq_some (vec_get gates (4 * (i : Int))) with h0 | ⟨ia, h0⟩
  · rw [h0]; exact same_step_none _
  rw [h0]
  simp only [Option.some_bind]
  have e0 := vec_get_gates_getD gates _ (4 * i) ia (by push_cast; ring) h0
  rcases Option.eq_none_or_eq_some (vec_get gates (4 * (i : Int) + 2)) with h2 | ⟨io, h2⟩
  · rw [h2]; exact same_step_none _
  rw [h2]
  simp only [Option.some_bind]
  have e2 := vec_get_gates_getD gates _ (4 * i + 2) io (by push_cast; ring) h2
  rw [e2]
  have hxa : vec_get u ia = vec_get v ia := h.2 ia (by rw [← e0]; exact ha)
  rw [hxa]
  rcases Option.eq_none_or_eq_some (vec_get v ia) with hx | ⟨x, hx⟩
  · rw [hx]; exact same_step_none _
  rw [hx]
  simp only [Option.some_bind]
  exact same_step_write W u v io (f s x) h

/-- One pass of the gate loop on two stores that agree on W, for a gate that
reads only wires of W: the two passes end alike and the stores agree on W and
on the out wire. -/
theorem eval_gate_agree {σ β : Type} (bk : Backend σ β) (gates : List Int) (i : Nat) (s : σ)
    (W : List Int) (u v : List β) (h : agree_on W u v)
    (ha : gates.getD (4 * i) 0 ∈ W)
    (hb : (gates.getD (4 * i + 3) 0 = AND_GATE ∨ gates.getD (4 * i + 3) 0 = XOR_GATE) →
      gates.getD (4 * i + 1) 0 ∈ W) :
    same_step (gates.getD (4 * i + 2) 0 :: W) (eval_gate bk gates i s u)
      (eval_gate bk gates i s v) := by
  unfold eval_gate
  by_cases hok : int_ok (4 * (i : Int) + 3) = true
  swap
  · rw [if_neg hok, if_neg hok]; exact same_step_none _
  rw [if_pos hok, if_pos hok]
  rcases Option.eq_none_or_eq_some (vec_get gates (4 * (i : Int) + 3)) with h3 | ⟨op, h3⟩
  · rw [h3]; exact same_step_none _
  rw [h3]
  simp only [Option.some_bind]
  have e3 := vec_get_gates_getD gates _ (4 * i + 3) op (by push_cast; ring) h3
  rw [e3] at hb
  by_cases hA : op = AND_GATE
  · rw [if_pos hA, if_pos hA]
    exact same_step_binary bk.and_gate gates i s W u v h ha (hb (Or.inl hA))
  rw [if_neg hA, if_neg hA]
  by_cases hX : op = XOR_GATE
  · rw [if_pos hX, if_pos hX]
    exact same_step_binary bk.xor_gate gates i s W u v h ha (hb (Or.inr hX))
  rw [if_neg hX, if_neg hX]
  exact same_step_unary bk.not_gate gates i s W u v h ha

theorem written_before_succ (gates : List Int) (n i : Nat) (x : Int)
    (hx : x ∈ written_before gates n (i + 1)) :
    x ∈ gates.getD (4 * i + 2) 0 :: written_before gates n i := by
  unfold written_before at hx ⊢
  rw [List.range_succ, List.map_append, List.mem_append, List.mem_append] at hx
  rw [List.mem_cons, List.mem_append]
  rcases hx with hx | hx | hx
  · exact Or.inr (Or.inl hx)
  · exact Or.inr (Or.inr hx)
  · rw [List.map_singleton, List.mem_singleton] at hx
    exact Or.inl hx

/-- The gate loop on two stores that agree on the wires written so far, for
gates that read only such wires: the two runs end alike and the stores agree on
every wire written by then. -/
theorem eval_gates_agree {σ β : Type} (bk : Backend σ β) (gates : List Int) (n : Nat) :
    ∀ (rem i : Nat) (s : σ) (u v : List β),
      agree_on (written_before gates n i) u v →
      (∀ j, i ≤ j → j < i + rem → reads_written gates n j) →
      same_step (written_before gates n (i + rem)) (eval_gates bk gates rem i s u)
        (eval_gates bk gates rem i s v) := by
  intro rem
  induction rem with
  | zero =>
    intro i s u v h _
    exact Or.inr ⟨s, u, v, rfl, rfl, h⟩
  | succ rem ih =>
    intro i s u v h hr
    have hi := hr i (le_refl _) (by omega)
    have hstep := eval_gate_agree bk gates i s _ u v h hi.1 hi.2
    simp only [eval_gates]
    rcases hstep with ⟨h1, h2⟩ | ⟨s1, u1, v1, h1, h2, h3⟩
    · rw [h1, h2]; exact same_step_none _
    · rw [h1, h2]
      simp only [Option.some_bind]
      have h4 := agree_on_mono _ (written_before gates n (i + 1)) u1 v1 h3
        (written_before_succ gates n i)
      have h5 := ih (i + 1) s1 u1 v1 h4 (fun j hj1 hj2 => hr j (by omega) (by omega))
      rw [show i + (rem + 1) = i + 1 + rem by omega]
      exact h5

theorem splice_getElem? {α : Type} (a m : List α) (d k : Nat) (hd : d + m.length ≤ a.length) :
    (a.take d ++ m ++ a.drop (d + m.length))[k]?
      = if k < d then a[k]? else if k < d + m.length then m[k - d]? else a[k]? := by
  have hl : (a.take d).length = d := by rw [List.length_take]; omega
  by_cases h1 : k < d
  · rw [if_pos h1, List.append_assoc, List.getElem?_append_left (by omega),
      List.getElem?_take_of_lt h1]
  rw [if_neg h1]
  by_cases h2 : k < d + m.length
  · rw [if_pos h2, List.getElem?_append_left (by rw [List.length_append]; omega),
      List.getElem?_append_right (by omega), hl]
  · rw [if_neg h2, List.getElem?_append_right (by rw [List.length_append]; omega),
      List.length_append, hl, List.getElem?_drop]
    congr 1
    omega

/-- The call `memcpy` on two destinations that agree on W: both fail, or both
succeed and the results agree on W and on the slots copied into. -/
theorem memcpy_agree {β : Type} (W W' : List Int) (u v : List β) (src : List β)
    (doff n : Int) (h : agree_on W u v)
    (hW : ∀ x ∈ W', x ∈ W ∨ (doff ≤ x ∧ x < doff + n)) :
    (memcpy u doff src 0 n = none ∧ memcpy v doff src 0 n = none)
      ∨ ∃ u1 v1, memcpy u doff src 0 n = some u1 ∧ memcpy v doff src 0 n = some v1
          ∧ agree_on W' u1 v1 := by
  unfold memcpy
  rw [← h.1]
  by_cases hc : 0 ≤ doff ∧ (0 : Int) ≤ 0 ∧ 0 ≤ n ∧ (0 : Int).toNat + n.toNat ≤ src.length
      ∧ doff.toNat + n.toNat ≤ u.length
  swap
  · rw [if_neg hc, if_neg hc]; exact Or.inl ⟨rfl, rfl⟩
  rw [if_pos hc, if_pos hc]
  refine Or.inr ⟨_, _, rfl, rfl, ?_, ?_⟩
  · simp only [List.length_append, List.length_take, List.length_drop]
    rw [← h.1]
  · intro x hx
    obtain ⟨c0, _, c2, c3, c4⟩ := hc
    have hm : ((src.drop (0 : Int).toNat).take n.toNat).length = n.toNat := by
      rw [List.length_take, List.length_drop]; omega
    unfold vec_get
    by_cases hx0 : 0 ≤ x
    swap
    · rw [if_neg hx0, if_neg hx0]
    rw [if_pos hx0, if_pos hx0]
    have e1 := splice_getElem? u ((src.drop (0 : Int).toNat).take n.toNat) doff.toNat x.toNat
      (by rw [hm]; exact c4)
    have e2 := splice_getElem? v ((src.drop (0 : Int).toNat).take n.toNat) doff.toNat x.toNat
      (by rw [hm, ← h.1]; exact c4)
    rw [hm] at e1 e2
    rw [e1, e2]
    have hg := h.2 x
    unfold vec_get at hg
    rw [if_pos hx0, if_pos hx0] at hg
    rcases hW x hx with hin | ⟨hlo, hhi⟩
    · rw [hg hin]
    · have g1 : ¬ x.toNat < doff.toNat := by omega
      have g2 : x.toNat < doff.toNat + n.toNat := by omega
      simp only [if_neg g1, if_pos g2]

theorem mem_written_before_zero (gates : List Int) (n : Nat) (x : Int)
    (hx : x ∈ written_before gates n 0) : 0 ≤ x ∧ x < (n : Int) := by
  unfold written_before at hx
  rw [List.range_zero, List.map_nil, List.append_nil, List.mem_map] at hx
  obtain ⟨k, hk, rfl⟩ := hx
  rw [List.mem_range] at hk
  omega

/-- The two input copies of `compute` on two stores of one length: both fail, or
both succeed and the stores agree on every input wire. -/
theorem load_inputs_agree {β : Type} (gates : List Int) (w w' in1 in2 : List β) (n1 n2 : Int)
    (hlen : w'.length = w.length) :
    (((memcpy w 0 in1 0 n1).bind fun w1 => memcpy w1 n1 in2 0 n2) = none
        ∧ ((memcpy w' 0 in1 0 n1).bind fun w1 => memcpy w1 n1 in2 0 n2) = none)
      ∨ ∃ u2 v2, ((memcpy w 0 in1 0 n1).bind fun w1 => memcpy w1 n1 in2 0 n2) = some u2
          ∧ ((memcpy w' 0 in1 0 n1).bind fun w1 => memcpy w1 n1 in2 0 n2) = some v2
          ∧ agree_on (written_before gates (n1.toNat + n2.toNat) 0) u2 v2 := by
  have h0 : agree_on [] w w' := ⟨hlen.symm, fun x hx => absurd hx (List.not_mem_nil x)⟩
  rcases memcpy_agree [] ((List.range n1.toNat).map fun (k : Nat) => (k : Int)) w w' in1 0 n1 h0
    (by
      intro x hx
      rw [List.mem_map] at hx
      obtain ⟨k, hk, rfl⟩ := hx
      rw [List.mem_range] at hk
      right; omega) with ⟨e1, e2⟩ | ⟨u1, v1, e1, e2, h1⟩
  · rw [e1, e2]; exact Or.inl ⟨rfl, rfl⟩
  rw [e1, e2]
  simp only [Option.some_bind]
  have hn1 : 0 ≤ n1 := (memcpy_inv _ _ _ _ _ _ e1).2.2.1
  exact memcpy_agree _ (written_before gates (n1.toNat + n2.toNat) 0) u1 v1 in2 n1 n2 h1
    (by
      intro x hx
      have hb := mem_written_before_zero gates _ x hx
      by_cases hlt : x < n1
      · left
        rw [List.mem_map]
        exact ⟨x.toNat, by rw [List.mem_range]; omega, by omega⟩
      · right; omega)

/-- The output copy of `compute` from two stores that agree on the output wires
gives one result. -/
theorem store_outputs_agree {β : Type} (W : List Int) (out u v : List β) (a n : Int)
    (h : agree_on W u v) (hW : ∀ k : Nat, k < n.toNat → a + (k : Int) ∈ W) :
    memcpy out 0 u a n = memcpy out 0 v a n := by
  unfold memcpy
  rw [← h.1]
  by_cases hc : (0 : Int) ≤ 0 ∧ 0 ≤ a ∧ 0 ≤ n ∧ a.toNat + n.toNat ≤ u.length
      ∧ (0 : Int).toNat + n.toNat ≤ out.length
  swap
  · rw [if_neg hc, if_neg hc]
  rw [if_pos hc, if_pos hc]
  obtain ⟨_, c1, c2, c3, c4⟩ := hc
  have hmid : (u.drop a.toNat).take n.toNat = (v.drop a.toNat).take n.toNat := by
    apply List.ext_getElem?
    intro k
    by_cases hk : k < n.toNat
    · rw [List.getElem?_take_of_lt hk, List.getElem?_take_of_lt hk, List.getElem?_drop,
        List.getElem?_drop]
      have hg := h.2 _ (hW k hk)
      unfold vec_get at hg
      rw [if_pos (by omega), if_pos (by omega)] at hg
      rw [show (a + (k : Int)).toNat = a.toNat + k by omega] at hg
      exact hg
    · rw [List.getElem?_eq_none (by rw [List.length_take]; omega),
        List.getElem?_eq_none (by rw [List.length_take]; omega)]
  rw [hmid]

theorem compute_stages {σ β : Type} (bk : Backend σ β) (self : BristolFormat β) (s : σ)
    (out in1 in2 : List β) :
    (self.compute bk s out in1 in2).map (fun r => (r.out, r.state))
      = ((memcpy self.wires 0 in1 0 self.n1).bind fun w1 => memcpy w1 self.n1 in2 0 self.n2).bind
          fun w2 =>
        (eval_gates bk self.gates self.num_gate.toNat 0 s w2).bind fun r =>
        if int_ok (self.num_wire - self.n3) then
          (memcpy out 0 r.2 (self.num_wire - self.n3) self.n3).map fun o => (o, r.1)
        else none := by
  unfold BristolFormat.compute
  rcases Option.eq_none_or_eq_some (memcpy self.wires 0 in1 0 self.n1) with e1 | ⟨w1, e1⟩
  · rw [e1]; rfl
  rw [e1]
  simp only [Option.some_bind]
  rcases Option.eq_none_or_eq_some (memcpy w1 self.n1 in2 0 self.n2) with e2 | ⟨w2, e2⟩
  · rw [e2]; rfl
  rw [e2]
  simp only [Option.some_bind]
  rcases Option.eq_none_or_eq_some (eval_gates bk self.gates self.num_gate.toNat 0 s w2)
    with e3 | ⟨r, e3⟩
  · rw [e3]; rfl
  rw [e3]
  simp only [Option.some_bind]
  by_cases hok : int_ok (self.num_wire - self.n3) = true
  swap
  · rw [if_neg hok, if_neg hok]; rfl
  rw [if_pos hok, if_pos hok]
  rcases Option.eq_none_or_eq_some (memcpy out 0 r.2 (self.num_wire - self.n3) self.n3)
    with e4 | ⟨o, e4⟩
  · rw [e4]; rfl
  · rw [e4]; rfl

/-- C12 (amended): for a circuit in which every gate reads only input wires and
wires written by earlier gates, and every output wire is an input wire or is
written by a gate, `BristolFormat::compute` gives the same outputs and the same
backend state (or is undefined in both runs) whatever the wire store held
before the call, for every backend, every state and every pair of inputs. -/
theorem compute_independent_of_prior_store {σ β : Type} (bk : Backend σ β)
    (self : BristolFormat β) (s : σ) (out in1 in2 w' : List β)
    (hlen : w'.length = self.wires.length) (hsrc : self.sourced) :
    (self.compute bk s out in1 in2).map (fun r => (r.out, r.state))
      = (BristolFormat.compute bk
          ⟨self.num_gate, self.num_wire, self.n1, self.n2, self.n3, self.gates, w'⟩
          s out in1 in2).map (fun r => (r.out, r.state)) := by
  rw [compute_stages, compute_stages]
  dsimp only
  rcases load_inputs_agree self.gates self.wires w' in1 in2 self.n1 self.n2 hlen
    with ⟨e1, e2⟩ | ⟨u2, v2, e1, e2, h2⟩
  · rw [e1, e2]
  rw [e1, e2]
  simp only [Option.some_bind]
  have h3 := eval_gates_agree bk self.gates (self.n1.toNat + self.n2.toNat)
    self.num_gate.toNat 0 s u2 v2 h2 (fun j _ hj => hsrc.1 j (by omega))
  rw [Nat.zero_add] at h3
  rcases h3 with ⟨e3, e4⟩ | ⟨s3, u3, v3, e3, e4, h4⟩
  · rw [e3, e4]
  rw [e3, e4]
  simp only [Option.some_bind]
  rw [store_outputs_agree _ out u3 v3 (self.num_wire - self.n3) self.n3 h4 hsrc.2]

theorem compute_independent_of_prior_store_witness :
    (BristolFormat.compute cleartext
        ⟨1, 3, 1, 1, 1, [0, 1, 2, XOR_GATE], [false, false, false]⟩ () [false] [true]
        [true]).map (fun r => (r.out, r.state))
      = (BristolFormat.compute cleartext
        ⟨1, 3, 1, 1, 1, [0, 1, 2, XOR_GATE], [true, false, true]⟩ () [false] [true]
        [true]).map (fun r => (r.out, r.state)) :=
  compute_independent_of_prior_store cleartext
    ⟨1, 3, 1, 1, 1, [0, 1, 2, XOR_GATE], [false, false, false]⟩ () [false] [true] [true]
    [true, false, true] rfl (by
      constructor
      · intro i hi
        have hi0 : i = 0 := by
          have : i < 1 := hi
          omega
        subst hi0
        exact ⟨by decide, fun _ => by decide⟩
      · intro k hk
        have hk0 : k = 0 := by
          have : k < 1 := hk
          omega
        subst hk0
        decide)

/-- C14 (counterexample): on the token stream `1 3 1 1 1  2 0 1 2 XOR`, whose
only gate is written with the five tokens `2 0 1 2 XOR`, `from_stream` returns
normally and has stored `(1, 2, 0, 0)` as gate 0, not `(0, 1, 2, XOR)`. -/
theorem from_stream_misreads_five_token_gate :
    ((⟨7, 7, 7, 7, 7, [], []⟩ : BristolFormat Bool).from_stream
        ⟨[.int 1, .int 3, .int 1, .int 1, .int 1,
          .int 2, .int 0, .int 1, .int 2, .word 'X'], false⟩).1 = .ok
    ∧ ((⟨7, 7, 7, 7, 7, [], []⟩ : BristolFormat Bool).from_stream
        ⟨[.int 1, .int 3, .int 1, .int 1, .int 1,
          .int 2, .int 0, .int 1, .int 2, .word 'X'], false⟩).2.gates = [1, 2, 0, 0]
    ∧ [1, 2, 0, 0] ≠ [0, 1, 2, XOR_GATE] := by
  decide

theorem read_int_int (n : Int) (tl : List Token) (h : int_ok n = true) :
    (⟨.int n :: tl, false⟩ : IStream).read_int = (⟨tl, false⟩, some n) := by
  simp only [IStream.read_int, h, if_true, Bool.false_eq_true, if_false]

theorem read_str_word (c : Char) (tl : List Token) :
    (⟨.word c :: tl, false⟩ : IStream).read_str = (⟨tl, false⟩, some c) := rfl

theorem read_str_token (t : Token) (tl : List Token) :
    ((⟨t :: tl, false⟩ : IStream).read_str).1 = ⟨tl, false⟩ := by
  cases t <;> rfl

theorem read_into_int (n : Int) (tl : List Token) (gates : List Int) (idx : Int) (k : Nat)
    (h : int_ok n = true) (hidx : idx = (k : Int)) (hk : k < gates.length)
    (hl : gates.length < 2 ^ 31) :
    read_into ⟨.int n :: tl, false⟩ gates idx = some (⟨tl, false⟩, gates.set k n) := by
  subst hidx
  unfold read_into
  rw [if_pos (int_ok_ofNat k (by omega)), read_int_int n tl h]
  unfold vec_get vec_set
  rw [if_pos (by omega), Int.toNat_ofNat, List.getElem?_eq_getElem hk]
  simp only [Option.some_bind, Option.getD_some]
  rw [if_pos ⟨by omega, hk⟩]
  rfl

theorem set_type_eq (st : IStream) (tmp : Int) (gates : List Int) (i : Nat) (op : Int)
    (hk : 4 * i + 3 < gates.length) (hl : gates.length < 2 ^ 31) :
    set_type st tmp gates i op = some ⟨st, some tmp, gates.set (4 * i + 3) op⟩ := by
  unfold set_type
  have e : 4 * (i : Int) + 3 = ((4 * i + 3 : Nat) : Int) := by push_cast; ring
  rw [e, if_pos (int_ok_ofNat _ (by omega))]
  unfold vec_set
  rw [if_pos ⟨by omega, by rw [Int.toNat_ofNat]; exact hk⟩, Int.toNat_ofNat]
  rfl

theorem set3_append (A B : List Int) (x0 x1 x2 x3 a c d : Int) :
    (((A ++ x0 :: x1 :: x2 :: x3 :: B).set A.length a).set (A.length + 2) c).set
      (A.length + 3) d = A ++ a :: x1 :: c :: d :: B := by
  induction A with
  | nil => simp
  | cons y A ih => simp

/-- One pass of the loop of `from_stream` over the tokens of one gate whose
integers fit `int`: the tokens are consumed and the tuple of the gate is stored. -/
theorem parse_gate_tokens (t : TextGate) (ht : t.fits) (tl : List Token) (tmp : Option Int)
    (i : Nat) (A B : List Int) (x0 x1 x2 x3 : Int) (hA : A.length = 4 * i)
    (hl : (A ++ x0 :: x1 :: x2 :: x3 :: B).length < 2 ^ 31) :
    parse_gate i ⟨⟨t.tokens ++ tl, false⟩, tmp, A ++ x0 :: x1 :: x2 :: x3 :: B⟩
      = some ⟨⟨tl, false⟩, some t.count, A ++ t.stored x1 ++ B⟩ := by
  have hlen : (A ++ x0 :: x1 :: x2 :: x3 :: B).length = 4 * i + 4 + B.length := by
    simp only [List.length_append, List.length_cons]; omega
  have e1 : int_ok 1 = true := by decide
  have e2 : int_ok 2 = true := by decide
  have c0 : 4 * (i : Int) = ((4 * i : Nat) : Int) := by push_cast; ring
  have c1 : 4 * (i : Int) + 1 = ((4 * i + 1 : Nat) : Int) := by push_cast; ring
  have c2 : 4 * (i : Int) + 2 = ((4 * i + 2 : Nat) : Int) := by push_cast; ring
  cases t with
  | and k a b o =>
    obtain ⟨hk, ha, hb, ho⟩ := ht
    unfold parse_gate
    simp only [TextGate.tokens, List.cons_append, List.nil_append, read_int_int _ _ e2,
      read_int_int _ _ hk, Option.orElse, if_true, Option.getD_some]
    rw [read_into_int a _ _ _ (4 * i) ha c0 (by omega) hl]
    simp only [Option.some_bind]
    rw [read_into_int b _ _ _ (4 * i + 1) hb c1 (by rw [List.length_set]; omega)
      (by rw [List.length_set]; exact hl)]
    simp only [Option.some_bind]
    rw [read_into_int o _ _ _ (4 * i + 2) ho c2 (by simp only [List.length_set]; omega)
      (by simp only [List.length_set]; exact hl)]
    simp only [Option.some_bind, read_str_word, if_true]
    rw [set_type_eq _ _ _ _ _ (by simp only [List.length_set]; omega)
      (by simp only [List.length_set]; exact hl)]
    rw [← hA, set4_append]
    simp [TextGate.stored, TextGate.count]
  | xor k a b o =>
    obtain ⟨hk, ha, hb, ho⟩ := ht
    unfold parse_gate
    simp only [TextGate.tokens, List.cons_append, List.nil_append, read_int_int _ _ e2,
      read_int_int _ _ hk, Option.orElse, if_true, Option.getD_some]
    rw [read_into_int a _ _ _ (4 * i) ha c0 (by omega) hl]
    simp only [Option.some_bind]
    rw [read_into_int b _ _ _ (4 * i + 1) hb c1 (by rw [List.length_set]; omega)
      (by rw [List.length_set]; exact hl)]
    simp only [Option.some_bind]
    rw [read_into_int o _ _ _ (4 * i + 2) ho c2 (by simp only [List.length_set]; omega)
      (by simp only [List.length_set]; exact hl)]
    simp only [Option.some_bind, read_str_word]
    rw [if_neg (by decide)]
    simp only [if_true]
    rw [set_type_eq _ _ _ _ _ (by simp only [List.length_set]; omega)
      (by simp only [List.length_set]; exact hl)]
    rw [← hA, set4_append]
    simp [TextGate.stored, TextGate.count]
  | not k a o ty =>
    obtain ⟨hk, ha, ho⟩ := ht
    unfold parse_gate
    simp only [TextGate.tokens, List.cons_append, List.nil_append, read_int_int _ _ e1,
      read_int_int _ _ hk, Option.orElse, Option.getD_some, if_true]
    rw [read_into_int a _ _ _ (4 * i) ha c0 (by omega) hl]
    simp only [Option.some_bind]
    rw [read_into_int o _ _ _ (4 * i + 2) ho c2 (by simp only [List.length_set]; omega)
      (by simp only [List.length_set]; exact hl)]
    simp only [Option.some_bind, read_str_token]
    rw [set_type_eq _ _ _ _ _ (by simp only [List.length_set]; omega)
      (by simp only [List.length_set]; exact hl)]
    rw [← hA, set3_append]
    simp [TextGate.stored, TextGate.count]

theorem textgate_length_stored (old : Int) (t : TextGate) : (t.stored old).length = 4 := by
  cases t <;> rfl

theorem length_stored_over (gs : List TextGate) :
    ∀ old : List Int, (stored_over gs old).length = 4 * gs.length := by
  induction gs with
  | nil => intro old; rfl
  | cons t ts ih =>
    intro old
    simp only [stored_over, List.length_append, textgate_length_stored, ih, List.length_cons]
    omega

theorem four_of_length (C : List Int) (n : Nat) (h : C.length = 4 * (n + 1)) :
    ∃ x0 x1 x2 x3 C', C = x0 :: x1 :: x2 :: x3 :: C' ∧ C'.length = 4 * n := by
  match C, h with
  | x0 :: x1 :: x2 :: x3 :: C', h =>
    refine ⟨x0, x1, x2, x3, C', rfl, ?_⟩
    simp only [List.length_cons] at h
    omega

/-- The loop of `from_stream` over the tokens of a list of gates whose integers
fit `int`, started at gate i on a vector whose next `4 * gs.length` slots are
C: all tokens are consumed and the tuples are stored over C. -/
theorem parse_gates_run (gs : List TextGate) :
    ∀ (i : Nat) (tmp : Option Int) (A C B : List Int) (tl : List Token),
      (∀ t ∈ gs, t.fits) → A.length = 4 * i → C.length = 4 * gs.length →
      (A ++ C ++ B).length < 2 ^ 31 →
      ∃ tmp', parse_gates gs.length i ⟨⟨gs.flatMap TextGate.tokens ++ tl, false⟩, tmp, A ++ C ++ B⟩
        = some ⟨⟨tl, false⟩, tmp', A ++ stored_over gs C ++ B⟩ := by
  induction gs with
  | nil =>
    intro i tmp A C B tl _ _ hC _
    have hC0 : C = [] := List.eq_nil_of_length_eq_zero (by simpa using hC)
    subst hC0
    exact ⟨tmp, rfl⟩
  | cons t ts ih =>
    intro i tmp A C B tl hfit hA hC hl
    obtain ⟨x0, x1, x2, x3, C', rfl, hC'⟩ := four_of_length C ts.length (by simpa using hC)
    have e : A ++ x0 :: x1 :: x2 :: x3 :: C' ++ B = A ++ x0 :: x1 :: x2 :: x3 :: (C' ++ B) := by
      simp
    have hstep := parse_gate_tokens t (hfit t (List.mem_cons_self _ _))
      (ts.flatMap TextGate.tokens ++ tl) tmp i A (C' ++ B) x0 x1 x2 x3 hA (by rw [← e]; exact hl)
    have hl' : (A ++ t.stored x1 ++ C' ++ B).length < 2 ^ 31 := by
      simp only [List.length_append, List.length_cons, textgate_length_stored] at hl ⊢
      omega
    obtain ⟨tmp', h'⟩ := ih (i + 1) (some t.count) (A ++ t.stored x1) C' B tl
      (fun u hu => hfit u (List.mem_cons_of_mem _ hu))
      (by rw [List.length_append, textgate_length_stored, hA]; omega) hC' hl'
    refine ⟨tmp', ?_⟩
    simp only [List.length_cons, parse_gates, List.flatMap_cons, List.append_assoc,
      List.cons_append]
    simp only [List.append_assoc] at hstep h'
    rw [hstep]
    simp only [Option.some_bind]
    rw [h']
    simp [stored_over]

theorem stored_over_zeros (gs : List TextGate) :
    ∀ n : Nat, stored_over gs (List.replicate n 0) = gs.flatMap (TextGate.stored 0) := by
  induction gs with
  | nil => intro n; rfl
  | cons t ts ih =>
    intro n
    have h1 : (List.replicate n (0 : Int)).getD 1 0 = 0 := by
      rw [List.getD_eq_getElem?_getD, List.getElem?_replicate]
      split <;> rfl
    simp only [stored_over, List.flatMap_cons, h1, List.drop_replicate, ih]

/-- The tuple stored for gate i by `stored_over`. -/
theorem stored_over_chunk (gs : List TextGate) :
    ∀ (old : List Int) (i : Nat) (hi : i < gs.length),
      ((stored_over gs old).drop (4 * i)).take 4
        = (gs.get ⟨i, hi⟩).stored (old.getD (4 * i + 1) 0) := by
  induction gs with
  | nil => intro old i hi; simp at hi
  | cons t ts ih =>
    intro old i hi
    cases i with
    | zero =>
      simp only [stored_over, Nat.mul_zero, List.drop_zero, List.get_eq_getElem,
        List.getElem_cons_zero, Nat.zero_add]
      rw [List.take_left' (textgate_length_stored _ t)]
    | succ j =>
      have hj : j < ts.length := by simpa using hi
      have h4 : 4 * (j + 1) = (t.stored (old.getD 1 0)).length + 4 * j := by
        rw [textgate_length_stored]; omega
      have hd : (old.drop 4).getD (4 * j + 1) 0 = old.getD (4 * (j + 1) + 1) 0 := by
        rw [List.getD_eq_getElem?_getD, List.getD_eq_getElem?_getD, List.getElem?_drop]
        congr 2
        omega
      have key : (t.stored (old.getD 1 0) ++ stored_over ts (old.drop 4)).drop (4 * (j + 1))
          = (stored_over ts (old.drop 4)).drop (4 * j) := by
        rw [h4, List.drop_append]
      simp only [stored_over, List.get_eq_getElem, List.getElem_cons_succ]
      rw [key, ← hd]
      exact ih (old.drop 4) j hj

theorem from_stream_header {β : Type} [Inhabited β] (self : BristolFormat β)
    (ng nw n1 n2 n3 : Int) (toks : List Token)
    (h0 : int_ok ng = true) (h1 : int_ok nw = true) (h2 : int_ok n1 = true)
    (h3 : int_ok n2 = true) (h4 : int_ok n3 = true) :
    self.from_stream ⟨.int ng :: .int nw :: .int n1 :: .int n2 :: .int n3 :: toks, false⟩
      = if int_ok (ng * 4) then
          match vec_resize self.gates (ng * 4) 0 with
          | none => (.threw .length_error, ⟨ng, nw, n1, n2, n3, self.gates, self.wires⟩)
          | some gates =>
            match vec_resize self.wires nw default with
            | none => (.threw .length_error, ⟨ng, nw, n1, n2, n3, gates, self.wires⟩)
            | some wires =>
              match parse_gates ng.toNat 0 ⟨⟨toks, false⟩, none, gates⟩ with
              | none => (.undefined, ⟨ng, nw, n1, n2, n3, gates, wires⟩)
              | some ts => (.ok, ⟨ng, nw, n1, n2, n3, ts.gates, wires⟩)
        else (.undefined, ⟨ng, nw, n1, n2, n3, self.gates, self.wires⟩) := by
  unfold BristolFormat.from_stream
  simp only [read_int_int _ _ h0, read_int_int _ _ h1, read_int_int _ _ h2, read_int_int _ _ h3,
    read_int_int _ _ h4, Option.getD_some]

/-- The call `from_stream` on the tokens of a textual description whose header
gives the number of gates that follow, with every integer inside `int`, fewer
than `2^29` gates and a non-negative wire count: it returns normally, the
header is stored, `gates` holds the tuples of the gates stored over the
resized vector, and `wires` is resized to `num_wire`. -/
theorem from_stream_tokens {β : Type} [Inhabited β] (self : BristolFormat β)
    (nw n1 n2 n3 : Int) (gs : List TextGate)
    (hg : gs.length < 2 ^ 29) (h1 : int_ok nw = true) (hw : 0 ≤ nw) (h2 : int_ok n1 = true)
    (h3 : int_ok n2 = true) (h4 : int_ok n3 = true) (hfit : ∀ t ∈ gs, t.fits) :
    self.from_stream ⟨text_tokens (gs.length : Int) nw n1 n2 n3 gs, false⟩
      = (.ok, ⟨(gs.length : Int), nw, n1, n2, n3,
          stored_over gs (self.gates.take (4 * gs.length)
            ++ List.replicate (4 * gs.length - self.gates.length) 0),
          self.wires.take nw.toNat ++ List.replicate (nw.toNat - self.wires.length) default⟩) := by
  have e4 : (gs.length : Int) * 4 = ((4 * gs.length : Nat) : Int) := by push_cast; ring
  have ew : nw = ((nw.toNat : Nat) : Int) := by omega
  unfold text_tokens
  simp only [List.cons_append, List.nil_append]
  rw [from_stream_header self _ nw n1 n2 n3 _ (int_ok_ofNat _ (by omega)) h1 h2 h3 h4, e4,
    if_pos (int_ok_ofNat _ (by omega)), vec_resize_nonneg]
  dsimp only
  rw [ew, vec_resize_nonneg, ← ew]
  dsimp only
  rw [Int.toNat_ofNat]
  have hrun := parse_gates_run gs 0 none []
    (self.gates.take (4 * gs.length) ++ List.replicate (4 * gs.length - self.gates.length) 0)
    [] [] hfit rfl (length_resized _ _ _)
    (by
      rw [List.nil_append, List.append_nil, length_resized]
      omega)
  obtain ⟨tmp', hrun⟩ := hrun
  simp only [List.nil_append, List.append_nil] at hrun
  rw [hrun]

/-- The call `from_stream` on the same tokens when the wire count is negative:
`wires.resize` throws `std::length_error` after the header members are
assigned and `gates` is resized. -/
theorem from_stream_negative_wires {β : Type} [Inhabited β] (self : BristolFormat β)
    (nw n1 n2 n3 : Int) (gs : List TextGate)
    (hg : gs.length < 2 ^ 29) (h1 : int_ok nw = true) (hw : nw < 0) (h2 : int_ok n1 = true)
    (h3 : int_ok n2 = true) (h4 : int_ok n3 = true) :
    self.from_stream ⟨text_tokens (gs.length : Int) nw n1 n2 n3 gs, false⟩
      = (.threw .length_error, ⟨(gs.length : Int), nw, n1, n2, n3,
          self.gates.take (4 * gs.length)
            ++ List.replicate (4 * gs.length - self.gates.length) 0, self.wires⟩) := by
  have e4 : (gs.length : Int) * 4 = ((4 * gs.length : Nat) : Int) := by push_cast; ring
  unfold text_tokens
  simp only [List.cons_append, List.nil_append]
  rw [from_stream_header self _ nw n1 n2 n3 _ (int_ok_ofNat _ (by omega)) h1 h2 h3 h4, e4,
    if_pos (int_ok_ofNat _ (by omega)), vec_resize_nonneg]
  dsimp only
  have hr : vec_resize self.wires nw (default : β) = none := by
    unfold vec_resize
    rw [if_pos hw]
  rw [hr]

theorem word_of_int_val (n : Int) : (Word.of_int n).val = (n % 4294967296).toNat := by
  have hm : (n % 4294967296).toNat < 4294967296 := by omega
  simp only [Word.of_int, Word.val]
  omega

theorem to_int_word_of_int (n : Int) (h : int_ok n = true) : to_int (Word.of_int n).val = n := by
  rw [int_ok_iff] at h
  rw [word_of_int_val]
  unfold to_int
  have hm : (n % 4294967296).toNat < 4294967296 := by omega
  rw [Nat.mod_eq_of_lt (by omega)]
  split <;> omega

theorem word_of_int_val_nonneg (n : Int) (h : int_ok n = true) (h0 : 0 ≤ n) :
    (Word.of_int n).val = n.toNat := by
  rw [int_ok_iff] at h
  rw [word_of_int_val]
  omega

theorem textgate_record_stored (t : TextGate) (ht : t.fits) : t.record.stored = t.stored 0 := by
  cases t with
  | and k a b o =>
    obtain ⟨_, ha, hb, ho⟩ := ht
    simp only [TextGate.record, Record.stored, TextGate.stored, to_int_word_of_int _ ha,
      to_int_word_of_int _ hb, to_int_word_of_int _ ho]
  | xor k a b o =>
    obtain ⟨_, ha, hb, ho⟩ := ht
    simp only [TextGate.record, Record.stored, TextGate.stored, to_int_word_of_int _ ha,
      to_int_word_of_int _ hb, to_int_word_of_int _ ho]
  | not k a o ty =>
    obtain ⟨_, ha, ho⟩ := ht
    simp only [TextGate.record, Record.stored, TextGate.stored, to_int_word_of_int _ ha,
      to_int_word_of_int _ ho]

theorem flatMap_record_stored (gs : List TextGate) (hfit : ∀ t ∈ gs, t.fits) :
    (gs.map TextGate.record).flatMap Record.stored = gs.flatMap (TextGate.stored 0) := by
  induction gs with
  | nil => rfl
  | cons t ts ih =>
    simp only [List.map_cons, List.flatMap_cons]
    rw [textgate_record_stored t (hfit t (List.mem_cons_self _ _)),
      ih (fun u hu => hfit u (List.mem_cons_of_mem _ hu))]

theorem length_flatMap_bytes_le (recs : List Record) :
    (recs.flatMap Record.bytes).length ≤ 13 * recs.length := by
  induction recs with
  | nil => simp
  | cons r rs ih =>
    have hr : r.bytes.length ≤ 13 := by
      cases r <;> simp [Record.bytes, Word.bytes]
    simp only [List.flatMap_cons, List.length_append, List.length_cons]
    omega

/-- The call `from_buffer` on the binary encoding of a circuit whose wire count
is negative: `wires.resize` throws `std::length_error` after the header members
are assigned and `gates` is resized. -/
theorem from_buffer_negative_wires {β : Type} [Inhabited β] (self : BristolFormat β)
    (nw n1 n2 n3 : Int) (gs : List TextGate)
    (hsz : 13 * gs.length + 20 < 2 ^ 31) (h1 : int_ok nw = true) (hw : nw < 0)
    (h2 : int_ok n1 = true) (h3 : int_ok n2 = true) (h4 : int_ok n3 = true) :
    self.from_buffer (binary_bytes (gs.length : Int) nw n1 n2 n3 gs)
        (binary_bytes (gs.length : Int) nw n1 n2 n3 gs).length
      = (.threw .length_error, ⟨(gs.length : Int), nw, n1, n2, n3,
          self.gates.take (4 * gs.length)
            ++ List.replicate (4 * gs.length - self.gates.length) 0, self.wires⟩) := by
  have hg : int_ok (gs.length : Int) = true := int_ok_ofNat _ (by omega)
  have e4 : (gs.length : Int) * 4 = ((4 * gs.length : Nat) : Int) := by push_cast; ring
  have hr := header_reads (Header.mk (Word.of_int (gs.length : Int)) (Word.of_int nw)
    (Word.of_int n1) (Word.of_int n2) (Word.of_int n3))
    ((gs.map TextGate.record).flatMap Record.bytes)
  obtain ⟨r0, r1, r2, r3, r4⟩ := hr
  have hlen : 20 ≤ (binary_bytes (gs.length : Int) nw n1 n2 n3 gs).length := by
    unfold binary_bytes
    rw [List.length_append, header_length_bytes]
    omega
  unfold binary_bytes at hlen ⊢
  rw [from_buffer_of_reads self _ _ _ _ _ _ _ hlen r0 r1 r2 r3 r4]
  unfold from_buffer_after_header
  dsimp only
  rw [to_int_word_of_int _ hg, to_int_word_of_int _ h1, to_int_word_of_int _ h2,
    to_int_word_of_int _ h3, to_int_word_of_int _ h4, e4,
    if_pos (int_ok_ofNat _ (by omega)), vec_resize_nonneg]
  dsimp only
  have hres : vec_resize self.wires nw (default : β) = none := by
    unfold vec_resize
    rw [if_pos hw]
  rw [hres]

/-- C13: for every header and every list of AND/XOR/NOT gates with integers
inside `int` (a binary encoding shorter than `2^31` bytes), a fresh
`BristolFormat` filled by `from_buffer` from the binary encoding and one filled
by `from_stream` from the textual description end in the same way with the
same members; when the wire count is not negative both return normally with
the header stored, the gate tuples in `gates` (0 in the `in_b` slot of a NOT
gate) and `num_wire` wires. -/
theorem from_stream_agrees_with_from_buffer {β : Type} [Inhabited β] (g w a b c : Int)
    (nw n1 n2 n3 : Int) (gs : List TextGate)
    (hsz : 13 * gs.length + 20 < 2 ^ 31) (h1 : int_ok nw = true)
    (h2 : int_ok n1 = true) (h3 : int_ok n2 = true) (h4 : int_ok n3 = true)
    (hfit : ∀ t ∈ gs, t.fits) :
    (⟨g, w, a, b, c, [], []⟩ : BristolFormat β).from_buffer
        (binary_bytes (gs.length : Int) nw n1 n2 n3 gs)
        (binary_bytes (gs.length : Int) nw n1 n2 n3 gs).length
      = (⟨g, w, a, b, c, [], []⟩ : BristolFormat β).from_stream
          ⟨text_tokens (gs.length : Int) nw n1 n2 n3 gs, false⟩
    ∧ (0 ≤ nw →
        (⟨g, w, a, b, c, [], []⟩ : BristolFormat β).from_stream
            ⟨text_tokens (gs.length : Int) nw n1 n2 n3 gs, false⟩
          = (.ok, ⟨(gs.length : Int), nw, n1, n2, n3, gs.flatMap (TextGate.stored 0),
              List.replicate nw.toNat default⟩)) := by
  have hg29 : gs.length < 2 ^ 29 := by omega
  have hg : int_ok (gs.length : Int) = true := int_ok_ofNat _ (by omega)
  have hok : 0 ≤ nw →
      (⟨g, w, a, b, c, [], []⟩ : BristolFormat β).from_stream
          ⟨text_tokens (gs.length : Int) nw n1 n2 n3 gs, false⟩
        = (.ok, ⟨(gs.length : Int), nw, n1, n2, n3, gs.flatMap (TextGate.stored 0),
            List.replicate nw.toNat default⟩) := by
    intro hw
    rw [from_stream_tokens _ nw n1 n2 n3 gs hg29 h1 hw h2 h3 h4 hfit]
    simp only [List.take_nil, List.nil_append, List.length_nil, Nat.sub_zero, stored_over_zeros]
  refine ⟨?_, hok⟩
  by_cases hw : 0 ≤ nw
  · rw [hok hw]
    unfold binary_bytes
    have hlen := length_flatMap_bytes_le (gs.map TextGate.record)
    rw [List.length_map] at hlen
    rw [from_buffer_layout _ _ (gs.map TextGate.record)
      (by
        show (Word.of_int (gs.length : Int)).val = (gs.map TextGate.record).length
        rw [word_of_int_val_nonneg _ hg (by omega), List.length_map, Int.toNat_ofNat])
      (by
        show (Word.of_int nw).val < 2 ^ 31
        rw [word_of_int_val_nonneg _ h1 hw]
        rw [int_ok_iff] at h1
        omega)
      (by
        rw [List.length_append, header_length_bytes]
        omega)]
    dsimp only
    rw [List.length_map, flatMap_record_stored gs hfit, word_of_int_val_nonneg _ h1 hw,
      to_int_word_of_int _ h2, to_int_word_of_int _ h3, to_int_word_of_int _ h4,
      Int.toNat_of_nonneg hw]
    simp only [List.take_nil, List.nil_append, List.length_nil, Nat.sub_zero]
  · rw [from_buffer_negative_wires _ nw n1 n2 n3 gs hsz h1 (by omega) h2 h3 h4,
      from_stream_negative_wires _ nw n1 n2 n3 gs hg29 h1 (by omega) h2 h3 h4]

theorem from_stream_agrees_with_from_buffer_witness :
    (⟨7, 7, 7, 7, 7, [], []⟩ : BristolFormat Bool).from_buffer
        (binary_bytes 2 4 1 1 1 [.xor 1 0 1 2, .not 1 2 3 (.word 'I')])
        (binary_bytes 2 4 1 1 1 [.xor 1 0 1 2, .not 1 2 3 (.word 'I')]).length
      = (⟨7, 7, 7, 7, 7, [], []⟩ : BristolFormat Bool).from_stream
          ⟨text_tokens 2 4 1 1 1 [.xor 1 0 1 2, .not 1 2 3 (.word 'I')], false⟩ :=
  (from_stream_agrees_with_from_buffer 7 7 7 7 7 4 1 1 1 [.xor 1 0 1 2, .not 1 2 3 (.word 'I')]
    (by decide) (by decide) (by decide) (by decide) (by decide)
    (by
      intro t ht
      simp only [List.mem_cons, List.mem_singleton, List.not_mem_nil, or_false] at ht
      rcases ht with rfl | rfl
      · exact ⟨by decide, by decide, by decide, by decide⟩
      · exact ⟨by decide, by decide, by decide⟩)).1

/-- C14 (amended): for every token stream `num_gate num_wire n1 n2 n3` followed,
for each gate, by the six tokens `2 <k> <in1> <in2> <out> <TYPE>` (TYPE
beginning with `A` or `X`) or the five tokens `1 <k> <in> <out> <TYPE>`, where
k is one more integer token, `num_gate` is the number of gates that follow
(below `2^29`), `num_wire` is not negative and every integer fits `int`,
`from_stream` returns normally with the header stored and `4 * num_gate`
entries in `gates`, gate i being `(in1, in2, out, AND)`, `(in1, in2, out, XOR)`
or, for the one-input form, `(in, x, out, NOT)` where x is what the slot `in_b`
held after the resize. -/
theorem from_stream_stores_six_token_gates {β : Type} [Inhabited β] (self : BristolFormat β)
    (nw n1 n2 n3 : Int) (gs : List TextGate)
    (hg : gs.length < 2 ^ 29) (h1 : int_ok nw = true) (hw : 0 ≤ nw) (h2 : int_ok n1 = true)
    (h3 : int_ok n2 = true) (h4 : int_ok n3 = true) (hfit : ∀ t ∈ gs, t.fits) :
    (self.from_stream ⟨text_tokens (gs.length : Int) nw n1 n2 n3 gs, false⟩).1 = .ok
    ∧ (self.from_stream ⟨text_tokens (gs.length : Int) nw n1 n2 n3 gs, false⟩).2.num_gate
        = (gs.length : Int)
    ∧ (self.from_stream ⟨text_tokens (gs.length : Int) nw n1 n2 n3 gs, false⟩).2.num_wire = nw
    ∧ (self.from_stream ⟨text_tokens (gs.length : Int) nw n1 n2 n3 gs, false⟩).2.n1 = n1
    ∧ (self.from_stream ⟨text_tokens (gs.length : Int) nw n1 n2 n3 gs, false⟩).2.n2 = n2
    ∧ (self.from_stream ⟨text_tokens (gs.length : Int) nw n1 n2 n3 gs, false⟩).2.n3 = n3
    ∧ (self.from_stream ⟨text_tokens (gs.length : Int) nw n1 n2 n3 gs, false⟩).2.gates.length
        = 4 * gs.length
    ∧ ∀ (i : Nat) (hi : i < gs.length),
        (((self.from_stream ⟨text_tokens (gs.length : Int) nw n1 n2 n3 gs, false⟩).2.gates.drop
            (4 * i)).take 4
          = match gs.get ⟨i, hi⟩ with
            | .and _ x y o => [x, y, o, AND_GATE]
            | .xor _ x y o => [x, y, o, XOR_GATE]
            | .not _ x o _ =>
              [x, (self.gates.take (4 * gs.length)
                    ++ List.replicate (4 * gs.length - self.gates.length) 0).getD (4 * i + 1) 0,
                o, NOT_GATE]) := by
  rw [from_stream_tokens self nw n1 n2 n3 gs hg h1 hw h2 h3 h4 hfit]
  refine ⟨rfl, rfl, rfl, rfl, rfl, rfl, length_stored_over gs _, ?_⟩
  intro i hi
  dsimp only
  rw [stored_over_chunk gs _ i hi]
  cases gs.get ⟨i, hi⟩ <;> rfl

theorem from_stream_stores_six_token_gates_witness :
    ((⟨7, 7, 7, 7, 7, [], []⟩ : BristolFormat Bool).from_stream
        ⟨text_tokens 2 4 1 1 1 [.xor 1 0 1 2, .not 1 2 3 (.word 'I')], false⟩).1 = .ok :=
  (from_stream_stores_six_token_gates (⟨7, 7, 7, 7, 7, [], []⟩ : BristolFormat Bool) 4 1 1 1
    [.xor 1 0 1 2, .not 1 2 3 (.word 'I')] (by decide) (by decide) (by decide) (by decide)
    (by decide) (by decide)
    (by
      intro t ht
      simp only [List.mem_cons, List.mem_singleton, List.not_mem_nil, or_false] at ht
      rcases ht with rfl | rfl
      · exact ⟨by decide, by decide, by decide, by decide⟩
      · exact ⟨by decide, by decide, by decide⟩)).1

/-- C15 (counterexample): on the text `0 0  2 1073741824 1073741824  0`, whose
two input group sizes sum to `2^31`, the addition `num_input += tmp` leaves
`int`: the call has no defined result, and no `int` member can hold the sum. -/
theorem from_file_group_sum_overflows :
    ((⟨0, 0, 0, 0, [], []⟩ : BristolFashion Bool).from_file
        (fashion_tokens 0 0 [1073741824, 1073741824] [] [])).1 = .undefined
    ∧ int_ok (1073741824 + 1073741824) = false := by
  decide

theorem scan_int_lit (n : Int) (tl : List FileToken) (h : int_ok n = true) :
    scan_int (.int n :: tl) = some (tl, some n) := by
  simp only [scan_int, h, if_true]

theorem scan_str_word (c : Char) (len : Nat) (tl : List FileToken) (old : Option Char)
    (h : len < 10) : scan_str (.word c len :: tl) old = some (tl, some c) := by
  simp only [scan_str, FileToken.len, FileToken.first, h, if_true]

/-- A summing loop of `from_file` over as many integer tokens as it has passes,
when the summands and the running sums fit `int`: the tokens are consumed and
their sum is added to the accumulator. -/
theorem sum_groups_run (xs : List Int) :
    ∀ (acc : Int) (tmp : Option Int) (tl : List FileToken), sums_fit acc xs = true →
      ∃ tmp', sum_groups xs.length (xs.map FileToken.int ++ tl) tmp acc
        = some (tl, tmp', acc + xs.sum) := by
  induction xs with
  | nil =>
    intro acc tmp tl _
    exact ⟨tmp, by simp [sum_groups]⟩
  | cons x xs ih =>
    intro acc tmp tl h
    simp only [sums_fit, Bool.and_eq_true] at h
    obtain ⟨⟨hx, hax⟩, hrest⟩ := h
    obtain ⟨tmp', h'⟩ := ih (acc + x) (some x) tl hrest
    refine ⟨tmp', ?_⟩
    simp only [List.length_cons, sum_groups, List.map_cons, List.cons_append,
      scan_int_lit _ _ hx, Option.some_bind, Option.orElse, hax, if_true, h', List.sum_cons,
      Int.add_assoc]

theorem put_some (gates : List Int) (idx : Int) (k : Nat) (x : Int) (hidx : idx = (k : Int))
    (hk : k < gates.length) : put gates idx (some x) = some (gates.set k x) := by
  subst hidx
  show vec_set gates (k : Int) x = _
  unfold vec_set
  rw [if_pos ⟨by omega, by rw [Int.toNat_ofNat]; exact hk⟩, Int.toNat_ofNat]

theorem put_type_eq (st : FileState) (i : Nat) (op : Int)
    (hk : 4 * i + 3 < st.gates.length) (hl : st.gates.length < 2 ^ 31) :
    put_type st i op = some { st with gates := st.gates.set (4 * i + 3) op } := by
  unfold put_type
  have e : 4 * (i : Int) + 3 = ((4 * i + 3 : Nat) : Int) := by push_cast; ring
  rw [e, if_pos (int_ok_ofNat _ (by omega))]
  unfold vec_set
  rw [if_pos ⟨by omega, by rw [Int.toNat_ofNat]; exact hk⟩, Int.toNat_ofNat]
  rfl

/-- One pass of the gate loop of `from_file` over the tokens of one gate that
fits: the tokens are consumed and the tuple of the gate is stored. -/
theorem scan_gate_tokens (t : FashionGate) (ht : t.fits) (tl : List FileToken)
    (tmp : Option Int) (str : Option Char) (i : Nat) (A B : List Int) (hA : A.length = 4 * i)
    (hl : (A ++ 0 :: 0 :: 0 :: 0 :: B).length < 2 ^ 31) :
    ∃ tmp' str', scan_gate i ⟨t.tokens ++ tl, tmp, str, A ++ 0 :: 0 :: 0 :: 0 :: B⟩
      = some ⟨tl, tmp', str', A ++ t.stored ++ B⟩ := by
  have hlen : (A ++ 0 :: 0 :: 0 :: 0 :: B).length = 4 * i + 4 + B.length := by
    simp only [List.length_append, List.length_cons]; omega
  have e1 : int_ok 1 = true := by decide
  have e2 : int_ok 2 = true := by decide
  have c0 : 4 * (i : Int) = ((4 * i : Nat) : Int) := by push_cast; ring
  have c1 : 4 * (i : Int) + 1 = ((4 * i + 1 : Nat) : Int) := by push_cast; ring
  have c2 : 4 * (i : Int) + 2 = ((4 * i + 2 : Nat) : Int) := by push_cast; ring
  have hok2 : int_ok (4 * (i : Int) + 2) = true := by
    rw [c2]; exact int_ok_ofNat _ (by omega)
  have hget : ∃ v, vec_get (A ++ 0 :: 0 :: 0 :: 0 :: B) (4 * (i : Int) + 2) = some v := by
    have hlt : 4 * i + 2 < (A ++ 0 :: 0 :: 0 :: 0 :: B).length := by omega
    refine ⟨(A ++ 0 :: 0 :: 0 :: 0 :: B)[4 * i + 2], ?_⟩
    rw [c2]
    unfold vec_get
    rw [if_pos (by omega), Int.toNat_ofNat, List.getElem?_eq_getElem]
  obtain ⟨v2, hget⟩ := hget
  cases t with
  | and k a b o len =>
    obtain ⟨hk, ha, hb, ho, hlen9⟩ := ht
    refine ⟨some k, some 'A', ?_⟩
    unfold scan_gate
    simp only [FashionGate.tokens, List.cons_append, List.nil_append, scan_int_lit _ _ e2,
      Option.some_bind, Option.orElse, if_true, hok2, hget, scan_ints, scan_int_lit _ _ hk,
      scan_int_lit _ _ ha, scan_int_lit _ _ hb, scan_int_lit _ _ ho, Option.map_some',
      List.getElem?_cons_succ, List.getElem?_cons_zero, List.length_cons, List.length_nil,
      Option.getD_some]
    rw [put_some _ _ (4 * i) a c0 (by omega)]
    simp only [Option.some_bind]
    rw [put_some _ _ (4 * i + 1) b c1 (by rw [List.length_set]; omega)]
    simp only [Option.some_bind]
    rw [put_some _ _ (4 * i + 2) o c2 (by simp only [List.length_set]; omega)]
    simp only [Option.some_bind, scan_str_word _ _ _ _ hlen9, if_true]
    rw [put_type_eq _ _ _ (by simp only [List.length_set]; omega)
      (by simp only [List.length_set]; exact hl)]
    dsimp only
    rw [← hA, set4_append]
    simp [FashionGate.stored]
  | xor k a b o len =>
    obtain ⟨hk, ha, hb, ho, hlen9⟩ := ht
    refine ⟨some k, some 'X', ?_⟩
    unfold scan_gate
    simp only [FashionGate.tokens, List.cons_append, List.nil_append, scan_int_lit _ _ e2,
      Option.some_bind, Option.orElse, if_true, hok2, hget, scan_ints, scan_int_lit _ _ hk,
      scan_int_lit _ _ ha, scan_int_lit _ _ hb, scan_int_lit _ _ ho, Option.map_some',
      List.getElem?_cons_succ, List.getElem?_cons_zero, List.length_cons, List.length_nil,
      Option.getD_some]
    rw [put_some _ _ (4 * i) a c0 (by omega)]
    simp only [Option.some_bind]
    rw [put_some _ _ (4 * i + 1) b c1 (by rw [List.length_set]; omega)]
    simp only [Option.some_bind]
    rw [put_some _ _ (4 * i + 2) o c2 (by simp only [List.length_set]; omega)]
    simp only [Option.some_bind, scan_str_word _ _ _ _ hlen9]
    rw [if_neg (by decide)]
    simp only [if_true]
    rw [put_type_eq _ _ _ (by simp only [List.length_set]; omega)
      (by simp only [List.length_set]; exact hl)]
    dsimp only
    rw [← hA, set4_append]
    simp [FashionGate.stored]
  | not k a o c len =>
    obtain ⟨hk, ha, ho, hlen9⟩ := ht
    refine ⟨some k, some c, ?_⟩
    unfold scan_gate
    simp only [FashionGate.tokens, List.cons_append, List.nil_append, scan_int_lit _ _ e1,
      Option.some_bind, Option.orElse]
    rw [if_neg (by decide)]
    simp only [if_true, hok2, hget, scan_ints, scan_int_lit _ _ hk,
      scan_int_lit _ _ ha, scan_int_lit _ _ ho, Option.map_some', Option.some_bind,
      List.getElem?_cons_succ, List.getElem?_cons_zero, List.length_cons, List.length_nil,
      Option.getD_some]
    rw [put_some _ _ (4 * i) a c0 (by omega)]
    simp only [Option.some_bind]
    rw [put_some _ _ (4 * i + 2) o c2 (by simp only [List.length_set]; omega)]
    simp only [Option.some_bind, scan_str_word _ _ _ _ hlen9]
    rw [put_type_eq _ _ _ (by simp only [List.length_set]; omega)
      (by simp only [List.length_set]; exact hl)]
    dsimp only
    rw [← hA, set3_append]
    simp [FashionGate.stored]

theorem fashiongate_length_stored (t : FashionGate) : t.stored.length = 4 := by
  cases t <;> rfl

theorem length_flatMap_fashion_stored (gs : List FashionGate) :
    (gs.flatMap FashionGate.stored).length = 4 * gs.length := by
  induction gs with
  | nil => rfl
  | cons t ts ih =>
    simp only [List.flatMap_cons, List.length_append, fashiongate_length_stored, ih,
      List.length_cons]
    omega

/-- The gate loop of `from_file` over the tokens of a list of gates that fit,
started at gate i on a vector whose next `4 * gs.length` slots hold 0: all
tokens are consumed and the tuples are stored. -/
theorem scan_gates_run (gs : List FashionGate) :
    ∀ (i : Nat) (tmp : Option Int) (str : Option Char) (A B : List Int) (tl : List FileToken),
      (∀ t ∈ gs, t.fits) → A.length = 4 * i →
      (A ++ List.replicate (4 * gs.length) 0 ++ B).length < 2 ^ 31 →
      ∃ tmp' str', scan_gates gs.length i
          ⟨gs.flatMap FashionGate.tokens ++ tl, tmp, str,
            A ++ List.replicate (4 * gs.length) 0 ++ B⟩
        = some ⟨tl, tmp', str', A ++ gs.flatMap FashionGate.stored ++ B⟩ := by
  induction gs with
  | nil =>
    intro i tmp str A B tl _ _ _
    exact ⟨tmp, str, by simp [scan_gates]⟩
  | cons t ts ih =>
    intro i tmp str A B tl hfit hA hl
    have hrep : List.replicate (4 * (t :: ts).length) (0 : Int)
        = 0 :: 0 :: 0 :: 0 :: List.replicate (4 * ts.length) 0 := by
      rw [List.length_cons, show 4 * (ts.length + 1) = 4 * ts.length + 1 + 1 + 1 + 1 by omega]
      rfl
    rw [hrep] at hl ⊢
    have e : A ++ 0 :: 0 :: 0 :: 0 :: List.replicate (4 * ts.length) 0 ++ B
        = A ++ 0 :: 0 :: 0 :: 0 :: (List.replicate (4 * ts.length) 0 ++ B) := by
      simp
    have hstep := scan_gate_tokens t (hfit t (List.mem_cons_self _ _))
      (ts.flatMap FashionGate.tokens ++ tl) tmp str i A (List.replicate (4 * ts.length) 0 ++ B)
      hA (by rw [← e]; exact hl)
    obtain ⟨tmp1, str1, hstep⟩ := hstep
    have hl' : (A ++ t.stored ++ List.replicate (4 * ts.length) 0 ++ B).length < 2 ^ 31 := by
      simp only [List.length_append, List.length_cons, fashiongate_length_stored] at hl ⊢
      omega
    obtain ⟨tmp', str', h'⟩ := ih (i + 1) tmp1 str1 (A ++ t.stored) B tl
      (fun u hu => hfit u (List.mem_cons_of_mem _ hu))
      (by rw [List.length_append, fashiongate_length_stored, hA]; omega) hl'
    refine ⟨tmp', str', ?_⟩
    simp only [List.length_cons, scan_gates, List.flatMap_cons, List.append_assoc,
      List.cons_append]
    simp only [List.append_assoc] at hstep h'
    rw [hstep]
    simp only [Option.some_bind]
    rw [h']

theorem scan_ints_two (a b : Int) (tl : List FileToken) (ha : int_ok a = true)
    (hb : int_ok b = true) : scan_ints 2 (.int a :: .int b :: tl) = some (tl, [a, b]) := by
  simp only [scan_ints, scan_int_lit _ _ ha, scan_int_lit _ _ hb, Option.some_bind,
    Option.map_some']

/-- The call `from_file` of a fresh `BristolFashion` on a generalized-I/O text
whose header gives the number of gates that follow (below `2^29`) and a
non-negative wire count, whose group sizes and running sums fit `int`, and
whose gates fit: it returns normally, with the sums of the group sizes in
`num_input` and `num_output`. -/
theorem from_file_tokens {β : Type} [Inhabited β] (nw : Int) (ins outs : List Int)
    (gs : List FashionGate)
    (hg : gs.length < 2 ^ 29) (h1 : int_ok nw = true) (hw : 0 ≤ nw)
    (hp : ins.length < 2 ^ 31) (hq : outs.length < 2 ^ 31)
    (hins : sums_fit 0 ins = true) (houts : sums_fit 0 outs = true)
    (hfit : ∀ t ∈ gs, t.fits) :
    (⟨0, 0, 0, 0, [], []⟩ : BristolFashion β).from_file
        (fashion_tokens (gs.length : Int) nw ins outs gs)
      = (.ok, ⟨(gs.length : Int), nw, ins.sum, outs.sum, gs.flatMap FashionGate.stored,
          List.replicate nw.toNat default⟩) := by
  have e4 : (gs.length : Int) * 4 = ((4 * gs.length : Nat) : Int) := by push_cast; ring
  have ew : nw = ((nw.toNat : Nat) : Int) := by omega
  obtain ⟨t1, hs1⟩ := sum_groups_run ins 0 none
    (.int (outs.length : Int) :: (outs.map FileToken.int ++ gs.flatMap FashionGate.tokens)) hins
  obtain ⟨t2, hs2⟩ := sum_groups_run outs 0 t1 (gs.flatMap FashionGate.tokens) houts
  obtain ⟨t3, s3, hs3⟩ := scan_gates_run gs 0 t2 none [] [] [] hfit rfl
    (by simp only [List.nil_append, List.append_nil, List.length_replicate]; omega)
  simp only [List.nil_append, List.append_nil, Int.zero_add] at hs1 hs2 hs3
  unfold fashion_tokens BristolFashion.from_file
  simp only [List.cons_append, List.nil_append, List.append_assoc,
    scan_ints_two _ _ _ (int_ok_ofNat _ (show gs.length < 2 ^ 31 by omega)) h1,
    scan_int_lit _ _ (int_ok_ofNat _ hp), Option.getD_some, Int.toNat_ofNat,
    List.getElem?_cons_zero, List.getElem?_cons_succ, hs1,
    scan_int_lit _ _ (int_ok_ofNat _ hq), hs2]
  rw [e4, if_pos (int_ok_ofNat _ (by omega)), vec_resize_nonneg]
  dsimp only
  rw [ew, vec_resize_nonneg, ← ew]
  dsimp only
  simp only [List.take_nil, List.nil_append, List.length_nil, Nat.sub_zero, hs3]

/-- C15 (amended): for every generalized-I/O text `num_gate num_wire`, a group
count p with p group sizes, a group count q with q group sizes, then
`num_gate` gates, where the wire count is not negative, the gates fit (fewer
than `2^29` of them) and the group sizes and their running sums fit `int`, a
fresh `BristolFashion` filled by `from_file` has `num_input` equal to the sum
of the p sizes and `num_output` equal to the sum of the q sizes; so two such
texts whose sizes have the same totals give the same `num_input` and
`num_output`, however the totals are split. -/
theorem from_file_sums_group_sizes {β : Type} [Inhabited β] (nw : Int) (ins outs : List Int)
    (gs : List FashionGate)
    (hg : gs.length < 2 ^ 29) (h1 : int_ok nw = true) (hw : 0 ≤ nw)
    (hp : ins.length < 2 ^ 31) (hq : outs.length < 2 ^ 31)
    (hins : sums_fit 0 ins = true) (houts : sums_fit 0 outs = true)
    (hfit : ∀ t ∈ gs, t.fits) :
    ((⟨0, 0, 0, 0, [], []⟩ : BristolFashion β).from_file
        (fashion_tokens (gs.length : Int) nw ins outs gs)).1 = .ok
    ∧ ((⟨0, 0, 0, 0, [], []⟩ : BristolFashion β).from_file
        (fashion_tokens (gs.length : Int) nw ins outs gs)).2.num_input = ins.sum
    ∧ ((⟨0, 0, 0, 0, [], []⟩ : BristolFashion β).from_file
        (fashion_tokens (gs.length : Int) nw ins outs gs)).2.num_output = outs.sum
    ∧ ∀ (ins' outs' : List Int), ins'.length < 2 ^ 31 → outs'.length < 2 ^ 31 →
        sums_fit 0 ins' = true → sums_fit 0 outs' = true →
        ins'.sum = ins.sum → outs'.sum = outs.sum →
        (⟨0, 0, 0, 0, [], []⟩ : BristolFashion β).from_file
            (fashion_tokens (gs.length : Int) nw ins' outs' gs)
          = (⟨0, 0, 0, 0, [], []⟩ : BristolFashion β).from_file
            (fashion_tokens (gs.length : Int) nw ins outs gs) := by
  rw [from_file_tokens nw ins outs gs hg h1 hw hp hq hins houts hfit]
  refine ⟨rfl, rfl, rfl, ?_⟩
  intro ins' outs' hp' hq' hins' houts' e1 e2
  rw [from_file_tokens nw ins' outs' gs hg h1 hw hp' hq' hins' houts' hfit, e1, e2]

theorem from_file_sums_group_sizes_witness :
    ((⟨0, 0, 0, 0, [], []⟩ : BristolFashion Bool).from_file
        (fashion_tokens 1 5 [2, 1] [1] [.xor 1 0 1 4 3])).2.num_input = 3 :=
  (from_file_sums_group_sizes 5 [2, 1] [1] [.xor 1 0 1 4 3] (by decide) (by decide) (by decide)
    (by decide) (by decide) (by decide) (by decide)
    (by
      intro t ht
      simp only [List.mem_singleton] at ht
      subst ht
      exact ⟨by decide, by decide, by decide, by decide, by decide⟩)).2.1

theorem drop_four {α : Type} (l : List α) (n : Nat) (h : n + 3 < l.length) :
    ∃ a b c d, l.drop n = a :: b :: c :: d :: l.drop (n + 4)
      ∧ l[n]? = some a ∧ l[n + 1]? = some b ∧ l[n + 2]? = some c ∧ l[n + 3]? = some d := by
  have h0 : n < l.length := by omega
  have h1 : n + 1 < l.length := by omega
  have h2 : n + 2 < l.length := by omega
  refine ⟨l[n], l[n + 1], l[n + 2], l[n + 3], ?_, List.getElem?_eq_getElem h0,
    List.getElem?_eq_getElem h1, List.getElem?_eq_getElem h2, List.getElem?_eq_getElem h⟩
  have e0 : l.drop n = l[n] :: l.drop (n + 1) := List.drop_eq_getElem_cons h0
  have e1 : l.drop (n + 1) = l[n + 1] :: l.drop (n + 2) := List.drop_eq_getElem_cons h1
  have e2 : l.drop (n + 2) = l[n + 2] :: l.drop (n + 3) := List.drop_eq_getElem_cons h2
  have e3 : l.drop (n + 3) = l[n + 3] :: l.drop (n + 4) := List.drop_eq_getElem_cons h
  rw [e0, e1, e2, e3]

theorem vec_get_nat {α : Type} (l : List α) (idx : Int) (n : Nat) (x : α) (hidx : idx = (n : Int))
    (h : l[n]? = some x) : vec_get l idx = some x := by
  subst hidx
  unfold vec_get
  rw [if_pos (by omega), Int.toNat_ofNat, h]

/-- The row loop of `to_file` writes the entries of `gates` it passes over, in
order, four to a line. -/
theorem emit_gates_eq (gates : List Int) (hl : gates.length < 2 ^ 31) :
    ∀ (rem i : Nat), 4 * (i + rem) ≤ gates.length →
      emit_gates gates rem i = some (initializer_rows ((gates.drop (4 * i)).take (4 * rem))) := by
  intro rem
  induction rem with
  | zero =>
    intro i _
    simp [emit_gates, initializer_rows]
  | succ rem ih =>
    intro i h
    obtain ⟨a, b, c, d, hd, ga, gb, gc, gd⟩ := drop_four gates (4 * i) (by omega)
    have hrow : emit_gate gates i = some (toString a ++ ", " ++ toString b ++ ", "
        ++ toString c ++ ", " ++ toString d ++ ", " ++ "\n") := by
      unfold emit_gate
      have e3 : 4 * (i : Int) + 3 = ((4 * i + 3 : Nat) : Int) := by push_cast; ring
      rw [if_pos (by rw [e3]; exact int_ok_ofNat _ (by omega)),
        vec_get_nat gates _ (4 * i) a (by push_cast; ring) ga,
        vec_get_nat gates _ (4 * i + 1) b (by push_cast; ring) gb,
        vec_get_nat gates _ (4 * i + 2) c (by push_cast; ring) gc,
        vec_get_nat gates _ (4 * i + 3) d (by push_cast; ring) gd]
      rfl
    have hrest := ih (i + 1) (by omega)
    rw [show 4 * (i + 1) = 4 * i + 4 by omega] at hrest
    simp only [emit_gates, hrow, hrest, Option.some_bind, Option.map_some']
    rw [hd, show 4 * (rem + 1) = 4 * rem + 1 + 1 + 1 + 1 by omega]
    simp only [List.take_succ_cons, initializer_rows]

theorem scalar_text (pfx name : String) (v : Int) (tl : String) :
    "int " ++ (pfx ++ ("_" ++ (name ++ (" = " ++ (toString v ++ (";\n" ++ tl))))))
      = scalar_decl pfx name v ++ tl := by
  simp only [scalar_decl, String.append_assoc]

/-- C18: for every circuit that holds `4 * num_gate` gate entries (`num_gate`
not negative, `4 * num_gate` inside `int`) and every prefix, `to_file` writes
the five scalar declarations `<prefix>_num_gate`, `<prefix>_num_wire`,
`<prefix>_n1`, `<prefix>_n2`, `<prefix>_n3` with the values of the circuit,
then the declaration of `<prefix>_gate_arr` with declared length
`num_gate * 4` whose initializer lists the entries of `gates` in order. -/
theorem to_file_emits_declarations {β : Type} (self : BristolFormat β) (pfx : String)
    (h0 : 0 ≤ self.num_gate) (hfit : 4 * self.num_gate < 2 ^ 31)
    (hlen : (self.gates.length : Int) = 4 * self.num_gate) :
    self.to_file pfx = some (export_text self pfx) := by
  have hok : int_ok (self.num_gate * 4) = true := by
    rw [int_ok_iff]; omega
  have hrows := emit_gates_eq self.gates (by omega) self.num_gate.toNat 0 (by omega)
  rw [Nat.mul_zero, List.drop_zero, List.take_of_length_le (by omega)] at hrows
  unfold BristolFormat.to_file
  rw [if_pos hok, hrows]
  simp only [Option.map_some', export_text, array_decl, ← scalar_text, String.append_assoc]
  rfl

theorem to_file_emits_declarations_witness :
    (⟨1, 3, 1, 1, 1, [0, 1, 2, 1], [false, false, false]⟩ : BristolFormat Bool).to_file "c"
      = some (export_text
          (⟨1, 3, 1, 1, 1, [0, 1, 2, 1], [false, false, false]⟩ : BristolFormat Bool) "c") :=
  to_file_emits_declarations
    (⟨1, 3, 1, 1, 1, [0, 1, 2, 1], [false, false, false]⟩ : BristolFormat Bool) "c"
    (by decide) (by decide) (by decide)

theorem count_op_stored (op : Int) (r : Record) (rest : List Int) :
    count_op op (r.stored ++ rest)
      = (if r.stored.getD 3 0 = op then 1 else 0) + count_op op rest := by
  cases r <;> rfl

/-- The bytes of a list of records number 9 for each tuple stored with the tag
NOT and 13 for each tuple stored with the tag XOR or AND. -/
theorem length_bytes_by_tag (recs : List Record) :
    (recs.flatMap Record.bytes).length
      = 9 * count_op NOT_GATE (recs.flatMap Record.stored)
        + 13 * (count_op XOR_GATE (recs.flatMap Record.stored)
          + count_op AND_GATE (recs.flatMap Record.stored)) := by
  induction recs with
  | nil => rfl
  | cons r rs ih =>
    simp only [List.flatMap_cons, List.length_append, count_op_stored, ih]
    cases r <;>
      simp [Record.bytes, Record.stored, Word.bytes, AND_GATE, XOR_GATE, NOT_GATE] <;> omega

theorem stored_tag (r : Record) :
    r.stored[3]? = some AND_GATE ∨ r.stored[3]? = some XOR_GATE ∨ r.stored[3]? = some NOT_GATE := by
  cases r
  · right; right; rfl
  · right; left; rfl
  · left; rfl

/-- C21: for every buffer `from_buffer` accepts, the length of the buffer is
`20 + 9 * (number of gates decoded with the tag NOT) + 13 * (number decoded
with the tag XOR or AND)`, the decoded `gates` vector has `4 * num_gate`
entries, and the opcode entry of every decoded gate is one of the tags
`AND_GATE = 0`, `XOR_GATE = 1`, `NOT_GATE = 2`. -/
theorem from_buffer_accepted_length {β : Type} [Inhabited β] (self : BristolFormat β)
    (buf : List Byte) (h : (self.from_buffer buf buf.length).1 = .ok) :
    buf.length
        = 20 + 9 * count_op NOT_GATE (self.from_buffer buf buf.length).2.gates
          + 13 * (count_op XOR_GATE (self.from_buffer buf buf.length).2.gates
            + count_op AND_GATE (self.from_buffer buf buf.length).2.gates)
    ∧ ((self.from_buffer buf buf.length).2.gates.length : Int)
        = 4 * (self.from_buffer buf buf.length).2.num_gate
    ∧ ∀ i : Nat, (i : Int) < (self.from_buffer buf buf.length).2.num_gate →
        (self.from_buffer buf buf.length).2.gates[4 * i + 3]? = some AND_GATE
        ∨ (self.from_buffer buf buf.length).2.gates[4 * i + 3]? = some XOR_GATE
        ∨ (self.from_buffer buf buf.length).2.gates[4 * i + 3]? = some NOT_GATE := by
  have hl := from_buffer_ok_layout self buf h
  obtain ⟨hdr, recs, hbuf, hk, hk29, hw, hst⟩ := hl
  rw [hst]
  dsimp only
  refine ⟨?_, ?_, ?_⟩
  · rw [hbuf, List.length_append, header_length_bytes, length_bytes_by_tag]
    omega
  · rw [length_flatMap_stored]
    push_cast
    rfl
  · intro i hi
    have hi' : i < recs.length := by exact_mod_cast hi
    have hc := stored_chunk recs i hi'
    have e : (recs.flatMap Record.stored)[4 * i + 3]?
        = (((recs.flatMap Record.stored).drop (4 * i)).take 4)[3]? := by
      rw [List.getElem?_take_of_lt (by omega), List.getElem?_drop]
    rw [e, hc]
    exact stored_tag _

theorem from_buffer_accepted_length_witness :
    (((⟨7, 7, 7, 7, 7, [], []⟩ : BristolFormat Bool).from_buffer
        [1, 0, 0, 0, 2, 0, 0, 0, 1, 0, 0, 0, 0, 0, 0, 0, 1, 0, 0, 0,
          0, 0, 0, 0, 0, 1, 0, 0, 0] 29).2.gates.length : Int)
      = 4 * ((⟨7, 7, 7, 7, 7, [], []⟩ : BristolFormat Bool).from_buffer
        [1, 0, 0, 0, 2, 0, 0, 0, 1, 0, 0, 0, 0, 0, 0, 0, 1, 0, 0, 0,
          0, 0, 0, 0, 0, 1, 0, 0, 0] 29).2.num_gate :=
  (from_buffer_accepted_length (⟨7, 7, 7, 7, 7, [], []⟩ : BristolFormat Bool)
    [1, 0, 0, 0, 2, 0, 0, 0, 1, 0, 0, 0, 0, 0, 0, 0, 1, 0, 0, 0,
      0, 0, 0, 0, 0, 1, 0, 0, 0] (by decide)).2.1

/-- One pass of the gate loop of `compute` and one pass of `execute_circuit`
agree on a gate whose index expressions fit `int` and whose opcode is one of
the three tags. -/
theorem eval_gate_eq_execute_gate {σ β : Type} (bk : Backend σ β) (gates : List Int) (i : Nat)
    (s : σ) (wires : List β) (hok : int_ok (4 * (i : Int) + 3) = true)
    (htag : ∀ op, vec_get gates (4 * (i : Int) + 3) = some op →
      op = AND_GATE ∨ op = XOR_GATE ∨ op = NOT_GATE) :
    eval_gate bk gates i s wires = execute_gate bk gates i s wires := by
  unfold eval_gate execute_gate
  rw [if_pos hok]
  rcases Option.eq_none_or_eq_some (vec_get gates (4 * (i : Int) + 3)) with h | ⟨op, h⟩
  · rw [h]; rfl
  rw [h]
  simp only [Option.some_bind]
  by_cases hA : op = AND_GATE
  · rw [if_pos hA, if_pos hA]
  rw [if_neg hA, if_neg hA]
  by_cases hX : op = XOR_GATE
  · rw [if_pos hX, if_pos hX]
  rw [if_neg hX, if_neg hX]
  have hN : op = NOT_GATE := by
    rcases htag op h with h1 | h1 | h1
    · exact absurd h1 hA
    · exact absurd h1 hX
    · exact h1
  rw [if_pos hN]

theorem eval_gates_eq_execute_circuit {σ β : Type} (bk : Backend σ β) (gates : List Int) :
    ∀ (rem i : Nat) (s : σ) (wires : List β), 4 * (i + rem) < 2 ^ 31 →
      (∀ j, i ≤ j → j < i + rem → ∀ op, vec_get gates (4 * (j : Int) + 3) = some op →
        op = AND_GATE ∨ op = XOR_GATE ∨ op = NOT_GATE) →
      eval_gates bk gates rem i s wires = execute_circuit bk gates rem i s wires := by
  intro rem
  induction rem with
  | zero => intro i s wires _ _; rfl
  | succ rem ih =>
    intro i s wires hfit htag
    have hok : int_ok (4 * (i : Int) + 3) = true := by
      rw [int_ok_iff]; omega
    simp only [eval_gates, execute_circuit]
    rw [eval_gate_eq_execute_gate bk gates i s wires hok (htag i (le_refl _) (by omega))]
    rcases Option.eq_none_or_eq_some (execute_gate bk gates i s wires) with h | ⟨r, h⟩
    · rw [h]; rfl
    · rw [h]
      simp only [Option.some_bind]
      exact ih (i + 1) r.1 r.2 (by omega) (fun j h1 h2 => htag j (by omega) (by omega))

theorem vec_get_replicate_zero (m k : Nat) (idx : Int) (hidx : idx = (k : Int)) (hk : k < m) :
    vec_get (List.replicate m (0 : Int)) idx = some 0 := by
  subst hidx
  unfold vec_get
  rw [if_pos (by omega), Int.toNat_ofNat, List.getElem?_replicate, if_pos hk]

/-- The function `execute_circuit` on m entries 0 (gates `(0, 0, 0, AND)`) and
one wire that holds `false`: every pass writes `false AND false` to wire 0. -/
theorem execute_circuit_zeros (m : Nat) :
    ∀ (rem i : Nat), 4 * (i + rem) ≤ m →
      execute_circuit cleartext (List.replicate m (0 : Int)) rem i () [false]
        = some ((), [false]) := by
  intro rem
  induction rem with
  | zero => intro i _; rfl
  | succ rem ih =>
    intro i h
    have hstep : execute_gate cleartext (List.replicate m (0 : Int)) i () [false]
        = some ((), [false]) := by
      unfold execute_gate
      rw [vec_get_replicate_zero m (4 * i + 3) _ (by push_cast; ring) (by omega)]
      simp only [Option.some_bind]
      rw [if_pos (show (0 : Int) = AND_GATE from rfl),
        vec_get_replicate_zero m (4 * i) _ (by push_cast; ring) (by omega),
        vec_get_replicate_zero m (4 * i + 1) _ (by push_cast; ring) (by omega),
        vec_get_replicate_zero m (4 * i + 2) _ (by push_cast; ring) (by omega)]
      rfl
    simp only [execute_circuit, hstep, Option.some_bind]
    exact ih (i + 1) (by omega)

/-- C22 as stated fails: on the list of `2^29 + 1` gates `(0, 0, 0, AND)` and a
store of one wire, every opcode is `AND_GATE`, `execute_circuit` (whose index
`4 * i + 3` is a `size_t`) runs to the end and leaves the store `[false]`,
and the gate loop of `compute` (whose index is an `int`) has no defined
behaviour in the pass `i = 2^29`. -/
theorem gate_loops_differ_on_huge_gate_list :
    (∀ x ∈ List.replicate 2147483652 (0 : Int), x = AND_GATE)
    ∧ execute_circuit cleartext (List.replicate 2147483652 (0 : Int)) 536870913 0 () [false]
        = some ((), [false])
    ∧ eval_gates cleartext (List.replicate 2147483652 (0 : Int)) 536870913 0 () [false]
        = none := by
  refine ⟨fun x hx => List.eq_of_mem_replicate hx, ?_, ?_⟩
  · exact execute_circuit_zeros 2147483652 536870913 0 (by omega)
  · exact eval_gates_none_of_overflow cleartext _ 536870913 0 () [false]
      ⟨536870912, by omega, by omega, by decide⟩

/-- C22 (amended): for every gate list of n gates with `4 * n` inside `int`
whose opcodes are all in `{AND_GATE, XOR_GATE, NOT_GATE}`, every backend,
every backend state and every wire store, `execute_circuit` and the gate loop
of `BristolFormat::compute` end in the same way with the same store and the
same backend state. On a gate with any other opcode the loop of `compute`
calls `not_gate` on the wire at `in_a` and writes the result to the out wire. -/
theorem gate_loops_agree_on_three_tags {σ β : Type} (bk : Backend σ β) (gates : List Int)
    (n : Nat) (s : σ) (wires : List β) (hfit : 4 * n < 2 ^ 31)
    (htag : ∀ j, j < n → ∀ op, vec_get gates (4 * (j : Int) + 3) = some op →
      op = AND_GATE ∨ op = XOR_GATE ∨ op = NOT_GATE) :
    eval_gates bk gates n 0 s wires = execute_circuit bk gates n 0 s wires
    ∧ ∀ (i : Nat) (t : σ) (w : List β) (op : Int), int_ok (4 * (i : Int) + 3) = true →
        vec_get gates (4 * (i : Int) + 3) = some op → op ≠ AND_GATE → op ≠ XOR_GATE →
        eval_gate bk gates i t w
          = (vec_get gates (4 * (i : Int))).bind fun ia =>
            (vec_get gates (4 * (i : Int) + 2)).bind fun io =>
            (vec_get w ia).bind fun x =>
            (vec_set w io (bk.not_gate t x).2).map fun w1 => ((bk.not_gate t x).1, w1) := by
  refine ⟨eval_gates_eq_execute_circuit bk gates n 0 s wires (by omega)
    (fun j _ h2 => htag j (by omega)), ?_⟩
  intro i t w op hok hop hA hX
  unfold eval_gate
  rw [if_pos hok, hop]
  simp only [Option.some_bind]
  rw [if_neg hA, if_neg hX]

theorem gate_loops_agree_on_three_tags_witness :
    eval_gates cleartext [0, 1, 2, XOR_GATE, 2, 0, 3, NOT_GATE] 2 0 () [true, false, false, false]
      = execute_circuit cleartext [0, 1, 2, XOR_GATE, 2, 0, 3, NOT_GATE] 2 0 ()
          [true, false, false, false] :=
  (gate_loops_agree_on_three_tags cleartext [0, 1, 2, XOR_GATE, 2, 0, 3, NOT_GATE] 2 ()
    [true, false, false, false] (by decide)
    (by
      intro j hj op h
      have hj2 : j = 0 ∨ j = 1 := by omega
      rcases hj2 with rfl | rfl
      · have e : vec_get [0, 1, 2, XOR_GATE, 2, 0, 3, NOT_GATE] (4 * ((0 : Nat) : Int) + 3)
            = some XOR_GATE := by decide
        rw [e] at h
        exact Or.inr (Or.inl (Option.some.inj h).symm)
      · have e : vec_get [0, 1, 2, XOR_GATE, 2, 0, 3, NOT_GATE] (4 * ((1 : Nat) : Int) + 3)
            = some NOT_GATE := by decide
        rw [e] at h
        exact Or.inr (Or.inr (Option.some.inj h).symm))).1

theorem hex_of_chunk_binary (a b c d : Char) (ha : a = '0' ∨ a = '1') (hb : b = '0' ∨ b = '1')
    (hc : c = '0' ∨ c = '1') (hd : d = '0' ∨ d = '1') :
    hex_of_chunk [a, b, c, d]
      = some (Nat.digitChar (8 * bit_value a + 4 * bit_value b + 2 * bit_value c + bit_value d)) := by
  rcases ha with rfl | rfl <;> rcases hb with rfl | rfl <;> rcases hc with rfl | rfl <;>
    rcases hd with rfl | rfl <;> rfl

theorem hex_of_chunk_bad (chunk : List Char) (hbad : ∃ c ∈ chunk, c ≠ '0' ∧ c ≠ '1') :
    hex_of_chunk chunk = none := by
  have hne : ∀ lit : List Char, (∀ c ∈ lit, c = '0' ∨ c = '1') → chunk ≠ lit := by
    intro lit hl e
    subst e
    obtain ⟨c, hc, h0, h1⟩ := hbad
    rcases hl c hc with h | h
    · exact h0 h
    · exact h1 h
  unfold hex_of_chunk
  rw [if_neg (hne ['0', '0', '0', '0'] (by decide)),
    if_neg (hne ['0', '0', '0', '1'] (by decide)),
    if_neg (hne ['0', '0', '1', '0'] (by decide)),
    if_neg (hne ['0', '0', '1', '1'] (by decide)),
    if_neg (hne ['0', '1', '0', '0'] (by decide)),
    if_neg (hne ['0', '1', '0', '1'] (by decide)),
    if_neg (hne ['0', '1', '1', '0'] (by decide)),
    if_neg (hne ['0', '1', '1', '1'] (by decide)),
    if_neg (hne ['1', '0', '0', '0'] (by decide)),
    if_neg (hne ['1', '0', '0', '1'] (by decide)),
    if_neg (hne ['1', '0', '1', '0'] (by decide)),
    if_neg (hne ['1', '0', '1', '1'] (by decide)),
    if_neg (hne ['1', '1', '0', '0'] (by decide)),
    if_neg (hne ['1', '1', '0', '1'] (by decide)),
    if_neg (hne ['1', '1', '1', '0'] (by decide)),
    if_neg (hne ['1', '1', '1', '1'] (by decide))]

/-- The loop of `binary_to_hex` from chunk g on, when every character left is a
binary digit: it appends one hexadecimal digit for each chunk. -/
theorem hex_loop_ok (bin : List Char) :
    ∀ (rem g : Nat) (hex : List Char), bin.length = 4 * (g + rem) →
      (∀ c ∈ bin.drop (4 * g), c = '0' ∨ c = '1') →
      ∃ tail, hex_loop bin rem (4 * g) hex = some (hex ++ tail) ∧ tail.length = rem
        ∧ ∀ j, j < rem → tail[j]? = some (Nat.digitChar (chunk_value bin (g + j))) := by
  intro rem
  induction rem with
  | zero =>
    intro g hex _ _
    exact ⟨[], by simp [hex_loop], rfl, fun j hj => absurd hj (Nat.not_lt_zero j)⟩
  | succ rem ih =>
    intro g hex hlen hbin
    obtain ⟨a, b, c, d, hd, ga, gb, gc, gd⟩ := drop_four bin (4 * g) (by omega)
    have hmem : ∀ x ∈ [a, b, c, d], x = '0' ∨ x = '1' := by
      intro x hx
      apply hbin x
      rw [hd]
      simp only [List.mem_cons, List.mem_singleton, List.not_mem_nil, or_false] at hx
      simp only [List.mem_cons]
      tauto
    have hchunk : (bin.drop (4 * g)).take 4 = [a, b, c, d] := by
      rw [hd]; rfl
    have hval : 8 * bit_value a + 4 * bit_value b + 2 * bit_value c + bit_value d
        = chunk_value bin g := by
      unfold chunk_value
      rw [List.getD_eq_getElem?_getD, List.getD_eq_getElem?_getD, List.getD_eq_getElem?_getD,
        List.getD_eq_getElem?_getD, ga, gb, gc, gd]
      rfl
    have hx := hex_of_chunk_binary a b c d (hmem a (by simp)) (hmem b (by simp))
      (hmem c (by simp)) (hmem d (by simp))
    rw [hval] at hx
    obtain ⟨tail, ht, hl, hj⟩ := ih (g + 1) (hex ++ [Nat.digitChar (chunk_value bin g)])
      (by omega)
      (by
        intro x hx'
        apply hbin x
        rw [hd]
        rw [show 4 * (g + 1) = 4 * g + 4 by omega] at hx'
        simp only [List.mem_cons]
        tauto)
    refine ⟨Nat.digitChar (chunk_value bin g) :: tail, ?_, by rw [List.length_cons, hl], ?_⟩
    · simp only [hex_loop, hchunk, hx]
      rw [show 4 * g + 4 = 4 * (g + 1) by omega, ht]
      simp
    · intro j hjlt
      cases j with
      | zero => simp
      | succ k =>
        rw [List.getElem?_cons_succ, hj k (by omega)]
        rw [show g + 1 + k = g + (k + 1) by omega]

/-- The loop of `binary_to_hex` from chunk g on, when a character left is no
binary digit: a pass throws. -/
theorem hex_loop_bad (bin : List Char) :
    ∀ (rem g : Nat) (hex : List Char), bin.length = 4 * (g + rem) →
      (∃ c ∈ bin.drop (4 * g), c ≠ '0' ∧ c ≠ '1') →
      hex_loop bin rem (4 * g) hex = none := by
  intro rem
  induction rem with
  | zero =>
    intro g hex hlen hbad
    obtain ⟨c, hc, -⟩ := hbad
    rw [List.drop_of_length_le (by omega)] at hc
    exact absurd hc (List.not_mem_nil c)
  | succ rem ih =>
    intro g hex hlen hbad
    simp only [hex_loop]
    rcases Option.eq_none_or_eq_some (hex_of_chunk ((bin.drop (4 * g)).take 4)) with h | ⟨x, h⟩
    · rw [h]
    · rw [h]
      dsimp only
      rw [show 4 * g + 4 = 4 * (g + 1) by omega]
      apply ih (g + 1) _ (by omega)
      obtain ⟨c, hc, h0, h1⟩ := hbad
      refine ⟨c, ?_, h0, h1⟩
      rw [← List.take_append_drop 4 (bin.drop (4 * g)), List.mem_append] at hc
      rcases hc with hc | hc
      · have hnone := hex_of_chunk_bad _ ⟨c, hc, h0, h1⟩
        rw [hnone] at h
        exact absurd h (by simp)
      · rw [List.drop_drop] at hc
        rw [show 4 * (g + 1) = 4 * g + 4 by omega]
        exact hc

/-- C24: `binary_to_hex` throws exactly when the length of the input is not a
multiple of 4 or some character of the input is neither `0` nor `1`;
otherwise it returns a string of `n / 4` characters whose i-th character is
the lowercase hexadecimal digit of the value of the characters
`4 * i .. 4 * i + 3` read as a binary number, most significant digit first. -/
theorem binary_to_hex_spec (bin : List Char) :
    (binary_to_hex bin = none ↔ (bin.length % 4 ≠ 0 ∨ ∃ c ∈ bin, c ≠ '0' ∧ c ≠ '1'))
    ∧ ∀ hex, binary_to_hex bin = some hex →
        hex.length = bin.length / 4
        ∧ ∀ i, i < bin.length / 4 → hex[i]? = some (Nat.digitChar (chunk_value bin i)) := by
  by_cases hlen : bin.length % 4 ≠ 0
  · have hnone : binary_to_hex bin = none := by
      unfold binary_to_hex
      rw [if_pos hlen]
    rw [hnone]
    exact ⟨⟨fun _ => Or.inl hlen, fun _ => rfl⟩, fun hex h => absurd h (by simp)⟩
  have hl4 : bin.length = 4 * (0 + bin.length / 4) := by omega
  have hdef : binary_to_hex bin = hex_loop bin (bin.length / 4) (4 * 0) [] := by
    unfold binary_to_hex
    rw [if_neg hlen]
  by_cases hbad : ∃ c ∈ bin, c ≠ '0' ∧ c ≠ '1'
  · have hnone : binary_to_hex bin = none := by
      rw [hdef]
      exact hex_loop_bad bin _ 0 [] hl4 hbad
    rw [hnone]
    exact ⟨⟨fun _ => Or.inr hbad, fun _ => rfl⟩, fun hex h => absurd h (by simp)⟩
  · have hbin : ∀ c ∈ bin.drop (4 * 0), c = '0' ∨ c = '1' := by
      intro c hc
      by_contra hcon
      exact hbad ⟨c, hc, fun h => hcon (Or.inl h), fun h => hcon (Or.inr h)⟩
    obtain ⟨tail, ht, htl, hj⟩ := hex_loop_ok bin _ 0 [] hl4 hbin
    rw [hdef, ht]
    refine ⟨⟨fun h => absurd h (by simp), fun h => ?_⟩, ?_⟩
    · rcases h with h | h
      · exact absurd h hlen
      · exact absurd h hbad
    · intro hex h
      have e : hex = tail := by
        have := Option.some.inj h
        simpa using this.symm
      subst e
      refine ⟨htl, fun i hi => ?_⟩
      have := hj i hi
      rw [Nat.zero_add] at this
      exact this

theorem binary_to_hex_spec_witness :
    ['a', '5'].length = ['1', '0', '1', '0', '0', '1', '0', '1'].length / 4 :=
  ((binary_to_hex_spec ['1', '0', '1', '0', '0', '1', '0', '1']).2 ['a', '5'] (by decide)).1

theorem size_t_of_lt (x : Nat) (h : x < 4294967296) : size_t x = x := by
  unfold size_t
  exact Nat.mod_eq_of_lt h

theorem size_t_sub (a b : Nat) (hb : b ≤ a) (ha : a < 4294967296) :
    size_t (a + 4294967296 - b) = a - b := by
  unfold size_t
  omega

theorem inv_size_le (self : RawIOJS) (h : self.inv) :
    self.recv_buffer.length ≤ 2147483648 ∧ 0 < self.recv_buffer.length := by
  obtain ⟨-, -, a, ha, hs⟩ := h
  rw [hs]
  exact ⟨Nat.pow_le_pow_right (by omega) ha, Nat.pos_pow_of_pos a (by omega)⟩

/-- The compaction step of `recv` on a state that satisfies the invariant: it
is defined, keeps the invariant, the size of the buffer and the pending bytes,
and afterwards `len` more bytes from `recv_start` fit the buffer or
`recv_start = 0`. -/
theorem compact_spec (self : RawIOJS) (len : Nat) (h : self.inv) (hlen : len < 2147483648) :
    ∃ s1, self.compact len = some s1 ∧ s1.inv ∧ s1.pending = self.pending
      ∧ s1.recv_end - s1.recv_start = self.recv_end - self.recv_start
      ∧ s1.recv_buffer.length = self.recv_buffer.length
      ∧ (s1.recv_start + len ≤ s1.recv_buffer.length ∨ s1.recv_start = 0) := by
  obtain ⟨hsz, hpos⟩ := inv_size_le self h
  obtain ⟨h1, h2, a, ha, hs⟩ := h
  unfold RawIOJS.compact
  rw [size_t_of_lt _ (by omega)]
  by_cases hc : self.recv_start + len > self.recv_buffer.length
  · rw [if_pos hc]
    dsimp only
    rw [size_t_sub _ _ h1 (by omega), if_pos (by omega)]
    have hl : ((self.recv_buffer.drop self.recv_start).take
        (self.recv_end - self.recv_start)).length = self.recv_end - self.recv_start := by
      rw [List.length_take, List.length_drop]; omega
    refine ⟨_, rfl, ⟨by dsimp only; omega, ?_, a, ha, ?_⟩, ?_, rfl, ?_, Or.inr rfl⟩
    · dsimp only
      rw [List.length_append, hl, List.length_drop]; omega
    · dsimp only
      rw [List.length_append, hl, List.length_drop, ← hs]; omega
    · unfold RawIOJS.pending
      dsimp only
      rw [List.drop_zero, Nat.sub_zero, List.take_left' hl]
    · dsimp only
      rw [List.length_append, hl, List.length_drop]; omega
  · rw [if_neg hc]
    exact ⟨self, rfl, ⟨h1, h2, a, ha, hs⟩, rfl, rfl, rfl, Or.inl (by omega)⟩

/-- The doubling loop of `recv` from a size `2^a` with `bytes_needed + recv_end`
at most `2^31`: within `31 - a` passes it ends at a size `2^b` that leaves
room for `bytes_needed` bytes. -/
theorem grow_loop_spec (recv_end bytes_needed : Nat) (hsum : bytes_needed + recv_end ≤ 2147483648) :
    ∀ (fuel a : Nat), a ≤ 31 → 31 ≤ fuel + a → recv_end ≤ 2 ^ a →
      ∃ b, a ≤ b ∧ b ≤ 31 ∧ bytes_needed ≤ 2 ^ b - recv_end
        ∧ grow_loop recv_end bytes_needed fuel (2 ^ a) (2 ^ a - recv_end) = some (2 ^ b) := by
  intro fuel
  induction fuel with
  | zero =>
    intro a ha hf he
    have ha31 : a = 31 := by omega
    subst ha31
    refine ⟨31, le_refl _, le_refl _, by norm_num; omega, ?_⟩
    simp only [grow_loop]
    rw [if_neg (by norm_num; omega)]
  | succ fuel ih =>
    intro a ha hf he
    by_cases hgt : bytes_needed > 2 ^ a - recv_end
    · have ha31 : a < 31 := by
        by_contra hcon
        have ha31 : a = 31 := by omega
        subst ha31
        norm_num at hgt
        omega
      have hle : 2 ^ (a + 1) ≤ 2147483648 := by
        have := Nat.pow_le_pow_right (show 0 < 2 by omega) (show a + 1 ≤ 31 by omega)
        norm_num at this
        exact this
      have h2 : 2 ^ a * 2 = 2 ^ (a + 1) := by rw [Nat.pow_succ]
      obtain ⟨b, hb1, hb2, hb3, hb4⟩ := ih (a + 1) (by omega) (by omega)
        (by rw [← h2]; omega)
      refine ⟨b, by omega, hb2, hb3, ?_⟩
      simp only [grow_loop]
      rw [if_pos hgt, h2, size_t_of_lt _ (by omega),
        size_t_sub _ _ (by rw [← h2]; omega) (by omega)]
      exact hb4
    · refine ⟨a, le_refl _, ha, by omega, ?_⟩
      simp only [grow_loop]
      rw [if_neg hgt]

/-- The growth step of `recv` on a state that satisfies the invariant, when
`bytes_needed + recv_end` is at most `2^31` and `room` is the room left: with
32 units of fuel it is defined, keeps the invariant, the cursors and the
pending bytes, and leaves room for `bytes_needed` bytes. -/
theorem grow_spec (self : RawIOJS) (fuel bytes_needed : Nat) (h : self.inv)
    (hfuel : 32 ≤ fuel) (hsum : bytes_needed + self.recv_end ≤ 2147483648) :
    ∃ s2, self.grow fuel bytes_needed (self.recv_buffer.length - self.recv_end)
        = some (s2, s2.recv_buffer.length - s2.recv_end)
      ∧ s2.inv ∧ s2.pending = self.pending ∧ s2.recv_start = self.recv_start
      ∧ s2.recv_end = self.recv_end ∧ bytes_needed ≤ s2.recv_buffer.length - s2.recv_end := by
  obtain ⟨h1, h2, a, ha, hs⟩ := h
  unfold RawIOJS.grow
  by_cases hgt : bytes_needed > self.recv_buffer.length - self.recv_end
  · rw [if_pos hgt]
    obtain ⟨b, hab, hb, hroom, hloop⟩ := grow_loop_spec self.recv_end bytes_needed hsum fuel a ha
      (by omega) (by rw [← hs]; exact h2)
    have hle : 2 ^ b ≤ 2147483648 := by
      have := Nat.pow_le_pow_right (show 0 < 2 by omega) hb
      norm_num at this
      exact this
    have hmono : self.recv_buffer.length ≤ 2 ^ b := by
      rw [hs]; exact Nat.pow_le_pow_right (by omega) hab
    have hlen : (self.recv_buffer.take (2 ^ b)
        ++ List.replicate (2 ^ b - self.recv_buffer.length) 0).length = 2 ^ b := by
      rw [List.length_append, List.length_take, List.length_replicate]; omega
    rw [← hs] at hloop
    rw [hloop]
    simp only [Option.map_some']
    rw [size_t_sub _ _ (by omega) (by omega)]
    refine ⟨⟨self.recv_buffer.take (2 ^ b)
      ++ List.replicate (2 ^ b - self.recv_buffer.length) 0, self.recv_start, self.recv_end⟩,
      ?_, ⟨h1, ?_, b, hb, ?_⟩, ?_, rfl, rfl, ?_⟩
    · dsimp only
      rw [hlen]
    · dsimp only
      rw [hlen]; omega
    · dsimp only
      rw [hlen]
    · unfold RawIOJS.pending
      dsimp only
      rw [List.take_of_length_le hmono, List.drop_append_of_le_length (by omega),
        List.take_append_of_le_length (by rw [List.length_drop]; omega)]
    · dsimp only
      rw [hlen]
      exact hroom
  · rw [if_neg hgt]
    exact ⟨self, rfl, ⟨h1, h2, a, ha, hs⟩, rfl, rfl, rfl, by omega⟩

/-- The call of `recv_js` on a state that satisfies the invariant, when the
bytes returned fit the room: the bytes join the pending bytes. -/
theorem fill_spec (self : RawIOJS) (chunk : List Byte) (h : self.inv)
    (hfit : chunk.length ≤ self.recv_buffer.length - self.recv_end) :
    ∃ s3, self.fill chunk = some s3 ∧ s3.inv ∧ s3.pending = self.pending ++ chunk
      ∧ s3.recv_start = self.recv_start ∧ s3.recv_end = self.recv_end + chunk.length := by
  obtain ⟨hsz, -⟩ := inv_size_le self h
  obtain ⟨h1, h2, a, ha, hs⟩ := h
  unfold RawIOJS.fill
  rw [if_pos (by omega), size_t_of_lt _ (by omega)]
  have hl1 : (self.recv_buffer.take self.recv_end).length = self.recv_end := by
    rw [List.length_take]; omega
  have hlen : (self.recv_buffer.take self.recv_end ++ chunk
      ++ self.recv_buffer.drop (self.recv_end + chunk.length)).length
        = self.recv_buffer.length := by
    rw [List.length_append, List.length_append, hl1, List.length_drop]; omega
  refine ⟨_, rfl, ⟨by dsimp only; omega, ?_, a, ha, ?_⟩, ?_, rfl, rfl⟩
  · dsimp only
    rw [hlen]; omega
  · dsimp only
    rw [hlen, hs]
  · unfold RawIOJS.pending
    dsimp only
    have hd : (self.recv_buffer.take self.recv_end).drop self.recv_start
        = (self.recv_buffer.drop self.recv_start).take (self.recv_end - self.recv_start) := by
      rw [List.drop_take]
    have hdl : ((self.recv_buffer.take self.recv_end).drop self.recv_start).length
        = self.recv_end - self.recv_start := by
      rw [List.length_drop, hl1]
    rw [List.append_assoc, List.drop_append_of_le_length (by omega),
      show self.recv_end + chunk.length - self.recv_start
        = ((self.recv_buffer.take self.recv_end).drop self.recv_start).length + chunk.length by
          rw [hdl]; omega,
      List.take_append, List.take_left' rfl, hd]

/-- The closing copy of `recv` on a state that satisfies the invariant and
holds at least `len` pending bytes: it hands out the first `len` pending
bytes and keeps the rest. -/
theorem deliver_spec (self : RawIOJS) (len : Nat) (h : self.inv)
    (hhave : self.recv_start + len ≤ self.recv_end) :
    ∃ s4 data, self.deliver len = some (s4, data) ∧ s4.inv ∧ data.length = len
      ∧ data ++ s4.pending = self.pending := by
  obtain ⟨hsz, -⟩ := inv_size_le self h
  obtain ⟨h1, h2, a, ha, hs⟩ := h
  unfold RawIOJS.deliver
  rw [if_pos (by omega), size_t_of_lt _ (by omega)]
  refine ⟨_, _, rfl, ⟨hhave, h2, a, ha, hs⟩, ?_, ?_⟩
  · rw [List.length_take, List.length_drop]; omega
  · unfold RawIOJS.pending
    dsimp only
    rw [← List.drop_drop, show self.recv_end - self.recv_start
      = len + (self.recv_end - (self.recv_start + len)) by omega, List.take_add]

/-- One call `recv(data, len)` with `len` below `2^31` on a state that satisfies
the invariant, answered by a host that returns between `bytes_needed` and
`room` bytes: with 32 units of fuel the call returns, keeps the invariant,
delivers `len` bytes, and the bytes delivered followed by the bytes still
pending are the bytes that were pending followed by the bytes received. -/
theorem recv_spec (self : RawIOJS) (fuel len : Nat) (recv_js : Nat → Nat → List Byte)
    (h : self.inv) (hfuel : 32 ≤ fuel) (hlen : len < 2147483648)
    (hjs : ∀ n r, n ≤ r → n ≤ (recv_js n r).length ∧ (recv_js n r).length ≤ r) :
    (self.recv fuel len recv_js).outcome = .returned
      ∧ (self.recv fuel len recv_js).self.inv
      ∧ (self.recv fuel len recv_js).data.length = len
      ∧ (self.recv fuel len recv_js).data ++ (self.recv fuel len recv_js).self.pending
          = self.pending ++ (self.recv fuel len recv_js).received := by
  obtain ⟨hsz, -⟩ := inv_size_le self h
  have h0 := h
  obtain ⟨h1, h2, -⟩ := h0
  unfold RawIOJS.recv
  rw [size_t_of_lt _ (by omega)]
  by_cases hc : self.recv_start + len > self.recv_end
  · rw [if_pos hc]
    obtain ⟨s1, hcomp, hinv1, hp1, hd1, hl1, hfit1⟩ := compact_spec self len h hlen
    obtain ⟨hsz1, -⟩ := inv_size_le s1 hinv1
    have g1 := hinv1.1
    have g2 := hinv1.2.1
    have e1 : size_t (size_t (s1.recv_start + len) + 4294967296 - s1.recv_end)
        = s1.recv_start + len - s1.recv_end := by
      have ein : size_t (s1.recv_start + len) = s1.recv_start + len :=
        size_t_of_lt _ (by omega)
      rw [ein]
      exact size_t_sub _ _ (by omega) (by omega)
    have e2 : size_t (s1.recv_buffer.length + 4294967296 - s1.recv_end)
        = s1.recv_buffer.length - s1.recv_end := size_t_sub _ _ g2 (by omega)
    have hsum : (s1.recv_start + len - s1.recv_end) + s1.recv_end ≤ 2147483648 := by
      rcases hfit1 with hf | hf <;> omega
    obtain ⟨s2, hgrow, hinv2, hp2, hs2, he2, hroom2⟩ :=
      grow_spec s1 fuel (s1.recv_start + len - s1.recv_end) hinv1 hfuel hsum
    have hch := hjs (s1.recv_start + len - s1.recv_end)
      (s2.recv_buffer.length - s2.recv_end) hroom2
    obtain ⟨s3, hfill, hinv3, hp3, hs3, he3⟩ := fill_spec s2 _ hinv2 hch.2
    obtain ⟨s4, data, hdel, hinv4, hdl, hdp⟩ := deliver_spec s3 len hinv3 (by omega)
    simp only [hcomp, e1, e2, hgrow, hfill, if_neg (Nat.not_lt.mpr hch.1), hdel]
    refine ⟨trivial, hinv4, hdl, ?_⟩
    rw [hdp, hp3, hp2, hp1]
  · rw [if_neg hc]
    obtain ⟨s4, data, hdel, hinv4, hdl, hdp⟩ := deliver_spec self len h (by omega)
    simp only [hdel]
    exact ⟨trivial, hinv4, hdl, by rw [hdp, List.append_nil]⟩

/-- Successive calls of `recv` with lengths below `2^31` from a state that
satisfies the invariant, answered by a host that returns between
`bytes_needed` and `room` bytes: every call returns, the invariant holds at
the end, and the bytes delivered followed by the bytes still pending are the
bytes that were pending followed by the bytes received. -/
theorem recv_calls_spec (fuel : Nat) (recv_js : Nat → Nat → Nat → List Byte) (hfuel : 32 ≤ fuel)
    (hjs : ∀ k n r, n ≤ r → n ≤ (recv_js k n r).length ∧ (recv_js k n r).length ≤ r) :
    ∀ (lens : List Nat) (k : Nat) (self : RawIOJS), self.inv → (∀ len ∈ lens, len < 2147483648) →
      (recv_calls fuel recv_js lens k self).ok = true
        ∧ (recv_calls fuel recv_js lens k self).self.inv
        ∧ (recv_calls fuel recv_js lens k self).delivered.length = lens.sum
        ∧ (recv_calls fuel recv_js lens k self).delivered
            ++ (recv_calls fuel recv_js lens k self).self.pending
          = self.pending ++ (recv_calls fuel recv_js lens k self).received := by
  intro lens
  induction lens with
  | nil =>
    intro k self h _
    exact ⟨rfl, h, rfl, by simp [recv_calls]⟩
  | cons len lens ih =>
    intro k self h hl
    obtain ⟨r1, r2, r3, r4⟩ := recv_spec self fuel len (recv_js k) h hfuel
      (hl len (List.mem_cons_self _ _)) (hjs k)
    obtain ⟨i1, i2, i3, i4⟩ := ih (k + 1) _ r2 (fun x hx => hl x (List.mem_cons_of_mem _ hx))
    simp only [recv_calls, r1, if_true]
    refine ⟨i1, i2, ?_, ?_⟩
    · rw [List.length_append, r3, i3, List.sum_cons]
    · rw [List.append_assoc, i4, ← List.append_assoc, r4, List.append_assoc]

/-- The doubling loop of `recv` asked for more than `2^31` bytes with
`recv_end = 0`, from a size that is 0 or a power of two up to `2^31`: the size
reaches `2^31`, wraps to 0 and stays there, so no amount of fuel ends the loop. -/
theorem grow_loop_diverges (bytes_needed : Nat) (hbig : 2147483648 < bytes_needed) :
    ∀ (fuel size : Nat), (size = 0 ∨ ∃ a, a ≤ 31 ∧ size = 2 ^ a) →
      grow_loop 0 bytes_needed fuel size size = none := by
  have hpow : ∀ a, a ≤ 31 → 2 ^ a ≤ 2147483648 := by
    intro a ha
    have := Nat.pow_le_pow_right (show 0 < 2 by omega) ha
    norm_num at this
    exact this
  intro fuel
  induction fuel with
  | zero =>
    intro size hsize
    have hle : size ≤ 2147483648 := by
      rcases hsize with rfl | ⟨a, ha, rfl⟩
      · omega
      · exact hpow a ha
    simp only [grow_loop]
    rw [if_pos (by omega)]
  | succ fuel ih =>
    intro size hsize
    have hle : size ≤ 2147483648 := by
      rcases hsize with rfl | ⟨a, ha, rfl⟩
      · omega
      · exact hpow a ha
    have hnext : size_t (size * 2) = 0 ∨ ∃ b, b ≤ 31 ∧ size_t (size * 2) = 2 ^ b := by
      rcases hsize with rfl | ⟨a, ha, rfl⟩
      · left; rfl
      · by_cases h31 : a = 31
        · left
          subst h31
          unfold size_t
          norm_num
        · right
          refine ⟨a + 1, by omega, ?_⟩
          have h2 : 2 ^ a * 2 = 2 ^ (a + 1) := by rw [Nat.pow_succ]
          have := hpow (a + 1) (by omega)
          rw [h2]
          exact size_t_of_lt _ (by omega)
    have hlt : size_t (size * 2) < 4294967296 := by
      unfold size_t
      omega
    have e : size_t (size_t (size * 2) + 4294967296 - 0) = size_t (size * 2) := by
      generalize size_t (size * 2) = x at hlt
      unfold size_t
      omega
    simp only [grow_loop]
    rw [if_pos (by omega), e]
    exact ih _ hnext

/-- The compaction step of `recv` on a state with `recv_start = recv_end = 0`:
it is defined and leaves the cursors at 0 and the size of the buffer as it was. -/
theorem compact_empty (self : RawIOJS) (len : Nat) (hs : self.recv_start = 0)
    (he : self.recv_end = 0) :
    ∃ s1, self.compact len = some s1 ∧ s1.recv_start = 0 ∧ s1.recv_end = 0
      ∧ s1.recv_buffer.length = self.recv_buffer.length := by
  have e1 : size_t (self.recv_end + 4294967296 - self.recv_start) = 0 := by
    rw [hs, he]
    unfold size_t
    norm_num
  unfold RawIOJS.compact
  by_cases hc : size_t (self.recv_start + len) > self.recv_buffer.length
  · rw [if_pos hc]
    dsimp only
    rw [e1, if_pos (by omega)]
    refine ⟨_, rfl, rfl, rfl, ?_⟩
    dsimp only
    rw [List.take_zero, List.nil_append, List.drop_zero]
  · rw [if_neg hc]
    exact ⟨self, rfl, hs, he, rfl⟩

/-- A call `recv(data, len)` with `len` above `2^31` on a receive state with
`recv_start = recv_end = 0` and a buffer of `2^16` bytes never leaves its
doubling loop. -/
theorem recv_huge_len_diverges (self : RawIOJS) (hs : self.recv_start = 0)
    (he : self.recv_end = 0) (hl : self.recv_buffer.length = 65536) (fuel len : Nat)
    (hbig : 2147483648 < len) (hlen : len < 4294967296) (recv_js : Nat → Nat → List Byte) :
    (self.recv fuel len recv_js).outcome = .out_of_fuel := by
  obtain ⟨s1, hcomp, hs1, he1, hl1⟩ := compact_empty self len hs he
  have e0 : size_t (self.recv_start + len) = len := by
    rw [hs, Nat.zero_add]
    exact size_t_of_lt _ hlen
  have e1 : size_t (size_t (s1.recv_start + len) + 4294967296 - s1.recv_end) = len := by
    rw [hs1, he1, Nat.zero_add, size_t_of_lt _ hlen]
    unfold size_t
    omega
  have e2 : size_t (s1.recv_buffer.length + 4294967296 - s1.recv_end)
      = s1.recv_buffer.length := by
    rw [he1, hl1, hl]
    unfold size_t
    norm_num
  have hloop := grow_loop_diverges len hbig fuel s1.recv_buffer.length
    (Or.inr ⟨16, by omega, by rw [hl1, hl]; norm_num⟩)
  have hgrow : s1.grow fuel len s1.recv_buffer.length = none := by
    unfold RawIOJS.grow
    rw [if_pos (by omega), he1, hloop]
    rfl
  unfold RawIOJS.recv
  rw [e0, if_pos (by omega)]
  simp only [hcomp, e1, e2, hgrow]

/-- The receive state the constructor builds satisfies the invariant. -/
theorem init_inv : RawIOJS.init.inv := by
  have hl : RawIOJS.init.recv_buffer.length = 65536 := List.length_replicate _ _
  refine ⟨le_refl _, ?_, 16, by omega, ?_⟩
  · rw [hl]
    exact Nat.zero_le _
  · rw [hl]
    norm_num

/-- C23 as stated fails: a freshly constructed `RawIOJS` (a buffer of `2^16`
bytes, `recv_start = recv_end = 0`) satisfies the invariant, the host that
answers a request for at least n bytes with n bytes returns between
`bytes_needed` and `room` bytes, and yet the call `recv(data, 2^31 + 1)` never
leaves its doubling loop: `size` doubles up to `2^31`, then `size *= 2` wraps
to 0 in the 32-bit `size_t` and `room` stays 0, however many passes are
allowed. -/
theorem recv_doubling_loop_never_ends :
    RawIOJS.init.inv
    ∧ (∀ n r : Nat, n ≤ r →
        n ≤ (List.replicate n (0 : Byte)).length ∧ (List.replicate n (0 : Byte)).length ≤ r)
    ∧ ∀ fuel : Nat,
        (RawIOJS.init.recv fuel 2147483649 (fun n _ => List.replicate n 0)).outcome
          = .out_of_fuel :=
  ⟨init_inv,
    fun n r hnr => by
      rw [List.length_replicate]
      exact ⟨le_refl _, hnr⟩,
    fun fuel =>
      recv_huge_len_diverges RawIOJS.init rfl rfl (List.length_replicate _ _) fuel 2147483649
        (by omega) (by omega) _⟩

/-- C23 (amended): for successive calls `recv(data, len)` with every `len` below
`2^31`, from a receive state with `recv_start <= recv_end <=
recv_buffer.size()` and a buffer size that is a power of two up to `2^31`
(such as the state the constructor builds), when each `recv_js` call returns
between `bytes_needed` and `room` bytes: every call returns (its doubling loop
ends within 32 passes), the invariant holds afterwards, and the bytes
delivered are the first `sum of the lengths` bytes of the pending bytes
followed by the chunks returned by `recv_js`, in order; from a state without
pending bytes they are a prefix of the concatenation of the chunks. -/
theorem recv_delivers_in_order (fuel : Nat) (recv_js : Nat → Nat → Nat → List Byte)
    (lens : List Nat) (self : RawIOJS) (hfuel : 32 ≤ fuel)
    (hjs : ∀ k n r, n ≤ r → n ≤ (recv_js k n r).length ∧ (recv_js k n r).length ≤ r)
    (hinv : self.inv) (hlens : ∀ len ∈ lens, len < 2147483648) :
    (recv_calls fuel recv_js lens 0 self).ok = true
      ∧ (recv_calls fuel recv_js lens 0 self).self.inv
      ∧ (recv_calls fuel recv_js lens 0 self).delivered.length = lens.sum
      ∧ (recv_calls fuel recv_js lens 0 self).delivered
          = (self.pending ++ (recv_calls fuel recv_js lens 0 self).received).take lens.sum
      ∧ (self.recv_start = self.recv_end →
          (recv_calls fuel recv_js lens 0 self).delivered
            = ((recv_calls fuel recv_js lens 0 self).received).take lens.sum) := by
  obtain ⟨h1, h2, h3, h4⟩ := recv_calls_spec fuel recv_js hfuel hjs lens 0 self hinv hlens
  have hpre : (recv_calls fuel recv_js lens 0 self).delivered
      = (self.pending ++ (recv_calls fuel recv_js lens 0 self).received).take lens.sum := by
    rw [← h4, ← h3, List.take_left' rfl]
  refine ⟨h1, h2, h3, hpre, ?_⟩
  intro heq
  have hp : self.pending = [] := by
    unfold RawIOJS.pending
    rw [heq, Nat.sub_self, List.take_zero]
  rw [hp, List.nil_append] at hpre
  exact hpre

theorem recv_delivers_in_order_witness :
    (recv_calls 32 (fun _ n _ => List.replicate n 7) [3, 2] 0 ⟨[0, 0, 0, 0], 0, 0⟩).ok = true :=
  (recv_delivers_in_order 32 (fun _ n _ => List.replicate n 7) [3, 2] ⟨[0, 0, 0, 0], 0, 0⟩
    (by decide)
    (by
      intro k n r hnr
      rw [List.length_replicate]
      exact ⟨le_refl _, hnr⟩)
    ⟨by decide, by decide, 2, by decide, by decide⟩
    (by decide)).1

end emp
